import Mathlib

/-!
# A verification development for the `pacm` package manager

Shallow embedding of the core algorithms of the `pacm` codebase:
the binary lockfile codec (`src/lockfile.rs`), the content-addressed
store and tarball cache (`src/cache/mod.rs`), the resolver and range
canonicalizer (`src/resolver/mod.rs`), the platform filter
(`src/cli/commands/install/platform.rs`) and lockfile pruning
(`src/cli/commands/install/prune.rs`).

Machine integers are modelled as `Nat` with explicit reductions modulo
`2 ^ w` where overflow matters.  Rust `String` values that travel through
the byte-oriented lockfile codec are modelled as their UTF-8 byte
sequences (`List Nat`, each element `< 256`); strings handled purely at
the text level (resolver ranges, package names fed to the graph hash)
are modelled as Lean `String`.  Fallible Rust functions returning
`anyhow::Result` are modelled with `Except` over small inductive error
types naming the `bail!` sites.
-/

namespace Pacm

/-! ## Byte and word helpers -/

/-- Worker for `chunks`: `cur` is the current chunk reversed, `k` the
remaining capacity of the current chunk. -/
def chunksAux (n : Nat) : List Nat → List Nat → Nat → List (List Nat)
  | [], cur, _ => if cur.isEmpty then [] else [cur.reverse]
  | a :: l, cur, 0 => cur.reverse :: chunksAux n l [a] n
  | a :: l, cur, k + 1 => chunksAux n l (a :: cur) k

/-- Split a list into chunks of `n + 1` elements (the successor argument
makes the chunk size positive by construction). -/
def chunks (n : Nat) (l : List Nat) : List (List Nat) :=
  chunksAux n l [] (n + 1)

/-- Big-endian byte encoding of `v` in exactly `n` bytes. -/
def beBytes : Nat → Nat → List Nat
  | 0, _ => []
  | n + 1, v => beBytes n (v / 256) ++ [v % 256]

/-- Assemble big-endian bytes into one natural number. -/
def beWord (bytes : List Nat) : Nat :=
  bytes.foldl (fun acc b => acc * 256 + b) 0

/-- Right rotation of a `w`-bit word. -/
def rotr (w n x : Nat) : Nat :=
  ((x >>> n) ||| (x <<< (w - n))) % (2 ^ w)

/-! ## SHA-256 (used by `compute_graph_hash` and `content_hash`) -/

def sha256K : List Nat :=
  [ 1116352408, 1899447441, 3049323471, 3921009573, 961987163, 1508970993,
   2453635748, 2870763221, 3624381080, 310598401, 607225278, 1426881987,
   1925078388, 2162078206, 2614888103, 3248222580, 3835390401, 4022224774,
   264347078, 604807628, 770255983, 1249150122, 1555081692, 1996064986,
   2554220882, 2821834349, 2952996808, 3210313671, 3336571891, 3584528711,
   113926993, 338241895, 666307205, 773529912, 1294757372, 1396182291,
   1695183700, 1986661051, 2177026350, 2456956037, 2730485921, 2820302411,
   3259730800, 3345764771, 3516065817, 3600352804, 4094571909, 275423344,
   430227734, 506948616, 659060556, 883997877, 958139571, 1322822218,
   1537002063, 1747873779, 1955562222, 2024104815, 2227730452, 2361852424,
   2428436474, 2756734187, 3204031479, 3329325298]

def sha256Init : List Nat :=
  [ 1779033703, 3144134277, 1013904242, 2773480762, 1359893119, 2600822924,
   528734635, 1541459225]

/-- SHA-2 message padding: `0x80`, zeros, then the bit length in a
big-endian field of `lenBytes` bytes, to a multiple of `blockLen`. -/
def sha2Pad (blockLen lenBytes : Nat) (msg : List Nat) : List Nat :=
  let l := msg.length
  let k := (blockLen - (l + 1 + lenBytes) % blockLen) % blockLen
  msg ++ [0x80] ++ List.replicate k 0 ++ beBytes lenBytes (l * 8)

/-- Extend a reversed message schedule by `steps` words
(`f1` is the small sigma on `W[t-2]`, `f0` on `W[t-15]`, `m` the word modulus). -/
def sha2ExtendRev (f1 f0 : Nat → Nat) (m : Nat) : Nat → List Nat → List Nat
  | 0, acc => acc
  | steps + 1, acc =>
      let w := (f1 (acc.getD 1 0) + acc.getD 6 0 + f0 (acc.getD 14 0)
                + acc.getD 15 0) % m
      sha2ExtendRev f1 f0 m steps (w :: acc)

def sha256SmallSig0 (x : Nat) : Nat := rotr 32 7 x ^^^ rotr 32 18 x ^^^ (x >>> 3)
def sha256SmallSig1 (x : Nat) : Nat := rotr 32 17 x ^^^ rotr 32 19 x ^^^ (x >>> 10)
def sha256BigSig0 (x : Nat) : Nat := rotr 32 2 x ^^^ rotr 32 13 x ^^^ rotr 32 22 x
def sha256BigSig1 (x : Nat) : Nat := rotr 32 6 x ^^^ rotr 32 11 x ^^^ rotr 32 25 x

def sha2Ch (e f g : Nat) (mask : Nat) : Nat := (e &&& f) ^^^ ((e ^^^ mask) &&& g)
def sha2Maj (a b c : Nat) : Nat := (a &&& b) ^^^ (a &&& c) ^^^ (b &&& c)

/-- One SHA-2 compression round, parameterized by the big sigmas and modulus. -/
def sha2Round (bigSig1 bigSig0 : Nat → Nat) (m mask : Nat)
    (st : List Nat) (kw : Nat × Nat) : List Nat :=
  match st with
  | [a, b, c, d, e, f, g, h] =>
      let t1 := (h + bigSig1 e + sha2Ch e f g mask + kw.1 + kw.2) % m
      let t2 := (bigSig0 a + sha2Maj a b c) % m
      [(t1 + t2) % m, a, b, c, (d + t1) % m, e, f, g]
  | other => other

/-- Process one 64-byte SHA-256 block. -/
def sha256Block (h : List Nat) (block : List Nat) : List Nat :=
  let w0 := (chunks 3 block).map beWord
  let w := (sha2ExtendRev sha256SmallSig1 sha256SmallSig0 (2 ^ 32) 48
            w0.reverse).reverse
  let st := (sha256K.zip w).foldl
    (sha2Round sha256BigSig1 sha256BigSig0 (2 ^ 32) 0xffffffff) h
  (h.zip st).map (fun p => (p.1 + p.2) % 2 ^ 32)

/-- SHA-256 digest of a byte sequence, as 32 bytes. -/
def sha256 (msg : List Nat) : List Nat :=
  let hFinal := (chunks 63 (sha2Pad 64 8 msg)).foldl sha256Block sha256Init
  hFinal.foldr (fun w acc => beBytes 4 w ++ acc) []

/-! ## SHA-512 (used by `ensure_cached_package` integrity checking) -/

def sha512K : List Nat :=
  [ 4794697086780616226, 8158064640168781261, 13096744586834688815,
   16840607885511220156, 4131703408338449720, 6480981068601479193,
   10538285296894168987, 12329834152419229976, 15566598209576043074,
   1334009975649890238, 2608012711638119052, 6128411473006802146,
   8268148722764581231, 9286055187155687089, 11230858885718282805,
   13951009754708518548, 16472876342353939154, 17275323862435702243,
   1135362057144423861, 2597628984639134821, 3308224258029322869,
   5365058923640841347, 6679025012923562964, 8573033837759648693,
   10970295158949994411, 12119686244451234320, 12683024718118986047,
   13788192230050041572, 14330467153632333762, 15395433587784984357,
   489312712824947311, 1452737877330783856, 2861767655752347644,
   3322285676063803686, 5560940570517711597, 5996557281743188959,
   7280758554555802590, 8532644243296465576, 9350256976987008742,
   10552545826968843579, 11727347734174303076, 12113106623233404929,
   14000437183269869457, 14369950271660146224, 15101387698204529176,
   15463397548674623760, 17586052441742319658, 1182934255886127544,
   1847814050463011016, 2177327727835720531, 2830643537854262169,
   3796741975233480872, 4115178125766777443, 5681478168544905931,
   6601373596472566643, 7507060721942968483, 8399075790359081724,
   8693463985226723168, 9568029438360202098, 10144078919501101548,
   10430055236837252648, 11840083180663258601, 13761210420658862357,
   14299343276471374635, 14566680578165727644, 15097957966210449927,
   16922976911328602910, 17689382322260857208, 500013540394364858,
   748580250866718886, 1242879168328830382, 1977374033974150939,
   2944078676154940804, 3659926193048069267, 4368137639120453308,
   4836135668995329356, 5532061633213252278, 6448918945643986474,
   6902733635092675308, 7801388544844847127]

def sha512Init : List Nat :=
  [ 7640891576956012808, 13503953896175478587, 4354685564936845355,
   11912009170470909681, 5840696475078001361, 11170449401992604703,
   2270897969802886507, 6620516959819538809]

def sha512SmallSig0 (x : Nat) : Nat := rotr 64 1 x ^^^ rotr 64 8 x ^^^ (x >>> 7)
def sha512SmallSig1 (x : Nat) : Nat := rotr 64 19 x ^^^ rotr 64 61 x ^^^ (x >>> 6)
def sha512BigSig0 (x : Nat) : Nat := rotr 64 28 x ^^^ rotr 64 34 x ^^^ rotr 64 39 x
def sha512BigSig1 (x : Nat) : Nat := rotr 64 14 x ^^^ rotr 64 18 x ^^^ rotr 64 41 x

/-- Process one 128-byte SHA-512 block. -/
def sha512Block (h : List Nat) (block : List Nat) : List Nat :=
  let w0 := (chunks 7 block).map beWord
  let w := (sha2ExtendRev sha512SmallSig1 sha512SmallSig0 (2 ^ 64) 64
            w0.reverse).reverse
  let st := (sha512K.zip w).foldl
    (sha2Round sha512BigSig1 sha512BigSig0 (2 ^ 64) 0xffffffffffffffff) h
  (h.zip st).map (fun p => (p.1 + p.2) % 2 ^ 64)

/-- SHA-512 digest of a byte sequence, as 64 bytes. -/
def sha512 (msg : List Nat) : List Nat :=
  let hFinal := (chunks 127 (sha2Pad 128 16 msg)).foldl sha512Block sha512Init
  hFinal.foldr (fun w acc => beBytes 8 w ++ acc) []

/-! ## Base64 (`base64::engine::general_purpose::STANDARD`) -/

def base64Alphabet : List Char :=
  "ABCDEFGHIJKLMNOPQRSTUVWXYZabcdefghijklmnopqrstuvwxyz0123456789+/".data

def base64CharOf (v : Nat) : Char := base64Alphabet.getD v 'A'

/-- Standard base64 encoding with `=` padding. -/
def base64Encode : List Nat → String
  | [] => ""
  | [b0] =>
      String.mk [base64CharOf (b0 / 4), base64CharOf (b0 % 4 * 16), '=', '=']
  | [b0, b1] =>
      String.mk [base64CharOf (b0 / 4), base64CharOf (b0 % 4 * 16 + b1 / 16),
                 base64CharOf (b1 % 16 * 4), '=']
  | b0 :: b1 :: b2 :: rest =>
      String.mk [base64CharOf (b0 / 4), base64CharOf (b0 % 4 * 16 + b1 / 16),
                 base64CharOf (b1 % 16 * 4 + b2 / 64), base64CharOf (b2 % 64)]
        ++ base64Encode rest

/-- Value of one base64 symbol. -/
def base64Val (c : Char) : Option Nat :=
  base64Alphabet.indexOf? c

/-- Decode a run of base64 symbols; strict about symbol set, canonical
padding and zero trailing bits, mirroring the strict `STANDARD` engine. -/
def base64DecodeChars : List Char → Option (List Nat)
  | [] => some []
  | [c0, c1, '=', '='] => do
      let v0 ← base64Val c0
      let v1 ← base64Val c1
      if v1 % 16 = 0 then some [v0 * 4 + v1 / 16] else none
  | [c0, c1, c2, '='] => do
      let v0 ← base64Val c0
      let v1 ← base64Val c1
      let v2 ← base64Val c2
      if v2 % 4 = 0 then some [v0 * 4 + v1 / 16, v1 % 16 * 16 + v2 / 4] else none
  | c0 :: c1 :: c2 :: c3 :: rest => do
      let v0 ← base64Val c0
      let v1 ← base64Val c1
      let v2 ← base64Val c2
      let v3 ← base64Val c3
      let tail ← base64DecodeChars rest
      some ([v0 * 4 + v1 / 16, v1 % 16 * 16 + v2 / 4, v2 % 4 * 64 + v3] ++ tail)
  | _ => none

def base64Decode (s : String) : Option (List Nat) :=
  base64DecodeChars s.data

/-! ## Base32 (`data_encoding::BASE32_NOPAD`) -/

def base32Alphabet : List Char := "ABCDEFGHIJKLMNOPQRSTUVWXYZ234567".data

/-- Byte list to most-significant-first bit list. -/
def bytesToBits (bytes : List Nat) : List Bool :=
  bytes.foldr (fun b acc =>
    (List.range 8).map (fun i => b / 2 ^ (7 - i) % 2 == 1) ++ acc) []

def bitsVal (bits : List Bool) : Nat :=
  bits.foldl (fun acc b => acc * 2 + (if b then 1 else 0)) 0

/-- RFC 4648 base32 without padding. -/
def base32NopadEncode (bytes : List Nat) : String :=
  let bits := bytesToBits bytes
  let groups := chunks 4 (bits.map (fun b => if b then 1 else 0))
  String.mk (groups.map (fun g =>
    base32Alphabet.getD (beWordBase2 g) 'A'))
where
  beWordBase2 (g : List Nat) : Nat :=
    (g ++ List.replicate (5 - g.length) 0).foldl (fun acc b => acc * 2 + b) 0

/-! ## UTF-8 -/

/-- UTF-8 encoding of one Unicode scalar value. -/
def utf8EncodeScalar (c : Nat) : List Nat :=
  if c < 0x80 then [c]
  else if c < 0x800 then [0xC0 + c / 64, 0x80 + c % 64]
  else if c < 0x10000 then
    [0xE0 + c / 4096, 0x80 + c / 64 % 64, 0x80 + c % 64]
  else
    [0xF0 + c / 262144, 0x80 + c / 4096 % 64, 0x80 + c / 64 % 64, 0x80 + c % 64]

/-- UTF-8 bytes of a Lean string (Rust `str::as_bytes`). -/
def strBytes (s : String) : List Nat :=
  s.data.foldr (fun c acc => utf8EncodeScalar c.toNat ++ acc) []

/-- Is a byte a UTF-8 continuation byte? -/
def utf8Cont (b : Nat) : Bool := 0x80 ≤ b && b ≤ 0xBF

/-- State machine for Rust's `str::from_utf8` validation: `need` is the
number of outstanding continuation bytes, `(lo, hi)` the admissible range
of the next continuation byte (the first continuation byte after `E0`,
`ED`, `F0`, `F4` has a restricted range excluding overlong encodings,
surrogates and values above `U+10FFFF`). -/
def validUtf8Go : List Nat → Nat → Nat → Nat → Bool
  | [], need, _, _ => need == 0
  | b :: rest, 0, _, _ =>
      if b < 0x80 then validUtf8Go rest 0 0 0
      else if 0xC2 ≤ b && b ≤ 0xDF then validUtf8Go rest 1 0x80 0xBF
      else if b == 0xE0 then validUtf8Go rest 2 0xA0 0xBF
      else if (0xE1 ≤ b && b ≤ 0xEC) || b == 0xEE || b == 0xEF then
        validUtf8Go rest 2 0x80 0xBF
      else if b == 0xED then validUtf8Go rest 2 0x80 0x9F
      else if b == 0xF0 then validUtf8Go rest 3 0x90 0xBF
      else if 0xF1 ≤ b && b ≤ 0xF3 then validUtf8Go rest 3 0x80 0xBF
      else if b == 0xF4 then validUtf8Go rest 3 0x80 0x8F
      else false
  | b :: rest, need + 1, lo, hi =>
      (lo ≤ b && b ≤ hi) && validUtf8Go rest need 0x80 0xBF

/-- The validation used by Rust's `str::from_utf8`: well-formed sequences,
no overlong encodings, no surrogates, maximum `U+10FFFF`. -/
def validUtf8 (l : List Nat) : Bool :=
  validUtf8Go l 0 0 0

/-! ## Platform filter (`cli/commands/install/platform.rs`)

`platform_supported` reads the host tokens from `node_platform()` /
`node_arch()`, which are compile-time constants; the embedding takes them
as parameters so the theorems quantify over the host. -/

/-- Rust `str::starts_with` (kernel-computable, unlike `String.startsWith`). -/
def strHasPref (s p : String) : Bool :=
  p.data.isPrefixOf s.data

/-- Rust `s.strip_prefix('!')`. -/
def stripBang (s : String) : Option String :=
  if strHasPref s "!" then some (s.drop 1) else none

/-- The per-list loop of `platform_supported`: accumulates
`(allowed : Option Bool, blocked : Bool)` exactly as the Rust `for` loop. -/
def platformLoop (host : String) : List String → Option Bool × Bool → Option Bool × Bool
  | [], st => st
  | item :: rest, (allowed, blocked) =>
      match stripBang item with
      | some stripped =>
          platformLoop host rest (allowed, blocked || (stripped == host))
      | none =>
          platformLoop host rest (some (allowed.getD false || (item == host)), blocked)

/-- One list's verdict: empty accepts; otherwise run the loop and require
`!blocked && allowed.unwrap_or(true)`. -/
def platformListOk (host : String) (list : List String) : Bool :=
  if list.isEmpty then true
  else
    let st := platformLoop host list (none, false)
    !st.2 && st.1.getD true

/-- `platform_supported(os_list, cpu_list)` with explicit host tokens. -/
def platformSupported (hostOs hostCpu : String) (osList cpuList : List String) : Bool :=
  platformListOk hostOs osList && platformListOk hostCpu cpuList

/-- The acceptance condition as the specification words it: the host is
not named by any `!`-prefixed entry, and either the list has no
unprefixed entries or the host equals some unprefixed entry. -/
def SpecListAccepts (host : String) (list : List String) : Prop :=
  (∀ e ∈ list, e ≠ "!" ++ host) ∧
  ((∀ e ∈ list, strHasPref e "!" = true) ∨
   ∃ e ∈ list, strHasPref e "!" = false ∧ e = host)

instance (host : String) (list : List String) : Decidable (SpecListAccepts host list) := by
  unfold SpecListAccepts; infer_instance

/-! ## Tarball cache (`cache/mod.rs`, `ensure_cached_package`)

The filesystem side is modelled as the list of relative paths the
extraction loop unpacks below the temporary `package/` root, plus a flag
recording whether the temporary directory was renamed into its final
place.  The single-inner-directory promotion (which only renames files
already inside the temporary root) and the actual byte unpacking are
abstracted away; gzip/tar parsing is abstracted by passing the archive's
entry paths (as parsed `std::path::Component` lists) alongside the raw
bytes. -/

/-- A parsed `std::path::Component`. -/
inductive PathComp where
  | normal (s : String)
  | parentDir
  | curDir
  | rootDir
deriving DecidableEq, Repr

/-- Does the entry path contain a parent-traversal component? -/
def hasParentComp (comps : List PathComp) : Bool :=
  comps.any (· == PathComp.parentDir)

/-- `comps.len() > 1 && comps[0] == "package"` → drop the leading
`package/` directory, else keep the path. -/
def stripPackageRoot (comps : List PathComp) : List PathComp :=
  match comps with
  | PathComp.normal s :: rest =>
      if s = "package" && rest.length > 0 then rest else PathComp.normal s :: rest
  | other => other

/-- The relative destination paths unpacked by the extraction loop:
entries with a `..` component are skipped, the internal `package/`
root is stripped, empty remainders are skipped. -/
def extractedPaths : List (List PathComp) → List (List PathComp)
  | [] => []
  | e :: rest =>
      if hasParentComp e then extractedPaths rest
      else
        let stripped := stripPackageRoot e
        if stripped.isEmpty then extractedPaths rest
        else stripped :: extractedPaths rest

/-- Failure cases of `ensure_cached_package` that the model distinguishes
(both are `anyhow::bail!` / `.context` sites in the source). -/
inductive CacheError where
  | base64DecodeFailed
  | integrityMismatch (expected computed : String)
deriving DecidableEq, Repr

/-- Filesystem-visible outcome of `ensure_cached_package`: the relative
paths written under the temporary extraction root, whether the temporary
directory was renamed into the final cache location, and the returned
integrity string or error. -/
structure CacheOutcome where
  writes : List (List PathComp)
  renamed : Bool
  result : Except CacheError String
deriving Repr

/-- `ensure_cached_package(name, version, bytes, integrity_hint)`.
`markerExists` models `cache_package_path(name, version).exists()`;
`entries` models the paths of the tar archive parsed from `bytes`. -/
def ensureCachedPackage (markerExists : Bool) (entries : List (List PathComp))
    (bytes : List Nat) (integrityHint : Option String) : CacheOutcome :=
  let digest := sha512 bytes
  let computedIntegrity := "sha512-" ++ base64Encode digest
  let check : Except CacheError Unit :=
    match integrityHint with
    | some integrity =>
        if strHasPref integrity "sha512-" then
          match base64Decode (integrity.drop 7) with
          | none => Except.error CacheError.base64DecodeFailed
          | some raw =>
              if raw ≠ digest then
                Except.error (CacheError.integrityMismatch integrity computedIntegrity)
              else Except.ok ()
        else Except.ok ()
    | none => Except.ok ()
  match check with
  | Except.error e => { writes := [], renamed := false, result := Except.error e }
  | Except.ok () =>
      if markerExists then
        { writes := [], renamed := false,
          result := Except.ok (integrityHint.getD computedIntegrity) }
      else
        { writes := extractedPaths entries, renamed := true,
          result := Except.ok (integrityHint.getD computedIntegrity) }

/-! ## Lexicographic comparators

Rust's `str::cmp` is byte-wise lexicographic on UTF-8, which coincides
with code-point-wise lexicographic comparison; these comparators are
kernel-computable (Lean's `String.lt` is not). -/

def lexCmpWith (c : α → α → Ordering) : List α → List α → Ordering
  | [], [] => Ordering.eq
  | [], _ :: _ => Ordering.lt
  | _ :: _, [] => Ordering.gt
  | a :: as, b :: bs =>
      match c a b with
      | Ordering.eq => lexCmpWith c as bs
      | o => o

def natCmp (a b : Nat) : Ordering :=
  if a < b then Ordering.lt else if b < a then Ordering.gt else Ordering.eq

def charCmp (a b : Char) : Ordering := natCmp a.toNat b.toNat

/-- Rust `str::cmp`. -/
def strCmp (a b : String) : Ordering := lexCmpWith charCmp a.data b.data

def strLeB (a b : String) : Bool := strCmp a b != Ordering.gt
def strLtB (a b : String) : Bool := strCmp a b == Ordering.lt

/-! ## Graph hash (`cache/mod.rs`, `compute_graph_hash`) -/

/-- `DependencyFingerprint { name, version, store_key }`. -/
structure DependencyFingerprint where
  name : String
  version : String
  store_key : Option String
deriving DecidableEq, Repr

def hexDigitChar (n : Nat) : Char := "0123456789abcdef".data.getD n '0'

/-- `serde_json` string escaping: `"`, `\`, the short control escapes, and
`\u00XX` for remaining control characters; all other characters verbatim. -/
def jsonEscapeChar (c : Char) : List Char :=
  if c = '"' then ['\\', '"']
  else if c = '\\' then ['\\', '\\']
  else if c.toNat ≥ 0x20 then [c]
  else if c.toNat = 0x08 then ['\\', 'b']
  else if c.toNat = 0x09 then ['\\', 't']
  else if c.toNat = 0x0A then ['\\', 'n']
  else if c.toNat = 0x0C then ['\\', 'f']
  else if c.toNat = 0x0D then ['\\', 'r']
  else ['\\', 'u', '0', '0', hexDigitChar (c.toNat / 16), hexDigitChar (c.toNat % 16)]

def jsonString (s : String) : List Char :=
  '"' :: s.data.flatMap jsonEscapeChar ++ ['"']

/-- Compact `serde_json` serialization of one `GraphItem`
(field order `name`, `version`, `store_key`; `None` becomes `null`). -/
def graphItemJson (d : DependencyFingerprint) : List Char :=
  "\x7b\"name\":".data ++ jsonString d.name
    ++ ",\"version\":".data ++ jsonString d.version
    ++ ",\"store_key\":".data
    ++ (match d.store_key with
        | some k => jsonString k
        | none => "null".data)
    ++ "\x7d".data

/-- Compact `serde_json` serialization of the sorted `Vec<GraphItem>`. -/
def graphItemsJson (items : List DependencyFingerprint) : List Char :=
  '[' :: ((items.map graphItemJson).intersperse [',']).flatten ++ [']']

/-- `items.sort_by(|a, b| a.name.cmp(&b.name))`: a stable sort by name
(insertion sort with a non-strict comparison is stable, like Rust's
`sort_by`). -/
def sortByName (deps : List DependencyFingerprint) : List DependencyFingerprint :=
  List.insertionSort (fun a b => strLeB a.name b.name = true) deps

/-- `compute_graph_hash(name, version, deps) -> (graph_hash, store_key)`. -/
def computeGraphHash (name version : String) (deps : List DependencyFingerprint) :
    String × String :=
  let items := sortByName deps
  let serialized := strBytes (String.mk (graphItemsJson items))
  let graphHash := base32NopadEncode (sha256 serialized)
  (graphHash, name ++ "@" ++ version ++ "::" ++ graphHash)

/-! ## CAS store (`cache/mod.rs`, `CasStore::ensure_entry`)

Paths are modelled as segment lists relative to the store root; the
filesystem is modelled as the association list of directories whose
`metadata.json` exists, mapped to the decoded metadata.  Reads of the
staged source tree (`content_hash`, total size via
`compute_tree_content_hash`, the `.registry-scripts.json` sidecar) and
the clock are inputs, since they are read from outside the store. -/

structure StoredDependency where
  name : String
  version : String
  store_key : Option String
deriving DecidableEq, Repr

structure StoreMetadata where
  store_key : String
  name : String
  version : String
  graph_hash : String
  content_hash : String
  size : Nat
  created_at : Nat
  integrity : Option String
  resolved : Option String
  dependencies : List StoredDependency
  scripts : List (String × String)
deriving DecidableEq, Repr

structure StoreEntry where
  store_key : String
  name : String
  version : String
  graph_hash : String
  content_hash : String
  size : Nat
  integrity : Option String
  resolved : Option String
  created_at : Nat
  dependencies : List StoredDependency
  root_dir : List String
  package_dir : List String
  metadata_path : List String
deriving DecidableEq, Repr

/-- Split a string at a separator character (Rust `str::split`),
kernel-computable. -/
def splitChar (sep : Char) (s : List Char) : List (List Char) :=
  match s with
  | [] => [[]]
  | c :: rest =>
      let tail := splitChar sep rest
      if c = sep then [] :: tail
      else
        match tail with
        | t :: ts => (c :: t) :: ts
        | [] => [[c]]

def splitStr (sep : Char) (s : String) : List String :=
  (splitChar sep s.data).map String.mk

/-- `CasStore::store_dir_for`: scope segments of the name, then
`<last>@<version>_<graph_hash>`, under `packages/`. -/
def storeDirFor (name version graphHash : String) : List String :=
  let parts := splitStr '/' name
  match parts.getLast? with
  | some last => "packages" :: parts.dropLast ++ [last ++ "@" ++ version ++ "_" ++ graphHash]
  | none => ["packages", name ++ "@" ++ version ++ "_" ++ graphHash]

/-- The store filesystem: directories whose `metadata.json` is present. -/
def CasFs := List (List String × StoreMetadata)

def casLookup (fs : CasFs) (dir : List String) : Option StoreMetadata :=
  match fs with
  | [] => none
  | (d, md) :: rest => if d = dir then some md else casLookup rest dir

/-- `build_store_entry(dir, metadata)`. -/
def buildStoreEntry (dir : List String) (md : StoreMetadata) : StoreEntry :=
  { store_key := md.store_key, name := md.name, version := md.version,
    graph_hash := md.graph_hash, content_hash := md.content_hash,
    size := md.size, integrity := md.integrity, resolved := md.resolved,
    created_at := md.created_at, dependencies := md.dependencies,
    root_dir := dir, package_dir := dir ++ ["package"],
    metadata_path := dir ++ ["metadata.json"] }

/-- Inputs of `ensure_entry` read from outside the store: the content
hash and total size computed over the staged copy of `source_dir`, the
scripts sidecar, and the timestamp. -/
structure EnsureEnv where
  contentHash : String
  totalSize : Nat
  scripts : List (String × String)
  now : Nat
deriving Repr

/-- `CasStore::ensure_entry`.  In this sequential model the final
`rename` succeeds whenever the metadata was absent, so the
concurrent-producer retry branch is unreachable. -/
def ensureEntry (fs : CasFs) (name version : String)
    (deps : List DependencyFingerprint) (integrity resolved : Option String)
    (env : EnsureEnv) : CasFs × StoreEntry :=
  let gh := (computeGraphHash name version deps).1
  let sk := (computeGraphHash name version deps).2
  let finalDir := storeDirFor name version gh
  match casLookup fs finalDir with
  | some md => (fs, buildStoreEntry finalDir md)
  | none =>
      let md : StoreMetadata :=
        { store_key := sk, name := name, version := version, graph_hash := gh,
          content_hash := env.contentHash, size := env.totalSize,
          created_at := env.now, integrity := integrity, resolved := resolved,
          dependencies := deps.map (fun d =>
            { name := d.name, version := d.version, store_key := d.store_key }),
          scripts := env.scripts }
      ((finalDir, md) :: fs,
       { store_key := sk, name := md.name, version := md.version,
         graph_hash := gh, content_hash := md.content_hash, size := md.size,
         integrity := md.integrity, resolved := md.resolved,
         created_at := md.created_at, dependencies := md.dependencies,
         root_dir := finalDir, package_dir := finalDir ++ ["package"],
         metadata_path := finalDir ++ ["metadata.json"] })

/-! ## Semver versions (the `semver` crate as consumed by `resolver/mod.rs`)

`resolver/mod.rs` delegates version and requirement semantics to the
Rust `semver` crate; the crate's parsing, ordering and matching rules
are embedded here since they are not part of the repository's sources.
-/

/-- A prerelease identifier: all-digit identifiers compare numerically
and are less than alphanumeric identifiers. -/
inductive PreIdent where
  | num (n : Nat)
  | alpha (s : String)
deriving DecidableEq, Repr

structure SemverVersion where
  major : Nat
  minor : Nat
  patch : Nat
  pre : List PreIdent
  build : List String
deriving DecidableEq, Repr

def preIdentCmp : PreIdent → PreIdent → Ordering
  | PreIdent.num m, PreIdent.num n => natCmp m n
  | PreIdent.num _, PreIdent.alpha _ => Ordering.lt
  | PreIdent.alpha _, PreIdent.num _ => Ordering.gt
  | PreIdent.alpha s, PreIdent.alpha t => strCmp s t

/-- Prerelease ordering: an empty prerelease is greatest (a release
compares above its prereleases); otherwise identifier-wise
lexicographic. -/
def preCmp (p q : List PreIdent) : Ordering :=
  match p, q with
  | [], [] => Ordering.eq
  | [], _ :: _ => Ordering.gt
  | _ :: _, [] => Ordering.lt
  | p, q => lexCmpWith preIdentCmp p q

def isNumericIdent (s : String) : Bool :=
  !s.data.isEmpty && s.data.all Char.isDigit

/-- Build-metadata identifier ordering: all-digit identifiers compare as
numbers (length, then lexicographic — leading zeros are permitted in
build identifiers), digits before alphanumerics, else lexicographic. -/
def buildIdentCmp (a b : String) : Ordering :=
  if isNumericIdent a && isNumericIdent b then
    (natCmp a.data.length b.data.length).then (strCmp a b)
  else if isNumericIdent a then Ordering.lt
  else if isNumericIdent b then Ordering.gt
  else strCmp a b

def buildCmp (a b : List String) : Ordering := lexCmpWith buildIdentCmp a b

/-- `Version::cmp`: major, minor, patch, prerelease, then build metadata. -/
def versionCmp : SemverVersion → SemverVersion → Ordering :=
  compareLex (fun a b => natCmp a.major b.major) <|
    compareLex (fun a b => natCmp a.minor b.minor) <|
      compareLex (fun a b => natCmp a.patch b.patch) <|
        compareLex (fun a b => preCmp a.pre b.pre)
          (fun a b => buildCmp a.build b.build)

def versionLtB (a b : SemverVersion) : Bool := versionCmp a b == Ordering.lt
def versionLeB (a b : SemverVersion) : Bool := versionCmp a b != Ordering.gt

/-- Digit run to its value. -/
def digitsVal (cs : List Char) : Nat :=
  cs.foldl (fun acc c => acc * 10 + (c.toNat - 48)) 0

/-- A `u64` version component: nonempty digits, no leading zero, within
`u64` range. -/
def parseNatNoLeadZero (cs : List Char) : Option Nat :=
  if cs.isEmpty then none
  else if !cs.all Char.isDigit then none
  else if cs.length > 1 && cs.headD '0' = '0' then none
  else if digitsVal cs < 2 ^ 64 then some (digitsVal cs) else none

def isIdentChar (c : Char) : Bool :=
  c.isDigit || (97 ≤ c.toNat && c.toNat ≤ 122) || (65 ≤ c.toNat && c.toNat ≤ 90)
    || c = '-'

def parsePreIdent (cs : List Char) : Option PreIdent :=
  if cs.isEmpty then none
  else if !cs.all isIdentChar then none
  else if cs.all Char.isDigit then
    if cs.length > 1 && cs.headD '0' = '0' then none
    else some (PreIdent.num (digitsVal cs))
  else some (PreIdent.alpha (String.mk cs))

def parseBuildIdent (cs : List Char) : Option String :=
  if cs.isEmpty || !cs.all isIdentChar then none else some (String.mk cs)

/-- Optional `-prerelease` and `+build` tail of a full version. -/
def parseVersionTail (rest : List Char) (major minor patch : Nat) :
    Option SemverVersion :=
  match rest with
  | [] => some ⟨major, minor, patch, [], []⟩
  | '-' :: r => do
      let preCs := r.takeWhile (fun c => c ≠ '+')
      let after := r.dropWhile (fun c => c ≠ '+')
      let pre ← (splitChar '.' preCs).mapM parsePreIdent
      match after with
      | [] => some ⟨major, minor, patch, pre, []⟩
      | '+' :: b => do
          let build ← (splitChar '.' b).mapM parseBuildIdent
          some ⟨major, minor, patch, pre, build⟩
      | _ => none
  | '+' :: b => do
      let build ← (splitChar '.' b).mapM parseBuildIdent
      some ⟨major, minor, patch, [], build⟩
  | _ => none

/-- `semver::Version::parse`: strict `major.minor.patch[-pre][+build]`. -/
def parseVersion (s : String) : Option SemverVersion := do
  let cs := s.data
  let major ← parseNatNoLeadZero (cs.takeWhile Char.isDigit)
  match cs.dropWhile Char.isDigit with
  | '.' :: rest2 => do
      let minor ← parseNatNoLeadZero (rest2.takeWhile Char.isDigit)
      match rest2.dropWhile Char.isDigit with
      | '.' :: rest4 => do
          let patch ← parseNatNoLeadZero (rest4.takeWhile Char.isDigit)
          parseVersionTail (rest4.dropWhile Char.isDigit) major minor patch
      | _ => none
  | _ => none

/-! ## Version requirements (`semver::VersionReq`) -/

inductive ReqOp where
  | exactOp
  | greaterOp
  | greaterEqOp
  | lessOp
  | lessEqOp
  | tildeOp
  | caretOp
  | wildOp
deriving DecidableEq, Repr

structure ReqComparator where
  op : ReqOp
  major : Nat
  minor : Option Nat
  patch : Option Nat
  pre : List PreIdent
deriving DecidableEq, Repr

/-- Operator prefix of a comparator; a bare version means caret
(Cargo's default operator). -/
def parseOpHead (cs : List Char) : ReqOp × Bool × List Char :=
  match cs with
  | '<' :: '=' :: r => (ReqOp.lessEqOp, false, r)
  | '>' :: '=' :: r => (ReqOp.greaterEqOp, false, r)
  | '<' :: r => (ReqOp.lessOp, false, r)
  | '>' :: r => (ReqOp.greaterOp, false, r)
  | '=' :: r => (ReqOp.exactOp, false, r)
  | '^' :: r => (ReqOp.caretOp, false, r)
  | '~' :: r => (ReqOp.tildeOp, false, r)
  | r => (ReqOp.caretOp, true, r)

def isWildChar (c : Char) : Bool := c = '*' || c = 'x' || c = 'X'

/-- Prerelease/build tail of a comparator (only allowed after an explicit
patch component); the build part is validated and discarded, as
`semver::Comparator` stores no build metadata. -/
def parseCmpTail (rest : List Char) (op : ReqOp) (major : Nat)
    (minor patch : Option Nat) : Option (ReqComparator × List Char) :=
  match rest with
  | '-' :: r => do
      let run := r.takeWhile (fun c => isIdentChar c || c = '.')
      let after := r.dropWhile (fun c => isIdentChar c || c = '.')
      let pre ← (splitChar '.' run).mapM parsePreIdent
      match after with
      | '+' :: b =>
          let brun := b.takeWhile (fun c => isIdentChar c || c = '.')
          let bafter := b.dropWhile (fun c => isIdentChar c || c = '.')
          do
            let _ ← (splitChar '.' brun).mapM parseBuildIdent
            some (⟨op, major, minor, patch, pre⟩, bafter)
      | _ => some (⟨op, major, minor, patch, pre⟩, after)
  | '+' :: b =>
      let brun := b.takeWhile (fun c => isIdentChar c || c = '.')
      let bafter := b.dropWhile (fun c => isIdentChar c || c = '.')
      do
        let _ ← (splitChar '.' brun).mapM parseBuildIdent
        some (⟨op, major, minor, patch, []⟩, bafter)
  | r => some (⟨op, major, minor, patch, []⟩, r)

/-- One comparator: operator, spaces, `major[.minor[.patch[-pre][+build]]]`
with wildcard minor/patch components (only with the default operator,
which they turn into `Op::Wildcard`). -/
def parseComparator (cs : List Char) : Option (ReqComparator × List Char) :=
  let (op0, isDefault, r0) := parseOpHead cs
  let r1 := r0.dropWhile (fun c => c = ' ')
  match parseNatNoLeadZero (r1.takeWhile Char.isDigit) with
  | none => none
  | some major =>
      match r1.dropWhile Char.isDigit with
      | '.' :: r3 =>
          if isWildChar (r3.headD ' ') then
            if isDefault then
              match r3.drop 1 with
              | '.' :: r4 =>
                  if isWildChar (r4.headD ' ') then
                    some (⟨ReqOp.wildOp, major, none, none, []⟩, r4.drop 1)
                  else none
              | r4 => some (⟨ReqOp.wildOp, major, none, none, []⟩, r4)
            else none
          else
            match parseNatNoLeadZero (r3.takeWhile Char.isDigit) with
            | none => none
            | some minor =>
                match r3.dropWhile Char.isDigit with
                | '.' :: r5 =>
                    if isWildChar (r5.headD ' ') then
                      if isDefault then
                        some (⟨ReqOp.wildOp, major, some minor, none, []⟩, r5.drop 1)
                      else none
                    else
                      match parseNatNoLeadZero (r5.takeWhile Char.isDigit) with
                      | none => none
                      | some patch =>
                          parseCmpTail (r5.dropWhile Char.isDigit) op0 major
                            (some minor) (some patch)
                | r5 => some (⟨op0, major, some minor, none, []⟩, r5)
      | r3 => some (⟨op0, major, none, none, []⟩, r3)

/-- `VersionReq::from_str`: a lone wildcard is the match-everything
requirement (no comparators); otherwise a comma-separated list of
comparators. -/
def reqParse (s : String) : Option (List ReqComparator) :=
  let cs := s.data.dropWhile (fun c => c = ' ')
  if isWildChar (cs.headD 'q') && !cs.isEmpty then
    if (cs.drop 1).dropWhile (fun c => c = ' ') = [] then some [] else none
  else
    (splitChar ',' cs).mapM fun part => do
      let t := part.dropWhile (fun c => c = ' ')
      let (cmp, rest) ← parseComparator t
      if rest.dropWhile (fun c => c = ' ') = [] then some cmp else none

def preGeB (p q : List PreIdent) : Bool := preCmp p q != Ordering.lt
def preGtB (p q : List PreIdent) : Bool := preCmp p q == Ordering.gt
def preLtB (p q : List PreIdent) : Bool := preCmp p q == Ordering.lt

def matchesExactCmp (cmp : ReqComparator) (v : SemverVersion) : Bool :=
  (v.major == cmp.major) &&
  (match cmp.minor with | some m => v.minor == m | none => true) &&
  (match cmp.patch with | some p => v.patch == p | none => true) &&
  (v.pre == cmp.pre)

def matchesGreaterCmp (cmp : ReqComparator) (v : SemverVersion) : Bool :=
  if v.major ≠ cmp.major then v.major > cmp.major
  else
    match cmp.minor with
    | none => false
    | some m =>
        if v.minor ≠ m then v.minor > m
        else
          match cmp.patch with
          | none => false
          | some p =>
              if v.patch ≠ p then v.patch > p
              else preGtB v.pre cmp.pre

def matchesLessCmp (cmp : ReqComparator) (v : SemverVersion) : Bool :=
  if v.major ≠ cmp.major then v.major < cmp.major
  else
    match cmp.minor with
    | none => false
    | some m =>
        if v.minor ≠ m then v.minor < m
        else
          match cmp.patch with
          | none => false
          | some p =>
              if v.patch ≠ p then v.patch < p
              else preLtB v.pre cmp.pre

def matchesTildeCmp (cmp : ReqComparator) (v : SemverVersion) : Bool :=
  if v.major ≠ cmp.major then false
  else
    match cmp.minor with
    | none => preGeB v.pre cmp.pre
    | some m =>
        if v.minor ≠ m then false
        else
          match cmp.patch with
          | none => preGeB v.pre cmp.pre
          | some p =>
              if v.patch ≠ p then v.patch > p
              else preGeB v.pre cmp.pre

def matchesCaretCmp (cmp : ReqComparator) (v : SemverVersion) : Bool :=
  if v.major ≠ cmp.major then false
  else
    match cmp.minor with
    | none => true
    | some minor =>
        match cmp.patch with
        | none =>
            if cmp.major > 0 then v.minor ≥ minor else v.minor == minor
        | some patch =>
            if cmp.major > 0 then
              if v.minor ≠ minor then v.minor > minor
              else if v.patch ≠ patch then v.patch > patch
              else preGeB v.pre cmp.pre
            else if minor > 0 then
              if v.minor ≠ minor then false
              else if v.patch ≠ patch then v.patch > patch
              else preGeB v.pre cmp.pre
            else if v.minor ≠ minor || v.patch ≠ patch then false
            else preGeB v.pre cmp.pre

def matchesImpl (cmp : ReqComparator) (v : SemverVersion) : Bool :=
  match cmp.op with
  | ReqOp.exactOp => matchesExactCmp cmp v
  | ReqOp.wildOp => matchesExactCmp cmp v
  | ReqOp.greaterOp => matchesGreaterCmp cmp v
  | ReqOp.greaterEqOp => matchesExactCmp cmp v || matchesGreaterCmp cmp v
  | ReqOp.lessOp => matchesLessCmp cmp v
  | ReqOp.lessEqOp => matchesExactCmp cmp v || matchesLessCmp cmp v
  | ReqOp.tildeOp => matchesTildeCmp cmp v
  | ReqOp.caretOp => matchesCaretCmp cmp v

def preCompatible (cmp : ReqComparator) (v : SemverVersion) : Bool :=
  (cmp.major == v.major) && (cmp.minor == some v.minor) &&
  (cmp.patch == some v.patch) && !cmp.pre.isEmpty

/-- `VersionReq::matches`: every comparator matches, and a prerelease
version additionally needs some comparator with a prerelease at the same
`major.minor.patch`. -/
def matchesReq (req : List ReqComparator) (v : SemverVersion) : Bool :=
  req.all (fun cmp => matchesImpl cmp v) &&
  (v.pre.isEmpty || req.any (fun cmp => preCompatible cmp v))

/-! ## Range canonicalizer (`resolver/mod.rs`, `canonicalize_npm_range`) -/

/-- Rust `str::trim` (kernel-computable). -/
def trimStr (s : String) : String :=
  String.mk (((s.data.dropWhile Char.isWhitespace).reverse.dropWhile
    Char.isWhitespace).reverse)

/-- Character index of the first occurrence of `pat` (Rust `str::find`
locates the same occurrence by byte index). -/
def findSubIdx (pat : List Char) : List Char → Option Nat
  | [] => if pat.isEmpty then some 0 else none
  | c :: rest =>
      if pat.isPrefixOf (c :: rest) then some 0
      else (findSubIdx pat rest).map (· + 1)

def strContainsSub (s sub : String) : Bool := (findSubIdx sub.data s.data).isSome

def strContainsChar (s : String) (c : Char) : Bool := s.data.contains c

def strHasSuffix (s suf : String) : Bool := suf.data.reverse.isPrefixOf s.data.reverse

/-- Rust `str::split_whitespace`. -/
def splitWhitespaceStr (s : String) : List String :=
  ((splitChar ' ' (s.data.map (fun c => if c.isWhitespace then ' ' else c))).filter
    (fun p => !p.isEmpty)).map String.mk

def strIntercalate (sep : String) (parts : List String) : String :=
  String.mk (((parts.map String.data).intersperse sep.data).flatten)

/-- `is_op`. -/
def isOpStr (t : String) : Bool :=
  t = ">" || t = "<" || t = ">=" || t = "<=" || t = "=" || t = "^" || t = "~"

/-- `is_numeric`. -/
def isNumericStr (t : String) : Bool :=
  !t.data.isEmpty && t.data.all Char.isDigit

/-- `count_dots`. -/
def countDots (t : String) : Nat := t.data.count '.'

/-- `is_version_like`: at least one digit, all characters from the
version-ish alphabet. -/
def isVersionLike (t : String) : Bool :=
  t.data.all (fun c => c.isDigit || c = '.' || c = '-' || c = 'x' || c = 'X'
    || c = '*' || (97 ≤ c.toNat && c.toNat ≤ 122) || (65 ≤ c.toNat && c.toNat ≤ 90))
  && t.data.any Char.isDigit

/-- Rust `u64::from_str`: optional `+`, digits (leading zeros allowed),
within `u64` range. -/
def parseU64Str (s : String) : Option Nat :=
  let ds := match s.data with
    | '+' :: rest => rest
    | rest => rest
  if ds.isEmpty || !ds.all Char.isDigit then none
  else if digitsVal ds < 2 ^ 64 then some (digitsVal ds) else none

/-- `expand_wildcard`, with the source's `format!`/`replace` dance
precomposed into the final strings it produces. -/
def expandWildcard (pattern : String) : String :=
  let parts := splitStr '.' pattern
  let wildPart := fun (p : String) => p = "x" || p = "X" || p = "*"
  if parts.length == 2 && wildPart (parts.getD 1 "") then
    match parseU64Str (parts.getD 0 "") with
    | some maj =>
        ">=" ++ Nat.repr maj ++ ".0.0, <" ++ Nat.repr (maj + 1) ++ ".0.0"
    | none => pattern
  else if parts.length == 3 && wildPart (parts.getD 2 "") then
    match parseU64Str (parts.getD 0 ""), parseU64Str (parts.getD 1 "") with
    | some maj, some minV =>
        ">=" ++ Nat.repr maj ++ "." ++ Nat.repr minV ++ ".0, <" ++ Nat.repr maj
          ++ "." ++ Nat.repr (minV + 1) ++ ".0"
    | _, _ => pattern
  else pattern

/-- Outcome of the comparator-token loop: an early-returned replacement
string, a bail-out to the original input, or the accumulated comparator
list. -/
inductive CanonStep where
  | early (s : String)
  | bail
  | comps (cs : List String)
deriving DecidableEq, Repr

/-- The token loop of `canonicalize_npm_range`: pair operator tokens with
the following version, expand wildcard / bare-major / major.minor
tokens, turn bare versions into `=V`, bail on unknown tokens. -/
def canonLoop : List String → List String → CanonStep
  | [], comps => CanonStep.comps comps
  | t :: rest, comps =>
      if isOpStr t then
        match rest with
        | v :: rest2 => canonLoop rest2 (comps ++ [t ++ v])
        | [] => CanonStep.bail
      else if isVersionLike t then
        if strContainsChar t 'x' || strContainsChar t 'X' || strContainsChar t '*' then
          CanonStep.early (expandWildcard t)
        else if isNumericStr t then CanonStep.early ("^" ++ t ++ ".0.0")
        else if countDots t == 1 && t.data.all (fun c => c.isDigit || c = '.') then
          let parts := splitStr '.' t
          let maj := parts.getD 0 ""
          let minStr := parts.getD 1 ""
          match parseU64Str minStr with
          | some minV =>
              CanonStep.early (">=" ++ maj ++ "." ++ minStr ++ ".0, <" ++ maj
                ++ "." ++ Nat.repr (minV + 1) ++ ".0")
          | none => canonLoop rest (comps ++ ["=" ++ t])
        else canonLoop rest (comps ++ ["=" ++ t])
      else CanonStep.bail

/-- The trailing simple-pattern expansions of `canonicalize_npm_range`. -/
def canonFallback (s : String) : String :=
  if isNumericStr s then "^" ++ s ++ ".0.0"
  else if strHasSuffix s ".x" || strHasSuffix s ".*" then expandWildcard s
  else s

/-- `canonicalize_npm_range`. -/
def canonicalizeNpmRange (input : String) : String :=
  let s := trimStr input
  if s = "" || s = "*" || s = "latest" then "*"
  else if strContainsSub s "||" then s
  else if (parseVersion s).isSome then "=" ++ s
  else
    let hyphenResult : Option String :=
      match findSubIdx " - ".data s.data with
      | some idx =>
          let left := trimStr (String.mk (s.data.take idx))
          let right := trimStr (String.mk ((s.data.drop idx).drop 3))
          if isVersionLike left && isVersionLike right then
            some (">=" ++ left ++ ", <=" ++ right)
          else none
      | none => none
    match hyphenResult with
    | some r => r
    | none =>
        let tokens := splitWhitespaceStr s
        if tokens.length > 1 then
          match canonLoop tokens [] with
          | CanonStep.early r => r
          | CanonStep.bail => s
          | CanonStep.comps comps =>
              if !comps.isEmpty then strIntercalate ", " comps
              else canonFallback s
        else canonFallback s

/-! ## Resolver (`resolver/mod.rs`, `Resolver::pick_version`) -/

/-- Rust `str::split("||")` (two-character separator, non-overlapping,
leftmost). -/
def splitPipes : List Char → List Char → List (List Char)
  | [], cur => [cur.reverse]
  | '|' :: '|' :: rest, cur => cur.reverse :: splitPipes rest []
  | c :: rest, cur => splitPipes rest (c :: cur)

/-- The `anyhow!` failure cases of `pick_version`. -/
inductive PickError where
  | invalidSubRange (norm orig : String)
  | emptyOrRange (range : String)
  | invalidRange (norm orig : String)
  | noVersionMatches (range : String)
deriving DecidableEq, Repr

/-- The requirement-construction half of `pick_version`: canonicalize,
split `||` alternatives (each canonicalized and parsed independently,
`*` becoming the match-everything requirement), or parse the single
canonicalized range. -/
def buildReqs (range : String) : Except PickError (List (List ReqComparator)) :=
  let norm := canonicalizeNpmRange range
  let isOr := strContainsSub range "||" || strContainsSub norm "||"
  if isOr then do
    let parts := ((splitPipes range.data []).map
      (fun p => trimStr (String.mk p))).filter (fun p => p ≠ "")
    let reqs ← parts.mapM (fun p =>
      let pnorm := canonicalizeNpmRange p
      if pnorm = "*" then Except.ok []
      else
        match reqParse pnorm with
        | some r => Except.ok r
        | none => Except.error (PickError.invalidSubRange pnorm p))
    if reqs.isEmpty then Except.error (PickError.emptyOrRange range)
    else Except.ok reqs
  else
    if norm = "*" then Except.ok [[]]
    else
      match reqParse norm with
      | some r => Except.ok [r]
      | none => Except.error (PickError.invalidRange norm range)

/-- The descending candidate order used by `pick_version`
(`sort_by(|a, b| b.0.cmp(a.0))`). -/
def versionDescOrder (a b : SemverVersion × String) : Prop :=
  versionLeB b.1 a.1 = true

instance : DecidableRel versionDescOrder := fun a b => by
  unfold versionDescOrder; infer_instance

/-- `Resolver::pick_version`: build the requirement set, iterate the
candidates in descending semver order, return the first (hence highest)
match, else fail with the no-version-matches error. -/
def pickVersion (versions : List (SemverVersion × String)) (range : String) :
    Except PickError (SemverVersion × String) :=
  match buildReqs range with
  | Except.error e => Except.error e
  | Except.ok reqs =>
      match (List.insertionSort versionDescOrder versions).find?
          (fun vu => reqs.any (fun r => matchesReq r vu.1)) with
      | some vu => Except.ok vu
      | none => Except.error (PickError.noVersionMatches range)

/-! ## Binary lockfile codec (`lockfile.rs`)

Rust `String` values inside the lockfile are modelled as their UTF-8
byte sequences (`RStr := List Nat`); `BTreeMap`s as key-sorted
association lists (sorted by Rust's byte-wise lexicographic `String`
order).  The writers can fail only in `write_len`
(`u32::try_from(len)`), mirrored with `Except`. -/

/-- A Rust `String` as its UTF-8 bytes. -/
abbrev RStr := List Nat

/-- Byte-wise lexicographic order (Rust `String` / `str` `Ord`). -/
def bytesCmp (a b : RStr) : Ordering := lexCmpWith natCmp a b

def bytesLt (a b : RStr) : Bool := bytesCmp a b == Ordering.lt

/-- `PackageEntry` (field names as in the source). -/
structure PackageEntry where
  version : Option RStr
  integrity : Option RStr
  resolved : Option RStr
  dependencies : List (RStr × RStr)
  dev_dependencies : List (RStr × RStr)
  optional_dependencies : List (RStr × RStr)
  peer_dependencies : List (RStr × RStr)
  peer_dependencies_meta : List (RStr × Bool)
  os : List RStr
  cpu_arch : List RStr
  store_key : Option RStr
  content_hash : Option RStr
  link_mode : Option RStr
  store_path : Option RStr
deriving DecidableEq, Repr

structure Lockfile where
  format : Nat
  packages : List (RStr × PackageEntry)
deriving DecidableEq, Repr

def MAX_LOCKFILE_SIZE : Nat := 16 * 1024 * 1024

def LOCKFILE_MAGIC : List Nat := (strBytes "PACMLOCK")

def CURRENT_WIRE_VERSION : Nat := 3

def writeU16 (v : Nat) : List Nat := [v % 256, v / 256 % 256]

def writeU32 (v : Nat) : List Nat :=
  [v % 256, v / 256 % 256, v / 65536 % 256, v / 16777216 % 256]

def writeLen (len : Nat) (what : String) : Except String (List Nat) :=
  if len < 2 ^ 32 then Except.ok (writeU32 len)
  else Except.error (what ++ " too large")

def writeString (s : RStr) (what : String) : Except String (List Nat) := do
  let l ← writeLen s.length what
  Except.ok (l ++ s)

def writeOptionString : Option RStr → Except String (List Nat)
  | some s => do
      let b ← writeString s "string"
      Except.ok (1 :: b)
  | none => Except.ok [0]

def writeStringMap (m : List (RStr × RStr)) : Except String (List Nat) := do
  let l ← writeLen m.length "map"
  let body ← m.mapM (fun kv => do
    let k ← writeString kv.1 "map key"
    let v ← writeString kv.2 "map value"
    Except.ok (k ++ v))
  Except.ok (l ++ body.flatten)

def writePeerMetaMap (m : List (RStr × Bool)) : Except String (List Nat) := do
  let l ← writeLen m.length "peer meta map"
  let body ← m.mapM (fun kv => do
    let k ← writeString kv.1 "peer meta key"
    Except.ok (k ++ [if kv.2 then 1 else 0]))
  Except.ok (l ++ body.flatten)

def writeStringList (xs : List RStr) : Except String (List Nat) := do
  let l ← writeLen xs.length "list"
  let body ← xs.mapM (fun s => writeString s "list item")
  Except.ok (l ++ body.flatten)

/-- One entry of the packages section, in field order. -/
def encodeEntry (name : RStr) (e : PackageEntry) : Except String (List Nat) := do
  let k ← writeString name "package key"
  let v ← writeOptionString e.version
  let i ← writeOptionString e.integrity
  let r ← writeOptionString e.resolved
  let d ← writeStringMap e.dependencies
  let dd ← writeStringMap e.dev_dependencies
  let od ← writeStringMap e.optional_dependencies
  let pd ← writeStringMap e.peer_dependencies
  let pm ← writePeerMetaMap e.peer_dependencies_meta
  let os ← writeStringList e.os
  let cpu ← writeStringList e.cpu_arch
  let sk ← writeOptionString e.store_key
  let ch ← writeOptionString e.content_hash
  let lm ← writeOptionString e.link_mode
  let sp ← writeOptionString e.store_path
  Except.ok (k ++ v ++ i ++ r ++ d ++ dd ++ od ++ pd ++ pm ++ os ++ cpu
    ++ sk ++ ch ++ lm ++ sp)

def encodePackagesBuf (lf : Lockfile) : Except String (List Nat) := do
  let c ← writeLen lf.packages.length "package count"
  let body ← lf.packages.mapM (fun p => encodeEntry p.1 p.2)
  Except.ok (c ++ body.flatten)

/-- `encode_current_binary`. -/
def encodeCurrentBinary (lf : Lockfile) : Except String (List Nat) := do
  let packagesBuf ← encodePackagesBuf lf
  if packagesBuf.length ≤ MAX_LOCKFILE_SIZE then do
    let sec ← writeLen packagesBuf.length "packages section"
    let buf := LOCKFILE_MAGIC ++ writeU16 CURRENT_WIRE_VERSION ++ writeU16 0
      ++ writeU32 lf.format ++ sec ++ packagesBuf ++ writeU32 0
    if buf.length ≤ MAX_LOCKFILE_SIZE then Except.ok buf
    else Except.error "lockfile data exceeds limit"
  else Except.error "lockfile data exceeds limit"

/-- `read_u16` (little-endian; the `usize` overflow guard of the source
cannot fire for `Nat` positions). -/
def readU16 (data : List Nat) (pos : Nat) : Except String (Nat × Nat) :=
  if pos + 2 ≤ data.length then
    Except.ok (data.getD pos 0 + 256 * data.getD (pos + 1) 0, pos + 2)
  else Except.error "unexpected eof reading u16"

def readU32 (data : List Nat) (pos : Nat) : Except String (Nat × Nat) :=
  if pos + 4 ≤ data.length then
    Except.ok (data.getD pos 0 + 256 * data.getD (pos + 1) 0
      + 65536 * data.getD (pos + 2) 0 + 16777216 * data.getD (pos + 3) 0, pos + 4)
  else Except.error "unexpected eof reading u32"

def readLen (data : List Nat) (pos : Nat) (what : String) :
    Except String (Nat × Nat) :=
  match readU32 data pos with
  | Except.ok r => Except.ok r
  | Except.error _ => Except.error ("unexpected eof reading " ++ what)

def readExact (data : List Nat) (pos len : Nat) (what : String) :
    Except String (List Nat × Nat) :=
  if pos + len ≤ data.length then
    Except.ok ((data.drop pos).take len, pos + len)
  else Except.error ("unexpected eof reading " ++ what)

def readString (data : List Nat) (pos : Nat) (what : String) :
    Except String (RStr × Nat) := do
  let (len, pos) ← readLen data pos what
  let (bytes, pos) ← readExact data pos len what
  if validUtf8 bytes then Except.ok (bytes, pos)
  else Except.error (what ++ " contains invalid utf-8")

def readOptionString (data : List Nat) (pos : Nat) :
    Except String (Option RStr × Nat) :=
  if pos < data.length then
    match data.getD pos 256 with
    | 0 => Except.ok (none, pos + 1)
    | 1 => do
        let (s, pos') ← readString data (pos + 1) "string"
        Except.ok (some s, pos')
    | _ => Except.error "invalid option tag"
  else Except.error "unexpected eof reading option tag"

/-- `BTreeMap::insert` on a key-sorted association list. -/
def mapInsert (m : List (RStr × α)) (k : RStr) (v : α) : List (RStr × α) :=
  match m with
  | [] => [(k, v)]
  | (k', v') :: rest =>
      if bytesLt k k' then (k, v) :: (k', v') :: rest
      else if k = k' then (k, v) :: rest
      else (k', v') :: mapInsert rest k v

def readStringMapGo (data : List Nat) (pos : Nat) :
    Nat → List (RStr × RStr) → Except String (List (RStr × RStr) × Nat)
  | 0, acc => Except.ok (acc, pos)
  | n + 1, acc => do
      let (k, pos') ← readString data pos "map key"
      let (v, pos'') ← readString data pos' "map value"
      readStringMapGo data pos'' n (mapInsert acc k v)

def readStringMap (data : List Nat) (pos : Nat) :
    Except String (List (RStr × RStr) × Nat) := do
  let (len, pos) ← readLen data pos "map length"
  readStringMapGo data pos len []

def readPeerMetaMapGo (data : List Nat) (pos : Nat) :
    Nat → List (RStr × Bool) → Except String (List (RStr × Bool) × Nat)
  | 0, acc => Except.ok (acc, pos)
  | n + 1, acc => do
      let (k, pos') ← readString data pos "peer meta key"
      if pos' < data.length then
        match data.getD pos' 256 with
        | 0 => readPeerMetaMapGo data (pos' + 1) n (mapInsert acc k false)
        | 1 => readPeerMetaMapGo data (pos' + 1) n (mapInsert acc k true)
        | _ => Except.error "invalid peer meta flag"
      else Except.error "unexpected eof reading peer meta flag"

def readPeerMetaMap (data : List Nat) (pos : Nat) :
    Except String (List (RStr × Bool) × Nat) := do
  let (len, pos) ← readLen data pos "peer meta map length"
  readPeerMetaMapGo data pos len []

def readStringListGo (data : List Nat) (pos : Nat) :
    Nat → List RStr → Except String (List RStr × Nat)
  | 0, acc => Except.ok (acc, pos)
  | n + 1, acc => do
      let (s, pos') ← readString data pos "list item"
      readStringListGo data pos' n (acc ++ [s])

def readStringList (data : List Nat) (pos : Nat) :
    Except String (List RStr × Nat) := do
  let (len, pos) ← readLen data pos "list length"
  readStringListGo data pos len []

/-- The wire-version ≥ 2 `os`/`cpu` lists. -/
def readOsCpu (data : List Nat) (pos : Nat) (wireVersion : Nat) :
    Except String ((List RStr × List RStr) × Nat) :=
  if wireVersion ≥ 2 then do
    let (os, pos') ← readStringList data pos
    let (cpu, pos'') ← readStringList data pos'
    Except.ok ((os, cpu), pos'')
  else Except.ok (([], []), pos)

/-- The wire-version ≥ 3 store-link quad. -/
def readStoreQuad (data : List Nat) (pos : Nat) (wireVersion : Nat) :
    Except String ((Option RStr × Option RStr × Option RStr × Option RStr) × Nat) :=
  if wireVersion ≥ 3 then do
    let (sk, pos1) ← readOptionString data pos
    let (ch, pos2) ← readOptionString data pos1
    let (lm, pos3) ← readOptionString data pos2
    let (sp, pos4) ← readOptionString data pos3
    Except.ok ((sk, ch, lm, sp), pos4)
  else Except.ok ((none, none, none, none), pos)

/-- One entry of the packages section. -/
def readEntry (data : List Nat) (pos : Nat) (wireVersion : Nat) :
    Except String ((RStr × PackageEntry) × Nat) := do
  let (key, pos) ← readString data pos "package key"
  let (version, pos) ← readOptionString data pos
  let (integrity, pos) ← readOptionString data pos
  let (resolved, pos) ← readOptionString data pos
  let (dependencies, pos) ← readStringMap data pos
  let (dev, pos) ← readStringMap data pos
  let (opt, pos) ← readStringMap data pos
  let (peer, pos) ← readStringMap data pos
  let (peerMeta, pos) ← readPeerMetaMap data pos
  let ((os, cpu), pos) ← readOsCpu data pos wireVersion
  let ((sk, ch, lm, sp), pos) ← readStoreQuad data pos wireVersion
  Except.ok ((key,
    { version := version, integrity := integrity, resolved := resolved,
      dependencies := dependencies, dev_dependencies := dev,
      optional_dependencies := opt, peer_dependencies := peer,
      peer_dependencies_meta := peerMeta, os := os, cpu_arch := cpu,
      store_key := sk, content_hash := ch, link_mode := lm,
      store_path := sp }), pos)

def readEntriesGo (data : List Nat) (wireVersion : Nat) :
    Nat → Nat → List (RStr × PackageEntry) →
    Except String (List (RStr × PackageEntry) × Nat)
  | 0, pos, acc => Except.ok (acc, pos)
  | n + 1, pos, acc => do
      let ((key, entry), pos') ← readEntry data pos wireVersion
      readEntriesGo data wireVersion n pos' (mapInsert acc key entry)

/-- `parse_packages_section`. -/
def parsePackagesSection (packagesSlice : List Nat) (wireVersion : Nat) :
    Except String (List (RStr × PackageEntry)) := do
  let (count, pos) ← readLen packagesSlice 0 "package count"
  let (packages, pos) ← readEntriesGo packagesSlice wireVersion count pos []
  if pos = packagesSlice.length then Except.ok packages
  else Except.error "unexpected trailing data in packages section"

/-- `decode_current_binary`. -/
def decodeCurrentBinary (data : List Nat) : Except String Lockfile := do
  if data.length ≤ MAX_LOCKFILE_SIZE then
    if LOCKFILE_MAGIC.isPrefixOf data then do
      let (version, pos) ← readU16 data LOCKFILE_MAGIC.length
      if version ≠ CURRENT_WIRE_VERSION ∧ version ≠ 2 ∧ version ≠ 1 then
        Except.error "unsupported lockfile wire version"
      else do
        let (_reserved, pos) ← readU16 data pos
        let (format, pos) ← readU32 data pos
        let (sectionLen, pos) ← readLen data pos "packages section length"
        if pos + sectionLen ≤ data.length then do
          let packagesSlice := (data.drop pos).take sectionLen
          let pos := pos + sectionLen
          let packages ← parsePackagesSection packagesSlice version
          let (extrasLen, pos) ← readLen data pos "extras section length"
          let (_extras, pos) ← readExact data pos extrasLen "extras section"
          if pos = data.length then Except.ok { format := format, packages := packages }
          else Except.error "unexpected trailing data"
        else Except.error "unexpected eof reading packages section"
    else Except.error "missing lockfile magic header"
  else Except.error "lockfile exceeds maximum size"

/-! ### Size accounting and well-formedness for the codec -/

def encodedStrLen (s : RStr) : Nat := 4 + s.length

def encodedOptLen : Option RStr → Nat
  | some s => 1 + encodedStrLen s
  | none => 1

def encodedMapLen (m : List (RStr × RStr)) : Nat :=
  4 + (m.map (fun kv => encodedStrLen kv.1 + encodedStrLen kv.2)).sum

def encodedPeerMetaLen (m : List (RStr × Bool)) : Nat :=
  4 + (m.map (fun kv => encodedStrLen kv.1 + 1)).sum

def encodedListLen (xs : List RStr) : Nat :=
  4 + (xs.map encodedStrLen).sum

def encodedEntryLen (name : RStr) (e : PackageEntry) : Nat :=
  encodedStrLen name + encodedOptLen e.version + encodedOptLen e.integrity
    + encodedOptLen e.resolved + encodedMapLen e.dependencies
    + encodedMapLen e.dev_dependencies + encodedMapLen e.optional_dependencies
    + encodedMapLen e.peer_dependencies + encodedPeerMetaLen e.peer_dependencies_meta
    + encodedListLen e.os + encodedListLen e.cpu_arch + encodedOptLen e.store_key
    + encodedOptLen e.content_hash + encodedOptLen e.link_mode
    + encodedOptLen e.store_path

/-- Length of the packages section `encode_current_binary` builds. -/
def sectionLen (lf : Lockfile) : Nat :=
  4 + (lf.packages.map (fun p => encodedEntryLen p.1 p.2)).sum

/-- Strictly ascending adjacent keys (Boolean `Chain'`). -/
def keysChainB : List (RStr × α) → Bool
  | [] => true
  | [_] => true
  | p :: q :: rest => bytesLt p.1 q.1 && keysChainB (q :: rest)

def strMapWFB (m : List (RStr × RStr)) : Bool :=
  keysChainB m && m.all (fun kv => validUtf8 kv.1 && validUtf8 kv.2)

def peerMetaWFB (m : List (RStr × Bool)) : Bool :=
  keysChainB m && m.all (fun kv => validUtf8 kv.1)

def optWFB : Option RStr → Bool
  | some s => validUtf8 s
  | none => true

/-- Well-formedness a Rust `PackageEntry` value enjoys by construction:
every string is valid UTF-8 and every `BTreeMap` is strictly key-sorted. -/
def entryWFB (e : PackageEntry) : Bool :=
  optWFB e.version && optWFB e.integrity && optWFB e.resolved &&
  strMapWFB e.dependencies && strMapWFB e.dev_dependencies &&
  strMapWFB e.optional_dependencies && strMapWFB e.peer_dependencies &&
  peerMetaWFB e.peer_dependencies_meta &&
  e.os.all validUtf8 && e.cpu_arch.all validUtf8 &&
  optWFB e.store_key && optWFB e.content_hash && optWFB e.link_mode &&
  optWFB e.store_path

/-- Well-formedness a Rust `Lockfile` value enjoys by construction. -/
def lockfileWFB (lf : Lockfile) : Bool :=
  decide (lf.format < 2 ^ 32) &&
  keysChainB lf.packages &&
  lf.packages.all (fun p => validUtf8 p.1 && entryWFB p.2)

/-! ## Lockfile pruning (`cli/commands/install/prune.rs`, `prune_unreachable`) -/

/-- `BTreeMap::get` on an association list. -/
def mapGet (m : List (RStr × α)) (k : RStr) : Option α :=
  match m with
  | [] => none
  | (k', v) :: rest => if k' = k then some v else mapGet rest k

/-- The bytes of `"node_modules/"`. -/
def nmPref : RStr := strBytes "node_modules/"

/-- Is the peer named `p` marked optional in the entry's
`peerDependenciesMeta`? -/
def peerOptionalIn (e : PackageEntry) (p : RStr) : Bool :=
  match mapGet e.peer_dependencies_meta p with
  | some b => b
  | none => false

/-- `enqueue_root`: dependencies, devDependencies, optionalDependencies,
then non-optional peerDependencies. -/
def rootEdges (e : PackageEntry) : List RStr :=
  e.dependencies.map (fun p => p.1) ++ e.dev_dependencies.map (fun p => p.1)
    ++ e.optional_dependencies.map (fun p => p.1)
    ++ (e.peer_dependencies.map (fun p => p.1)).filter
        (fun p => !peerOptionalIn e p)

/-- `enqueue_entry`: dependencies, optionalDependencies, then
non-optional peerDependencies — devDependencies are *not* followed. -/
def entryEdges (e : PackageEntry) : List RStr :=
  e.dependencies.map (fun p => p.1) ++ e.optional_dependencies.map (fun p => p.1)
    ++ (e.peer_dependencies.map (fun p => p.1)).filter
        (fun p => !peerOptionalIn e p)

/-- The initial queue: edges of the root (`""`) entry, if present. -/
def rootSeeds (lock : Lockfile) : List RStr :=
  match mapGet lock.packages [] with
  | some root => rootEdges root
  | none => []

/-- The worklist loop of `prune_unreachable`: pop a name, skip if
visited, else record it and enqueue the edges of its
`node_modules/<name>` entry.  The fuel argument only bounds iterations;
`pruneFuel` is always sufficient. -/
def bfsGo (lock : Lockfile) : Nat → List RStr → List RStr → List RStr
  | _, [], visited => visited
  | 0, _ :: _, visited => visited
  | fuel + 1, name :: rest, visited =>
      if name ∈ visited then bfsGo lock fuel rest visited
      else
        match mapGet lock.packages (nmPref ++ name) with
        | some entry => bfsGo lock fuel (rest ++ entryEdges entry) (name :: visited)
        | none => bfsGo lock fuel rest (name :: visited)

/-- Every pop consumes a queue element, and pushes happen at most once
per package entry, so this fuel never runs out. -/
def pruneFuel (lock : Lockfile) : Nat :=
  (rootSeeds lock).length
    + (lock.packages.map (fun p => (entryEdges p.2).length)).sum + 1

/-- The `reachable` set computed by `prune_unreachable`. -/
def reachableSet (lock : Lockfile) : List RStr :=
  bfsGo lock (pruneFuel lock) (rootSeeds lock) []

/-- `prune_unreachable`: remove every `node_modules/<name>` key whose
name is unreachable; return the pruned lockfile and the removed names
(the source mutates `lock` and returns the names). -/
def pruneUnreachable (lock : Lockfile) : Lockfile × List RStr :=
  let reachable := reachableSet lock
  let removedKeys := (lock.packages.map (fun p => p.1)).filter
    (fun k => !k.isEmpty && nmPref.isPrefixOf k && (k.drop nmPref.length) ∉ reachable)
  ({ format := lock.format,
     packages := lock.packages.filter (fun p => p.1 ∉ removedKeys) },
   removedKeys.map (fun k => k.drop nmPref.length))

/-- Reachability as the specification's closure: a name is reachable if
the root entry's maps name it, or some reachable name's entry names it. -/
inductive ReachName (lock : Lockfile) : RStr → Prop where
  | seed : ∀ {n}, n ∈ rootSeeds lock → ReachName lock n
  | step : ∀ {m n e}, ReachName lock m →
      mapGet lock.packages (nmPref ++ m) = some e →
      n ∈ entryEdges e → ReachName lock n

/-- The edge relation the specification's claim describes, additionally
following `devDependencies` transitively (the code only follows them
from the root). -/
def specEntryEdges (e : PackageEntry) : List RStr :=
  e.dependencies.map (fun p => p.1) ++ e.dev_dependencies.map (fun p => p.1)
    ++ e.optional_dependencies.map (fun p => p.1)
    ++ (e.peer_dependencies.map (fun p => p.1)).filter
        (fun p => !peerOptionalIn e p)

/-- Reachability as the claim words it: `dependencies`,
`devDependencies`, `optionalDependencies` and non-optional
`peerDependencies` followed transitively from the root. -/
inductive SpecReach (lock : Lockfile) : RStr → Prop where
  | seed : ∀ {n}, n ∈ rootSeeds lock → SpecReach lock n
  | step : ∀ {m n e}, SpecReach lock m →
      mapGet lock.packages (nmPref ++ m) = some e →
      n ∈ specEntryEdges e → SpecReach lock n

/-- The edges the worklist loop enqueues for a popped name: those of its
`node_modules/<name>` entry, if any. -/
def bfsEdges (lock : Lockfile) (v : RStr) : List RStr :=
  match mapGet lock.packages (nmPref ++ v) with
  | some e => entryEdges e
  | none => []

/-- Remaining enqueue capacity: total out-degree of entries whose
stripped key is not yet visited (a measure for the worklist loop). -/
def capList (pkgs : List (RStr × PackageEntry)) (visited : List RStr) : Nat :=
  ((pkgs.filter (fun p => decide (p.1.drop nmPref.length ∉ visited))).map
    (fun p => (entryEdges p.2).length)).sum

/-- A `PackageEntry` with every field empty. -/
def emptyPackageEntry : PackageEntry :=
  ⟨none, none, none, [], [], [], [], [], [], [], none, none, none, none⟩

/-- Root entry of the dev-edge example: depends on `a`. -/
def rootEntryAB : PackageEntry :=
  { emptyPackageEntry with dependencies := [(strBytes "a", strBytes "*")] }

/-- Entry of `a` in the dev-edge example: `b` is its devDependency. -/
def entryADevB : PackageEntry :=
  { emptyPackageEntry with dev_dependencies := [(strBytes "b", strBytes "*")] }

/-- A lockfile where `b` is reachable from the root only through the
devDependencies of the non-root entry `a`. -/
def lockDevEdge : Lockfile :=
  ⟨1, [([], rootEntryAB), (strBytes "node_modules/a", entryADevB),
    (strBytes "node_modules/b", emptyPackageEntry)]⟩

/-! ### Explicit wire images of the lockfile writers -/

/-- The bytes `writeString` emits for `s` (when the length fits). -/
def wStr (s : RStr) : List Nat := writeU32 s.length ++ s

/-- The bytes `writeOptionString` emits. -/
def wOpt : Option RStr → List Nat
  | some s => 1 :: wStr s
  | none => [0]

/-- Body bytes of `writeStringMap` (entries without the count). -/
def wMapEnts (m : List (RStr × RStr)) : List Nat :=
  (m.map (fun kv => wStr kv.1 ++ wStr kv.2)).flatten

/-- The bytes `writeStringMap` emits. -/
def wStrMap (m : List (RStr × RStr)) : List Nat :=
  writeU32 m.length ++ wMapEnts m

/-- Body bytes of `writePeerMetaMap`. -/
def wPeerEnts (m : List (RStr × Bool)) : List Nat :=
  (m.map (fun kv => wStr kv.1 ++ [if kv.2 then 1 else 0])).flatten

/-- The bytes `writePeerMetaMap` emits. -/
def wPeerMap (m : List (RStr × Bool)) : List Nat :=
  writeU32 m.length ++ wPeerEnts m

/-- Body bytes of `writeStringList`. -/
def wListEnts (xs : List RStr) : List Nat := (xs.map wStr).flatten

/-- The bytes `writeStringList` emits. -/
def wStrList (xs : List RStr) : List Nat :=
  writeU32 xs.length ++ wListEnts xs

/-- The bytes `encodeEntry` emits for one packages-section entry. -/
def wEntry (name : RStr) (e : PackageEntry) : List Nat :=
  wStr name ++ wOpt e.version ++ wOpt e.integrity ++ wOpt e.resolved
    ++ wStrMap e.dependencies ++ wStrMap e.dev_dependencies
    ++ wStrMap e.optional_dependencies ++ wStrMap e.peer_dependencies
    ++ wPeerMap e.peer_dependencies_meta ++ wStrList e.os
    ++ wStrList e.cpu_arch ++ wOpt e.store_key ++ wOpt e.content_hash
    ++ wOpt e.link_mode ++ wOpt e.store_path

/-- The packages section `encodePackagesBuf` emits. -/
def wSection (lf : Lockfile) : List Nat :=
  writeU32 lf.packages.length ++ (lf.packages.map (fun p => wEntry p.1 p.2)).flatten

/-- The whole buffer `encodeCurrentBinary` emits. -/
def encBuf (lf : Lockfile) : List Nat :=
  LOCKFILE_MAGIC ++ writeU16 CURRENT_WIRE_VERSION ++ writeU16 0
    ++ writeU32 lf.format ++ writeU32 (sectionLen lf) ++ wSection lf ++ writeU32 0

/-- A key so large that the packages section alone is exactly 16 MiB. -/
def bigKey : RStr := List.replicate (MAX_LOCKFILE_SIZE - 43) 97

/-- A lockfile whose packages section is exactly the 16 MiB cap: the
framing around it pushes the buffer past the cap. -/
def bigLock : Lockfile := ⟨1, [(bigKey, emptyPackageEntry)]⟩

/-- A small concrete lockfile for evaluating the round-trip. -/
def wLockEntry : PackageEntry :=
  { emptyPackageEntry with
      version := some (strBytes "1.0.0")
      integrity := some (strBytes "sha512-xyz")
      dependencies := [(strBytes "a", strBytes "^1"), (strBytes "b", strBytes "*")]
      peer_dependencies_meta := [(strBytes "p", true)]
      os := [strBytes "linux"]
      store_key := some (strBytes "x@1.0.0::deadbeef") }

def wLock : Lockfile :=
  ⟨7, [([], emptyPackageEntry), (strBytes "node_modules/x", wLockEntry)]⟩

/-! # Theorems -/

/-! ## Platform filter -/

theorem any_unpref_of_all {host : String} {l : List String}
    (h : l.all (fun e => strHasPref e "!") = true) :
    l.any (fun e => !strHasPref e "!" && e == host) = false := by
  simp only [List.all_eq_true] at h
  simp only [List.any_eq_false]
  intro e he
  simp [h e he]

theorem platformLoop_eq (host : String) (l : List String) (a : Option Bool) (b : Bool) :
    platformLoop host l (a, b) =
      ((if l.all (fun e => strHasPref e "!") then a
        else some (a.getD false || l.any (fun e => !strHasPref e "!" && e == host))),
       (b || l.any (fun e => strHasPref e "!" && e.drop 1 == host))) := by
  induction l generalizing a b with
  | nil => simp [platformLoop]
  | cons e rest ih =>
    cases hp : strHasPref e "!" with
    | true => simp [platformLoop, stripBang, hp, ih, Bool.or_assoc]
    | false =>
      simp only [platformLoop, stripBang, hp, Bool.false_eq_true, if_false, ih]
      cases hall : rest.all (fun e => strHasPref e "!") with
      | true => simp [hp, hall, any_unpref_of_all hall]
      | false => simp [hp, hall, Bool.or_assoc]

theorem bang_entry_iff (e host : String) :
    (strHasPref e "!" = true ∧ e.drop 1 = host) ↔ e = "!" ++ host := by
  constructor
  · rintro ⟨h1, h2⟩
    unfold strHasPref at h1
    have hpre : "!".data <+: e.data := by
      exact List.isPrefixOf_iff_prefix.mp h1
    obtain ⟨t, ht⟩ := hpre
    have hdata : e.data = '!' :: t := by
      simpa using ht.symm
    have : host.data = t := by
      have := congrArg String.data h2
      simpa [String.drop_eq, hdata] using this.symm
    apply String.ext
    simp [hdata, this]
  · rintro rfl
    constructor
    · simp [strHasPref, List.isPrefixOf]
    · apply String.ext
      simp [String.drop_eq]

/-- Claim C5: `platform_supported` returns true iff each of the `os` and
`cpu` lists, evaluated independently against its host token, accepts —
a list accepts iff the host is not named by any `!`-prefixed entry and
(the list has no unprefixed entries or the host equals some unprefixed
entry), the empty list accepting unconditionally. -/
theorem blocked_any_iff (host : String) (l : List String) :
    (l.any (fun e => strHasPref e "!" && e.drop 1 == host) = false) ↔
      ∀ e ∈ l, e ≠ "!" ++ host := by
  simp only [List.any_eq_false, Bool.and_eq_true, beq_iff_eq, not_and]
  constructor
  · intro h x hx hxeq
    obtain ⟨h1, h2⟩ := (bang_entry_iff x host).mpr hxeq
    exact h x hx h1 h2
  · intro h x hx h1 h2
    exact h x hx ((bang_entry_iff x host).mp ⟨h1, h2⟩)

theorem allowed_any_iff (host : String) (l : List String) :
    (l.any (fun e => !strHasPref e "!" && e == host) = true) ↔
      ∃ e ∈ l, strHasPref e "!" = false ∧ e = host := by
  simp only [List.any_eq_true, Bool.and_eq_true, Bool.not_eq_true', beq_iff_eq]

theorem platformListOk_iff (host : String) (l : List String) :
    platformListOk host l = true ↔ SpecListAccepts host l := by
  cases l with
  | nil =>
    simp only [platformListOk, List.isEmpty_nil, if_true, SpecListAccepts]
    constructor
    · intro _
      exact ⟨by simp, Or.inl (by simp)⟩
    · intro _
      trivial
  | cons e rest =>
    have hne : (e :: rest).isEmpty = false := rfl
    unfold platformListOk
    rw [hne, platformLoop_eq]
    simp only [Bool.false_eq_true, if_false, Bool.false_or]
    unfold SpecListAccepts
    cases hall : (e :: rest).all (fun x => strHasPref x "!") with
    | true =>
      have hall' : ∀ x ∈ e :: rest, strHasPref x "!" = true := by
        simpa [List.all_eq_true] using hall
      simp only [if_true, Option.getD_none, Bool.and_true, Bool.not_eq_true',
        blocked_any_iff]
      constructor
      · intro h
        exact ⟨h, Or.inl hall'⟩
      · intro h
        exact h.1
    | false =>
      have hnall : ¬ ∀ x ∈ e :: rest, strHasPref x "!" = true := by
        intro h
        rw [← List.all_eq_true] at h
        simp [h] at hall
      simp only [Bool.false_eq_true, if_false, Option.getD_some, Option.getD_none,
        Bool.false_or, Bool.and_eq_true, Bool.not_eq_true', blocked_any_iff,
        allowed_any_iff]
      constructor
      · intro ⟨h1, h2⟩
        exact ⟨h1, Or.inr h2⟩
      · intro ⟨h1, h2⟩
        refine ⟨h1, ?_⟩
        cases h2 with
        | inl h => exact absurd h hnall
        | inr h => exact h

/-- Claim C5: `platform_supported` returns true iff each of the `os` and
`cpu` lists, evaluated independently against its host token, accepts —
a list accepts iff the host is not named by any `!`-prefixed entry and
(the list has no unprefixed entries or the host equals some unprefixed
entry), the empty list accepting unconditionally. -/
theorem platform_supported_iff_accepts (hostOs hostCpu : String)
    (osList cpuList : List String) :
    platformSupported hostOs hostCpu osList cpuList = true ↔
      SpecListAccepts hostOs osList ∧ SpecListAccepts hostCpu cpuList := by
  unfold platformSupported
  rw [Bool.and_eq_true, platformListOk_iff, platformListOk_iff]

/-- Witness for C5 at concrete host tokens and lists. -/
theorem platform_supported_iff_accepts_witness :
    platformSupported "linux" "x64" ["!win32"] [] = true ∧
      SpecListAccepts "linux" ["!win32"] ∧ SpecListAccepts "x64" [] :=
  ⟨(platform_supported_iff_accepts "linux" "x64" ["!win32"] []).mpr
      ⟨by decide, by decide⟩,
   by decide, by decide⟩

/-! ## Tarball cache -/

theorem strHasPref_append (p s : String) : strHasPref (p ++ s) p = true := by
  unfold strHasPref
  rw [List.isPrefixOf_iff_prefix]
  exact ⟨s.data, by simp⟩

theorem eq_append_drop_of_hasPref {s : String} (p : String)
    (h : strHasPref s p = true) : s = p ++ s.drop p.data.length := by
  unfold strHasPref at h
  rw [List.isPrefixOf_iff_prefix] at h
  obtain ⟨t, ht⟩ := h
  apply String.ext
  simp only [String.data_append, String.data_drop]
  rw [← ht]
  simp

theorem drop_append_len (p s : String) : (p ++ s).drop p.data.length = s := by
  apply String.ext
  simp [String.data_drop]

theorem extractedPaths_skip_parent {e : List PathComp}
    (h : hasParentComp e = true) (pre post : List (List PathComp)) :
    extractedPaths (pre ++ e :: post) = extractedPaths (pre ++ post) := by
  induction pre with
  | nil => simp [extractedPaths, h]
  | cons a pre ih =>
    simp only [List.cons_append, extractedPaths, List.append_eq, ih]

theorem stripPackageRoot_subset (e : List PathComp) :
    ∀ c ∈ stripPackageRoot e, c ∈ e := by
  intro c hc
  cases e with
  | nil => exact hc
  | cons hd tl =>
    cases hd with
    | normal s =>
        simp only [stripPackageRoot] at hc
        split at hc
        · exact List.mem_cons_of_mem _ hc
        · exact hc
    | parentDir => exact hc
    | curDir => exact hc
    | rootDir => exact hc

theorem extractedPaths_no_parent (entries : List (List PathComp)) :
    ∀ p ∈ extractedPaths entries, PathComp.parentDir ∉ p := by
  induction entries with
  | nil => simp [extractedPaths]
  | cons e rest ih =>
    intro p hp
    unfold extractedPaths at hp
    cases hpar : hasParentComp e with
    | true =>
      rw [if_pos hpar] at hp
      exact ih p hp
    | false =>
      rw [if_neg (by simp [hpar])] at hp
      by_cases hemp : (stripPackageRoot e).isEmpty = true
      · rw [if_pos hemp] at hp
        exact ih p hp
      · rw [if_neg hemp] at hp
        cases hp with
        | head =>
          intro hmem
          have : hasParentComp e = true := by
            unfold hasParentComp
            rw [List.any_eq_true]
            exact ⟨PathComp.parentDir, stripPackageRoot_subset e _ hmem, by simp⟩
          simp [this] at hpar
        | tail _ hp' => exact ih p hp'

/-- Claim C9: tar entries whose path contains a parent-traversal
component are skipped — they contribute nothing to the extraction
outcome and do not make the operation fail — and no extracted relative
path contains a `..` component, so none escapes the extraction root via
`..`. -/
theorem tar_parent_traversal_guard :
    (∀ (pre post : List (List PathComp)) (e : List PathComp),
      hasParentComp e = true →
      ∀ (marker : Bool) (bytes : List Nat) (hint : Option String),
        ensureCachedPackage marker (pre ++ e :: post) bytes hint =
          ensureCachedPackage marker (pre ++ post) bytes hint) ∧
    (∀ (entries : List (List PathComp)) (p : List PathComp),
      p ∈ extractedPaths entries → PathComp.parentDir ∉ p) := by
  constructor
  · intro pre post e he marker bytes hint
    simp only [ensureCachedPackage]
    rw [extractedPaths_skip_parent he]
  · intro entries p hp
    exact extractedPaths_no_parent entries p hp

/-- Witness for C9 at a concrete archive: an entry `../evil` is skipped
(the outcome with it equals the outcome without it), and the extracted
paths of a mixed archive contain no `..` component. -/
theorem tar_parent_traversal_guard_witness :
    ensureCachedPackage false [[PathComp.parentDir, PathComp.normal "evil"],
        [PathComp.normal "package", PathComp.normal "index.js"]] [] none =
      ensureCachedPackage false [[PathComp.normal "package", PathComp.normal "index.js"]]
        [] none ∧
    PathComp.parentDir ∉ ([PathComp.normal "index.js"] : List PathComp) := by
  constructor
  · exact tar_parent_traversal_guard.1 [] [[PathComp.normal "package", PathComp.normal "index.js"]]
      [PathComp.parentDir, PathComp.normal "evil"] (by decide) false [] none
  · exact tar_parent_traversal_guard.2
      [[PathComp.normal "package", PathComp.normal "index.js"]]
      [PathComp.normal "index.js"] (by decide)

/-- Claim C6: with a `sha512-` integrity hint whose decoded digest
differs from the SHA-512 of the bytes, `ensure_cached_package` fails
with the integrity-mismatch error; when every supplied `sha512-` hint
decodes to the computed digest (in particular when no such hint is
supplied), it returns the hint if present and otherwise
`sha512-<base64 of the computed digest>`. -/
theorem ensure_cached_integrity (marker : Bool) (entries : List (List PathComp))
    (bytes : List Nat) :
    (∀ b64 raw, base64Decode b64 = some raw → raw ≠ sha512 bytes →
      (ensureCachedPackage marker entries bytes (some ("sha512-" ++ b64))).result =
        Except.error (CacheError.integrityMismatch ("sha512-" ++ b64)
          ("sha512-" ++ base64Encode (sha512 bytes)))) ∧
    (∀ hint : Option String,
      (∀ b64, hint = some ("sha512-" ++ b64) → base64Decode b64 = some (sha512 bytes)) →
      (ensureCachedPackage marker entries bytes hint).result =
        Except.ok (hint.getD ("sha512-" ++ base64Encode (sha512 bytes)))) := by
  constructor
  · intro b64 raw hdec hne
    simp only [ensureCachedPackage]
    rw [if_pos (strHasPref_append "sha512-" b64)]
    rw [show ("sha512-" ++ b64).drop 7 = b64 from drop_append_len "sha512-" b64]
    simp [hdec, if_pos hne]
  · intro hint hagree
    match hint with
    | none => cases marker <;> simp [ensureCachedPackage]
    | some integrity =>
        cases hpref : strHasPref integrity "sha512-" with
        | false => cases marker <;> simp [ensureCachedPackage, hpref]
        | true =>
            have h7 : integrity = "sha512-" ++ integrity.drop 7 :=
              eq_append_drop_of_hasPref "sha512-" hpref
            have hdec := hagree (integrity.drop 7) (congrArg some h7)
            cases marker <;> simp [ensureCachedPackage, hpref, hdec]

/-- Witness for C6: for the empty byte sequence and the hint built from
64 zero bytes, the call fails with the integrity mismatch; with no hint
it returns the computed integrity string. -/
theorem ensure_cached_integrity_witness :
    (ensureCachedPackage false [] [] (some ("sha512-"
        ++ base64Encode (List.replicate 64 0)))).result =
      Except.error (CacheError.integrityMismatch
        ("sha512-" ++ base64Encode (List.replicate 64 0))
        ("sha512-" ++ base64Encode (sha512 []))) ∧
    (ensureCachedPackage false [] [] none).result =
      Except.ok ("sha512-" ++ base64Encode (sha512 [])) := by
  constructor
  · exact (ensure_cached_integrity false [] []).1 (base64Encode (List.replicate 64 0))
      (List.replicate 64 0) (by decide) (by decide)
  · exact (ensure_cached_integrity false [] []).2 none (by intro b64 h; cases h)

/-- Claim C10: the integrity hint is checked before the cache-hit early
return, so a mismatching `sha512-` hint fails the call even when the
`package/` marker already exists, and on that failure nothing is written
and nothing is renamed — the cache state is left unchanged. -/
theorem integrity_checked_before_cache_hit (marker : Bool)
    (entries : List (List PathComp)) (bytes : List Nat) (b64 : String)
    (raw : List Nat) (hdec : base64Decode b64 = some raw)
    (hne : raw ≠ sha512 bytes) :
    ensureCachedPackage marker entries bytes (some ("sha512-" ++ b64)) =
      { writes := [], renamed := false,
        result := Except.error (CacheError.integrityMismatch ("sha512-" ++ b64)
          ("sha512-" ++ base64Encode (sha512 bytes))) } := by
  simp only [ensureCachedPackage]
  rw [if_pos (strHasPref_append "sha512-" b64)]
  rw [show ("sha512-" ++ b64).drop 7 = b64 from drop_append_len "sha512-" b64]
  simp [hdec, if_pos hne]

/-- Witness for C10: with the marker already present (`markerExists =
true`) and a wrong hint, the outcome is the unchanged-state error. -/
theorem integrity_checked_before_cache_hit_witness :
    ensureCachedPackage true [[PathComp.normal "index.js"]] []
        (some ("sha512-" ++ base64Encode (List.replicate 64 0))) =
      { writes := [], renamed := false,
        result := Except.error (CacheError.integrityMismatch
          ("sha512-" ++ base64Encode (List.replicate 64 0))
          ("sha512-" ++ base64Encode (sha512 []))) } :=
  integrity_checked_before_cache_hit true [[PathComp.normal "index.js"]] []
    (base64Encode (List.replicate 64 0)) (List.replicate 64 0)
    (by decide) (by decide)

/-! ## CAS store -/

theorem casLookup_cons_self (fs : CasFs) (dir : List String) (md : StoreMetadata) :
    casLookup ((dir, md) :: fs) dir = some md := by
  simp [casLookup]

/-- Claim C7: when metadata already exists at the canonical store path,
`ensure_entry` returns the entry loaded from it and leaves the store
untouched; hence a second call with the same parameters as a successful
first call leaves the store unchanged and returns an entry with the same
`store_key`, `graph_hash`, `content_hash` and directory paths. -/
theorem ensure_entry_idempotent :
    (∀ (fs : CasFs) (name version : String) (deps : List DependencyFingerprint)
        (integrity resolved : Option String) (env : EnsureEnv) (md : StoreMetadata),
      casLookup fs (storeDirFor name version (computeGraphHash name version deps).1)
          = some md →
      ensureEntry fs name version deps integrity resolved env =
        (fs, buildStoreEntry
          (storeDirFor name version (computeGraphHash name version deps).1) md)) ∧
    (∀ (fs : CasFs) (name version : String) (deps : List DependencyFingerprint)
        (integrity resolved : Option String) (env env' : EnsureEnv),
      (ensureEntry (ensureEntry fs name version deps integrity resolved env).1
          name version deps integrity resolved env').1 =
        (ensureEntry fs name version deps integrity resolved env).1 ∧
      (ensureEntry (ensureEntry fs name version deps integrity resolved env).1
          name version deps integrity resolved env').2.store_key =
        (ensureEntry fs name version deps integrity resolved env).2.store_key ∧
      (ensureEntry (ensureEntry fs name version deps integrity resolved env).1
          name version deps integrity resolved env').2.graph_hash =
        (ensureEntry fs name version deps integrity resolved env).2.graph_hash ∧
      (ensureEntry (ensureEntry fs name version deps integrity resolved env).1
          name version deps integrity resolved env').2.content_hash =
        (ensureEntry fs name version deps integrity resolved env).2.content_hash ∧
      (ensureEntry (ensureEntry fs name version deps integrity resolved env).1
          name version deps integrity resolved env').2.root_dir =
        (ensureEntry fs name version deps integrity resolved env).2.root_dir ∧
      (ensureEntry (ensureEntry fs name version deps integrity resolved env).1
          name version deps integrity resolved env').2.package_dir =
        (ensureEntry fs name version deps integrity resolved env).2.package_dir ∧
      (ensureEntry (ensureEntry fs name version deps integrity resolved env).1
          name version deps integrity resolved env').2.metadata_path =
        (ensureEntry fs name version deps integrity resolved env).2.metadata_path) := by
  constructor
  · intro fs name version deps integrity resolved env md h
    simp only [ensureEntry, h]
  · intro fs name version deps integrity resolved env env'
    cases h : casLookup fs
        (storeDirFor name version (computeGraphHash name version deps).1) with
    | some md =>
        simp only [ensureEntry, h]
        simp [buildStoreEntry]
    | none =>
        simp only [ensureEntry, h, casLookup_cons_self]
        simp [buildStoreEntry]

/-- Witness for C7 at a concrete store state whose metadata is present at
the canonical path. -/
theorem ensure_entry_idempotent_witness :
    ensureEntry [(storeDirFor "a" "1.0.0" (computeGraphHash "a" "1.0.0" []).1,
        (⟨"k", "a", "1.0.0", "g", "c", 0, 0, none, none, [], []⟩ : StoreMetadata))]
      "a" "1.0.0" [] none none ⟨"c2", 5, [], 7⟩ =
      ([(storeDirFor "a" "1.0.0" (computeGraphHash "a" "1.0.0" []).1,
          (⟨"k", "a", "1.0.0", "g", "c", 0, 0, none, none, [], []⟩ : StoreMetadata))],
        buildStoreEntry (storeDirFor "a" "1.0.0" (computeGraphHash "a" "1.0.0" []).1)
          (⟨"k", "a", "1.0.0", "g", "c", 0, 0, none, none, [], []⟩ : StoreMetadata)) ∧
    (ensureEntry (ensureEntry [] "b" "2.0.0" [] none none ⟨"c", 1, [], 3⟩).1
        "b" "2.0.0" [] none none ⟨"c", 1, [], 9⟩).2.store_key =
      (ensureEntry [] "b" "2.0.0" [] none none ⟨"c", 1, [], 3⟩).2.store_key :=
  ⟨ensure_entry_idempotent.1 _ "a" "1.0.0" [] none none ⟨"c2", 5, [], 7⟩
      ⟨"k", "a", "1.0.0", "g", "c", 0, 0, none, none, [], []⟩
      (casLookup_cons_self [] _ _),
   (ensure_entry_idempotent.2 [] "b" "2.0.0" [] none none ⟨"c", 1, [], 3⟩
      ⟨"c", 1, [], 9⟩).2.1⟩

/-! ## Comparator properties -/

theorem natCmp_lt_iff (a b : Nat) : natCmp a b = Ordering.lt ↔ a < b := by
  unfold natCmp
  split
  · simp [*]
  · split <;> simp <;> omega

theorem natCmp_eq_iff (a b : Nat) : natCmp a b = Ordering.eq ↔ a = b := by
  unfold natCmp
  split
  · simp; omega
  · split <;> simp <;> omega

theorem natCmp_gt_iff (a b : Nat) : natCmp a b = Ordering.gt ↔ b < a := by
  unfold natCmp
  split
  · simp; omega
  · split <;> simp <;> omega

instance : Batteries.TransCmp natCmp where
  symm a b := by
    unfold natCmp
    rcases Nat.lt_trichotomy a b with h | h | h
    · simp [h, Nat.lt_asymm h, Ordering.swap]
    · simp [h, Nat.lt_irrefl, Ordering.swap]
    · simp [h, Nat.lt_asymm h, Ordering.swap]
  le_trans {a b c} h1 h2 := by
    simp only [ne_eq, natCmp_gt_iff] at h1 h2 ⊢
    omega

/-- A comparator precomposed with a projection keeps its properties. -/
theorem transCmpOn (f : β → α) (cmp : α → α → Ordering) [Batteries.TransCmp cmp] :
    Batteries.TransCmp (fun x y => cmp (f x) (f y)) where
  symm x y := Batteries.OrientedCmp.symm (f x) (f y)
  le_trans h1 h2 := Batteries.TransCmp.le_trans h1 h2

instance : Batteries.TransCmp charCmp := transCmpOn Char.toNat natCmp

theorem lexCmpWith_swap (c : α → α → Ordering) [Batteries.OrientedCmp c] :
    ∀ l₁ l₂ : List α, (lexCmpWith c l₁ l₂).swap = lexCmpWith c l₂ l₁
  | [], [] => rfl
  | [], _ :: _ => rfl
  | _ :: _, [] => rfl
  | a :: as, b :: bs => by
      simp only [lexCmpWith]
      cases hab : c a b with
      | eq =>
          have hba : c b a = Ordering.eq := Batteries.OrientedCmp.cmp_eq_eq_symm.mp hab
          simp [hba, lexCmpWith_swap c as bs]
      | lt =>
          have : c b a = Ordering.gt := by
            rw [← @Batteries.OrientedCmp.symm _ c _ a b, hab]; rfl
          simp [this, Ordering.swap]
      | gt =>
          have : c b a = Ordering.lt := by
            rw [← @Batteries.OrientedCmp.symm _ c _ a b, hab]; rfl
          simp [this, Ordering.swap]

instance lexCmpWithTransCmp (c : α → α → Ordering) [Batteries.TransCmp c] :
    Batteries.TransCmp (lexCmpWith c) where
  symm x y := lexCmpWith_swap c x y
  le_trans := by
    intro x y z h1 h2
    induction x generalizing y z with
    | nil =>
        cases z with
        | nil => simp [lexCmpWith]
        | cons _ _ => simp [lexCmpWith]
    | cons a as ih =>
        cases y with
        | nil => simp [lexCmpWith] at h1
        | cons b bs =>
          cases z with
          | nil => simp [lexCmpWith] at h2
          | cons g gs =>
            simp only [lexCmpWith] at h1 h2 ⊢
            cases hab : c a b with
            | gt => simp [hab] at h1
            | lt =>
                cases hbg : c b g with
                | gt => simp [hbg] at h2
                | lt =>
                    have := Batteries.TransCmp.lt_trans hab hbg
                    simp [this]
                | eq =>
                    have := (Batteries.TransCmp.cmp_congr_right hbg).symm.trans hab
                    simp [this]
            | eq =>
                cases hbg : c b g with
                | gt => simp [hbg] at h2
                | lt =>
                    have := (Batteries.TransCmp.cmp_congr_left hab).trans hbg
                    simp [this]
                | eq =>
                    have hag := (Batteries.TransCmp.cmp_congr_left hab).trans hbg
                    rw [hab] at h1
                    rw [hbg] at h2
                    simp only [hag]
                    exact ih h1 h2

instance : Batteries.TransCmp strCmp :=
  transCmpOn String.data (lexCmpWith charCmp)

theorem charCmp_eq_iff (a b : Char) : charCmp a b = Ordering.eq ↔ a = b := by
  unfold charCmp
  rw [natCmp_eq_iff]
  constructor
  · intro h
    exact Char.eq_of_val_eq (UInt32.eq_of_toBitVec_eq (BitVec.eq_of_toNat_eq h))
  · intro h; rw [h]

theorem lexCmpWith_eq_iff (c : α → α → Ordering)
    (hc : ∀ x y, c x y = Ordering.eq ↔ x = y) :
    ∀ l₁ l₂ : List α, lexCmpWith c l₁ l₂ = Ordering.eq ↔ l₁ = l₂
  | [], [] => by simp [lexCmpWith]
  | [], _ :: _ => by simp [lexCmpWith]
  | _ :: _, [] => by simp [lexCmpWith]
  | a :: as, b :: bs => by
      simp only [lexCmpWith]
      cases hab : c a b with
      | eq =>
          rw [lexCmpWith_eq_iff c hc as bs]
          simp [(hc a b).mp hab]
      | lt =>
          constructor
          · intro h; exact absurd h (by simp)
          · intro h
            injection h with h1 _
            exact absurd (hab.symm.trans ((hc a b).mpr h1)) (by decide)
      | gt =>
          constructor
          · intro h; exact absurd h (by simp)
          · intro h
            injection h with h1 _
            exact absurd (hab.symm.trans ((hc a b).mpr h1)) (by decide)

theorem strCmp_eq_iff (a b : String) : strCmp a b = Ordering.eq ↔ a = b := by
  unfold strCmp
  rw [lexCmpWith_eq_iff charCmp charCmp_eq_iff]
  constructor
  · exact String.ext
  · intro h; rw [h]

/-! ## Graph hash -/

theorem strLeB_iff (a b : String) : strLeB a b = true ↔ strCmp a b ≠ Ordering.gt := by
  unfold strLeB
  cases strCmp a b <;> decide

theorem strLtB_iff (a b : String) : strLtB a b = true ↔ strCmp a b = Ordering.lt := by
  unfold strLtB
  cases strCmp a b <;> decide

theorem strLeB_total (a b : String) : strLeB a b = true ∨ strLeB b a = true := by
  rw [strLeB_iff, strLeB_iff]
  cases h : strCmp a b with
  | lt => left; simp [h]
  | eq => left; simp [h]
  | gt =>
      right
      have : strCmp b a = Ordering.lt := Batteries.OrientedCmp.cmp_eq_gt.mp h
      simp [this]

theorem strLeB_trans {a b c : String} (h1 : strLeB a b = true)
    (h2 : strLeB b c = true) : strLeB a c = true := by
  rw [strLeB_iff] at h1 h2 ⊢
  exact Batteries.TransCmp.le_trans h1 h2

theorem strLtB_of_leB_of_ne {a b : String} (h1 : strLeB a b = true) (h2 : a ≠ b) :
    strLtB a b = true := by
  rw [strLeB_iff] at h1
  rw [strLtB_iff]
  cases h : strCmp a b with
  | lt => rfl
  | eq => exact absurd ((strCmp_eq_iff a b).mp h) h2
  | gt => exact absurd h h1

theorem strLtB_asymm {a b : String} (h1 : strLtB a b = true) (h2 : strLtB b a = true) :
    False := by
  rw [strLtB_iff] at h1 h2
  have : strCmp a b = Ordering.gt := Batteries.OrientedCmp.cmp_eq_gt.mpr h2
  rw [h1] at this
  cases this

theorem sortByName_eq_of_perm {deps deps' : List DependencyFingerprint}
    (hperm : deps.Perm deps') (hnodup : (deps.map (fun d => d.name)).Nodup) :
    sortByName deps = sortByName deps' := by
  classical
  haveI htot : IsTotal DependencyFingerprint
      (fun a b => strLeB a.name b.name = true) :=
    ⟨fun a b => strLeB_total a.name b.name⟩
  haveI htra : IsTrans DependencyFingerprint
      (fun a b => strLeB a.name b.name = true) :=
    ⟨fun _ _ _ h1 h2 => strLeB_trans h1 h2⟩
  haveI hanti : IsAntisymm DependencyFingerprint
      (fun a b => strLtB a.name b.name = true) :=
    ⟨fun a b h1 h2 => absurd (strLtB_asymm h1 h2) not_false⟩
  have hs1 := List.sorted_insertionSort (fun a b : DependencyFingerprint =>
    strLeB a.name b.name = true) deps
  have hs2 := List.sorted_insertionSort (fun a b : DependencyFingerprint =>
    strLeB a.name b.name = true) deps'
  have hp1 := List.perm_insertionSort (fun a b : DependencyFingerprint =>
    strLeB a.name b.name = true) deps
  have hp2 := List.perm_insertionSort (fun a b : DependencyFingerprint =>
    strLeB a.name b.name = true) deps'
  have hnodup' : (deps'.map (fun d => d.name)).Nodup :=
    ((hperm.map (fun d => d.name)).nodup_iff).mp hnodup
  have strict : ∀ (l₀ : List DependencyFingerprint),
      l₀.Sorted (fun a b => strLeB a.name b.name = true) →
      ((l₀.map (fun d => d.name)).Nodup) →
      l₀.Sorted (fun a b => strLtB a.name b.name = true) := by
    intro l₀ hs hn
    have hne : l₀.Pairwise (fun a b => a.name ≠ b.name) := by
      rw [List.Nodup, List.pairwise_map] at hn
      exact hn
    exact (List.Pairwise.and hs hne).imp (fun h => strLtB_of_leB_of_ne h.1 h.2)
  have strict1 := strict _ hs1 (((hp1.map (fun d => d.name)).nodup_iff).mpr hnodup)
  have strict2 := strict _ hs2 (((hp2.map (fun d => d.name)).nodup_iff).mpr hnodup')
  exact List.eq_of_perm_of_sorted (hp1.trans (hperm.trans hp2.symm)) strict1 strict2

/-- Claim C2: the graph hash depends only on the multiset of immediate
dependency fingerprints — permuting a list of fingerprints with
pairwise-distinct names leaves it unchanged, and the node's own name and
version do not enter it — and the returned store key is
`<name>@<version>::<graph_hash>`. -/
theorem compute_graph_hash_props :
    (∀ (name version name' version' : String)
        (deps deps' : List DependencyFingerprint),
      deps.Perm deps' → (deps.map (fun d => d.name)).Nodup →
      (computeGraphHash name version deps).1 =
        (computeGraphHash name' version' deps').1) ∧
    (∀ (name version : String) (deps : List DependencyFingerprint),
      (computeGraphHash name version deps).2 =
        name ++ "@" ++ version ++ "::" ++ (computeGraphHash name version deps).1) := by
  constructor
  · intro name version name' version' deps deps' hperm hnodup
    unfold computeGraphHash
    rw [sortByName_eq_of_perm hperm hnodup]
  · intro name version deps
    rfl

/-- Witness for C2: two permuted two-element dependency lists with
distinct names produce the same graph hash under different node
names/versions, and the store key has the documented shape. -/
theorem compute_graph_hash_props_witness :
    (computeGraphHash "a" "1.0.0"
        [⟨"x", "1.0.0", none⟩, ⟨"y", "2.0.0", some "k"⟩]).1 =
      (computeGraphHash "b" "9.9.9"
        [⟨"y", "2.0.0", some "k"⟩, ⟨"x", "1.0.0", none⟩]).1 ∧
    (computeGraphHash "a" "1.0.0"
        [⟨"x", "1.0.0", none⟩, ⟨"y", "2.0.0", some "k"⟩]).2 =
      "a" ++ "@" ++ "1.0.0" ++ "::" ++ (computeGraphHash "a" "1.0.0"
        [⟨"x", "1.0.0", none⟩, ⟨"y", "2.0.0", some "k"⟩]).1 :=
  ⟨compute_graph_hash_props.1 "a" "1.0.0" "b" "9.9.9" _ _
      (List.Perm.swap _ _ _) (by decide),
   compute_graph_hash_props.2 "a" "1.0.0" _⟩

/-! ## Version-order properties -/

instance : Batteries.TransCmp preIdentCmp where
  symm x y := by
    cases x <;> cases y <;> simp only [preIdentCmp, Ordering.swap] <;>
      first
        | rfl
        | exact @Batteries.OrientedCmp.symm _ natCmp _ _ _
        | exact @Batteries.OrientedCmp.symm _ strCmp _ _ _
  le_trans {x y z} h1 h2 := by
    cases x <;> cases y <;> cases z <;> simp only [preIdentCmp] at h1 h2 ⊢
    · exact @Batteries.TransCmp.le_trans _ natCmp _ _ _ _ h1 h2
    · decide
    · exact absurd rfl h2
    · decide
    · exact absurd rfl h1
    · exact absurd rfl h1
    · exact absurd rfl h2
    · exact @Batteries.TransCmp.le_trans _ strCmp _ _ _ _ h1 h2

instance : Batteries.TransCmp preCmp where
  symm x y := by
    cases x <;> cases y <;>
      simp only [preCmp] <;>
      first
        | rfl
        | exact lexCmpWith_swap preIdentCmp _ _
  le_trans {x y z} h1 h2 := by
    cases x <;> cases y <;> cases z <;> simp only [preCmp] at h1 h2 ⊢ <;>
      first
        | decide
        | exact absurd h1 (by decide)
        | exact absurd h2 (by decide)
        | exact @Batteries.TransCmp.le_trans _ (lexCmpWith preIdentCmp) _ _ _ _ h1 h2

instance pairLenStrTransCmp :
    Batteries.TransCmp (fun a b : String =>
      (natCmp a.data.length b.data.length).then (strCmp a b)) := by
  haveI : Batteries.TransCmp (fun a b : String =>
      natCmp a.data.length b.data.length) :=
    transCmpOn (fun s : String => s.data.length) natCmp
  exact inferInstanceAs (Batteries.TransCmp
    (compareLex (fun a b : String => natCmp a.data.length b.data.length) strCmp))

instance : Batteries.TransCmp buildIdentCmp where
  symm x y := by
    unfold buildIdentCmp
    cases hx : isNumericIdent x <;> cases hy : isNumericIdent y <;>
      simp only [Bool.and_self, Bool.and_true, Bool.and_false, Bool.true_and,
        Bool.false_and, if_true, if_false, Bool.false_eq_true, Ordering.swap] <;>
      first
        | rfl
        | exact @Batteries.OrientedCmp.symm _ strCmp _ x y
        | exact @Batteries.OrientedCmp.symm _
            (fun a b : String =>
              (natCmp a.data.length b.data.length).then (strCmp a b)) _ x y
  le_trans {x y z} h1 h2 := by
    unfold buildIdentCmp at h1 h2 ⊢
    cases hx : isNumericIdent x <;> cases hy : isNumericIdent y <;>
        cases hz : isNumericIdent z <;>
      simp only [hx, hy, hz, Bool.and_self, Bool.and_true, Bool.and_false,
        Bool.true_and, Bool.false_and, if_true, if_false, Bool.false_eq_true] at h1 h2 ⊢
    · exact @Batteries.TransCmp.le_trans _ strCmp _ _ _ _ h1 h2
    · exact absurd rfl h2
    · exact absurd rfl h1
    · exact absurd rfl h1
    · decide
    · exact absurd rfl h2
    · decide
    · exact @Batteries.TransCmp.le_trans _
        (fun a b : String => (natCmp a.data.length b.data.length).then (strCmp a b))
        _ _ _ _ h1 h2

instance : Batteries.TransCmp buildCmp :=
  inferInstanceAs (Batteries.TransCmp (lexCmpWith buildIdentCmp))

instance : Batteries.TransCmp versionCmp := by
  haveI i1 : Batteries.TransCmp (fun a b : SemverVersion => natCmp a.major b.major) :=
    transCmpOn (fun v : SemverVersion => v.major) natCmp
  haveI i2 : Batteries.TransCmp (fun a b : SemverVersion => natCmp a.minor b.minor) :=
    transCmpOn (fun v : SemverVersion => v.minor) natCmp
  haveI i3 : Batteries.TransCmp (fun a b : SemverVersion => natCmp a.patch b.patch) :=
    transCmpOn (fun v : SemverVersion => v.patch) natCmp
  haveI i4 : Batteries.TransCmp (fun a b : SemverVersion => preCmp a.pre b.pre) :=
    transCmpOn (fun v : SemverVersion => v.pre) preCmp
  haveI i5 : Batteries.TransCmp (fun a b : SemverVersion => buildCmp a.build b.build) :=
    transCmpOn (fun v : SemverVersion => v.build) buildCmp
  unfold versionCmp
  exact inferInstanceAs (Batteries.TransCmp (compareLex _ (compareLex _ (compareLex _
    (compareLex _ _)))))

theorem versionLeB_iff (a b : SemverVersion) :
    versionLeB a b = true ↔ versionCmp a b ≠ Ordering.gt := by
  unfold versionLeB
  cases versionCmp a b <;> decide

theorem versionLeB_refl (a : SemverVersion) : versionLeB a a = true := by
  rw [versionLeB_iff, @Batteries.OrientedCmp.cmp_refl _ versionCmp a _]
  decide

instance : IsTotal (SemverVersion × String) versionDescOrder :=
  ⟨fun a b => by
    unfold versionDescOrder
    rw [versionLeB_iff, versionLeB_iff]
    cases h : versionCmp b.1 a.1 with
    | lt => left; simp [h]
    | eq => left; simp [h]
    | gt =>
        right
        have : versionCmp a.1 b.1 = Ordering.lt :=
          Batteries.OrientedCmp.cmp_eq_gt.mp h
        simp [this]⟩

instance : IsTrans (SemverVersion × String) versionDescOrder :=
  ⟨fun a b c h1 h2 => by
    unfold versionDescOrder at h1 h2 ⊢
    rw [versionLeB_iff] at h1 h2 ⊢
    exact Batteries.TransCmp.le_trans h2 h1⟩

/-! ## Resolver -/

theorem find?_sorted_desc_max {l : List (SemverVersion × String)}
    (hs : l.Sorted versionDescOrder) {p : SemverVersion × String → Bool}
    {vu : SemverVersion × String} (hfind : l.find? p = some vu) :
    ∀ w ∈ l, p w = true → versionLeB w.1 vu.1 = true := by
  induction l with
  | nil => cases hfind
  | cons a t ih =>
    intro w hw hpw
    rw [List.find?_cons] at hfind
    cases ha : p a with
    | true =>
        rw [ha] at hfind
        injection hfind with hvu
        subst hvu
        rcases List.mem_cons.mp hw with rfl | hw'
        · exact versionLeB_refl _
        · exact (List.sorted_cons.mp hs).1 w hw'
    | false =>
        rw [ha] at hfind
        rcases List.mem_cons.mp hw with rfl | hw'
        · rw [hpw] at ha; cases ha
        · exact ih (List.sorted_cons.mp hs).2 hfind w hw' hpw

/-- Claim C3: `pick_version` iterates candidates in descending semver
order and returns the highest version satisfying at least one
canonicalized alternative together with its tarball URL, failing with
the no-version-matches error exactly when no candidate satisfies any
alternative; in particular, on candidates `{1.0.0, 2.1.3, 3.0.0-rc.1}`
and range `"^1 || ^2"` it returns `2.1.3`. -/
theorem pick_version_selects_highest :
    (∀ (versions : List (SemverVersion × String)) (range : String)
        (reqs : List (List ReqComparator)),
      buildReqs range = Except.ok reqs →
      (∀ v u, pickVersion versions range = Except.ok (v, u) →
        (v, u) ∈ versions ∧ reqs.any (fun r => matchesReq r v) = true ∧
        ∀ w u', (w, u') ∈ versions → reqs.any (fun r => matchesReq r w) = true →
          versionLeB w v = true) ∧
      (pickVersion versions range = Except.error (PickError.noVersionMatches range) ↔
        ∀ w u', (w, u') ∈ versions → reqs.any (fun r => matchesReq r w) = false)) ∧
    pickVersion [(⟨1, 0, 0, [], []⟩, "u1"), (⟨2, 1, 3, [], []⟩, "u2"),
        (⟨3, 0, 0, [PreIdent.alpha "rc", PreIdent.num 1], []⟩, "u3")] "^1 || ^2" =
      Except.ok (⟨2, 1, 3, [], []⟩, "u2") := by
  constructor
  · intro versions range reqs hreq
    have hperm := List.perm_insertionSort versionDescOrder versions
    have hsorted := List.sorted_insertionSort versionDescOrder versions
    constructor
    · intro v u hok
      simp only [pickVersion, hreq] at hok
      cases hfind : (List.insertionSort versionDescOrder versions).find?
          (fun vu => reqs.any fun r => matchesReq r vu.1) with
      | none => rw [hfind] at hok; cases hok
      | some vu =>
          rw [hfind] at hok
          injection hok with hvu
          subst hvu
          refine ⟨hperm.mem_iff.mp (List.mem_of_find?_eq_some hfind), ?_, ?_⟩
          · have := List.find?_some hfind
            simpa using this
          · intro w u' hw hpw
            exact find?_sorted_desc_max hsorted hfind (w, u')
              (hperm.mem_iff.mpr hw) hpw
    · constructor
      · intro herr w u' hw
        simp only [pickVersion, hreq] at herr
        cases hfind : (List.insertionSort versionDescOrder versions).find?
            (fun vu => reqs.any fun r => matchesReq r vu.1) with
        | some vu => rw [hfind] at herr; cases herr
        | none =>
            have := List.find?_eq_none.mp hfind (w, u') (hperm.mem_iff.mpr hw)
            simpa using this
      · intro hall
        simp only [pickVersion, hreq]
        have hnone : (List.insertionSort versionDescOrder versions).find?
            (fun vu => reqs.any fun r => matchesReq r vu.1) = none := by
          rw [List.find?_eq_none]
          intro x hx
          have := hall x.1 x.2 (hperm.mem_iff.mp hx)
          simp [this]
        rw [hnone]
  · rfl

/-- Witness for C3: the general part applied at the concrete candidate
set and range, with the requirement set built from `"^1 || ^2"`. -/
theorem pick_version_selects_highest_witness :
    (⟨2, 1, 3, [], []⟩, "u2") ∈
        ([(⟨1, 0, 0, [], []⟩, "u1"), (⟨2, 1, 3, [], []⟩, "u2"),
          (⟨3, 0, 0, [PreIdent.alpha "rc", PreIdent.num 1], []⟩, "u3")] :
          List (SemverVersion × String)) ∧
      versionLeB ⟨1, 0, 0, [], []⟩ ⟨2, 1, 3, [], []⟩ = true :=
  have h := (pick_version_selects_highest.1
    [(⟨1, 0, 0, [], []⟩, "u1"), (⟨2, 1, 3, [], []⟩, "u2"),
      (⟨3, 0, 0, [PreIdent.alpha "rc", PreIdent.num 1], []⟩, "u3")]
    "^1 || ^2" [[⟨ReqOp.caretOp, 1, none, none, []⟩], [⟨ReqOp.caretOp, 2, none, none, []⟩]]
    (by rfl)).1 ⟨2, 1, 3, [], []⟩ "u2" pick_version_selects_highest.2
  ⟨h.1, h.2.2 ⟨1, 0, 0, [], []⟩ "u1" (by decide) (by decide)⟩

/-- Claim C4 (a code bug): the specification's rule 7 says `N.M`
canonicalizes to `>=N.M.0, <N.(M+1).0`, but for a lone `N.M` token the
expansion is unreachable — it lives only in the multi-token branch — so
`"1.2"` is returned unchanged (and the solver then reads it as
`^1.2`, i.e. `<2.0.0`), while the same token accompanied by another
token is expanded. -/
theorem canonicalize_major_minor_not_expanded :
    canonicalizeNpmRange "1.2" = "1.2" ∧
    canonicalizeNpmRange "1.2" ≠ ">=1.2.0, <1.3.0" ∧
    canonicalizeNpmRange "1.2 2" = ">=1.2.0, <1.3.0" :=
  ⟨by decide, by decide, by decide⟩

/-! ## Lockfile pruning -/

theorem capList_mono (pkgs : List (RStr × PackageEntry)) {visited visited' : List RStr}
    (hsub : ∀ x ∈ visited, x ∈ visited') :
    capList pkgs visited' ≤ capList pkgs visited := by
  induction pkgs with
  | nil => simp [capList]
  | cons p rest ih =>
      unfold capList at ih ⊢
      simp only [List.filter_cons]
      by_cases h1 : p.1.drop nmPref.length ∉ visited'
      · have h2 : p.1.drop nmPref.length ∉ visited := fun hx => h1 (hsub _ hx)
        rw [if_pos (decide_eq_true h1), if_pos (decide_eq_true h2)]
        simp only [List.map_cons, List.sum_cons]
        omega
      · rw [if_neg (fun hc => h1 (of_decide_eq_true hc))]
        by_cases h2 : p.1.drop nmPref.length ∉ visited
        · rw [if_pos (decide_eq_true h2)]
          simp only [List.map_cons, List.sum_cons]
          omega
        · rw [if_neg (fun hc => h2 (of_decide_eq_true hc))]
          exact ih

theorem capList_decrease (pkgs : List (RStr × PackageEntry)) {name : RStr}
    {visited : List RStr} (hmem : name ∉ visited) {e : PackageEntry}
    (hget : mapGet pkgs (nmPref ++ name) = some e) :
    capList pkgs (name :: visited) + (entryEdges e).length ≤ capList pkgs visited := by
  induction pkgs with
  | nil => cases hget
  | cons p rest ih =>
      obtain ⟨k1, e1⟩ := p
      simp only [mapGet] at hget
      by_cases hk : k1 = nmPref ++ name
      · rw [if_pos hk] at hget
        injection hget with he
        subst he
        have hdropk : (k1, e1).1.drop nmPref.length = name := by
          show k1.drop nmPref.length = name
          rw [hk]; exact List.drop_left nmPref name
        unfold capList
        simp only [List.filter_cons, hdropk]
        rw [if_neg (fun hc => (of_decide_eq_true hc) (List.mem_cons_self _ _)),
          if_pos (decide_eq_true hmem)]
        simp only [List.map_cons, List.sum_cons]
        have hmono2 : capList rest (name :: visited) ≤ capList rest visited :=
          capList_mono rest (fun x hx => List.mem_cons_of_mem _ hx)
        unfold capList at hmono2
        omega
      · rw [if_neg hk] at hget
        have hrest := ih hget
        unfold capList at hrest ⊢
        simp only [List.filter_cons]
        by_cases h1 : (k1, e1).1.drop nmPref.length ∉ name :: visited
        · have h2 : (k1, e1).1.drop nmPref.length ∉ visited := fun hx =>
            h1 (List.mem_cons_of_mem _ hx)
          rw [if_pos (decide_eq_true h1), if_pos (decide_eq_true h2)]
          simp only [List.map_cons, List.sum_cons]
          omega
        · rw [if_neg (fun hc => h1 (of_decide_eq_true hc))]
          by_cases h2 : (k1, e1).1.drop nmPref.length ∉ visited
          · rw [if_pos (decide_eq_true h2)]
            simp only [List.map_cons, List.sum_cons]
            omega
          · rw [if_neg (fun hc => h2 (of_decide_eq_true hc))]
            exact hrest

theorem capList_le_total (pkgs : List (RStr × PackageEntry)) (visited : List RStr) :
    capList pkgs visited ≤ (pkgs.map (fun p => (entryEdges p.2).length)).sum := by
  induction pkgs with
  | nil => simp [capList]
  | cons p rest ih =>
      unfold capList at ih ⊢
      simp only [List.filter_cons, List.map_cons, List.sum_cons]
      by_cases h1 : p.1.drop nmPref.length ∉ visited
      · rw [if_pos (decide_eq_true h1)]
        simp only [List.map_cons, List.sum_cons]
        omega
      · rw [if_neg (fun hc => h1 (of_decide_eq_true hc))]
        omega

theorem bfsGo_spec (lock : Lockfile) : ∀ (fuel : Nat) (queue visited : List RStr),
    (∀ v ∈ visited, ReachName lock v) →
    (∀ q ∈ queue, ReachName lock q) →
    (∀ v ∈ visited, ∀ y ∈ bfsEdges lock v, y ∈ visited ∨ y ∈ queue) →
    queue.length + capList lock.packages visited ≤ fuel →
    (∀ v ∈ bfsGo lock fuel queue visited, ReachName lock v) ∧
    (∀ v ∈ visited, v ∈ bfsGo lock fuel queue visited) ∧
    (∀ q ∈ queue, q ∈ bfsGo lock fuel queue visited) ∧
    (∀ v ∈ bfsGo lock fuel queue visited, ∀ y ∈ bfsEdges lock v,
      y ∈ bfsGo lock fuel queue visited) := by
  intro fuel
  induction fuel with
  | zero =>
      intro queue visited hv hq hcl hfuel
      have hqnil : queue = [] := List.eq_nil_of_length_eq_zero (by omega)
      subst hqnil
      simp only [bfsGo]
      exact ⟨hv, fun v h => h, by simp, fun v hvmem y hy =>
        (hcl v hvmem y hy).resolve_right (by simp)⟩
  | succ fuel ih =>
      intro queue visited hv hq hcl hfuel
      cases queue with
      | nil =>
          simp only [bfsGo]
          exact ⟨hv, fun v h => h, by simp, fun v hvmem y hy =>
            (hcl v hvmem y hy).resolve_right (by simp)⟩
      | cons name rest =>
          by_cases hmem : name ∈ visited
          · have heq : bfsGo lock (fuel + 1) (name :: rest) visited =
                bfsGo lock fuel rest visited := by
              simp [bfsGo, hmem]
            rw [heq]
            have hcl' : ∀ v ∈ visited, ∀ y ∈ bfsEdges lock v,
                y ∈ visited ∨ y ∈ rest := by
              intro v hv' y hy
              rcases hcl v hv' y hy with h | h
              · exact Or.inl h
              · rcases List.mem_cons.mp h with rfl | h'
                · exact Or.inl hmem
                · exact Or.inr h'
            have hrec := ih rest visited hv
              (fun q hq' => hq q (List.mem_cons_of_mem _ hq')) hcl'
              (by simp only [List.length_cons] at hfuel; omega)
            refine ⟨hrec.1, hrec.2.1, ?_, hrec.2.2.2⟩
            intro q hq'
            rcases List.mem_cons.mp hq' with rfl | h'
            · exact hrec.2.1 q hmem
            · exact hrec.2.2.1 q h'
          · cases hget : mapGet lock.packages (nmPref ++ name) with
            | some e =>
                have heq : bfsGo lock (fuel + 1) (name :: rest) visited =
                    bfsGo lock fuel (rest ++ entryEdges e) (name :: visited) := by
                  simp [bfsGo, hmem, hget]
                rw [heq]
                have hvReach : ReachName lock name := hq name (List.mem_cons_self _ _)
                have hv' : ∀ v ∈ name :: visited, ReachName lock v := by
                  intro v hv'
                  rcases List.mem_cons.mp hv' with rfl | h'
                  · exact hvReach
                  · exact hv v h'
                have hq' : ∀ q ∈ rest ++ entryEdges e, ReachName lock q := by
                  intro q hq'
                  rcases List.mem_append.mp hq' with h' | h'
                  · exact hq q (List.mem_cons_of_mem _ h')
                  · exact ReachName.step hvReach hget h'
                have hcl' : ∀ v ∈ name :: visited, ∀ y ∈ bfsEdges lock v,
                    y ∈ name :: visited ∨ y ∈ rest ++ entryEdges e := by
                  intro v hv'' y hy
                  rcases List.mem_cons.mp hv'' with rfl | h'
                  · right
                    apply List.mem_append.mpr
                    right
                    simpa [bfsEdges, hget] using hy
                  · rcases hcl v h' y hy with h | h
                    · exact Or.inl (List.mem_cons_of_mem _ h)
                    · rcases List.mem_cons.mp h with rfl | h''
                      · exact Or.inl (List.mem_cons_self _ _)
                      · exact Or.inr (List.mem_append.mpr (Or.inl h''))
                have hfuel' : (rest ++ entryEdges e).length +
                    capList lock.packages (name :: visited) ≤ fuel := by
                  have hdec := capList_decrease lock.packages hmem hget
                  simp only [List.length_append]
                  simp only [List.length_cons] at hfuel
                  omega
                have hrec := ih _ _ hv' hq' hcl' hfuel'
                refine ⟨hrec.1, ?_, ?_, hrec.2.2.2⟩
                · intro v hvm
                  exact hrec.2.1 v (List.mem_cons_of_mem _ hvm)
                · intro q hq''
                  rcases List.mem_cons.mp hq'' with rfl | h'
                  · exact hrec.2.1 q (List.mem_cons_self _ _)
                  · exact hrec.2.2.1 q (List.mem_append.mpr (Or.inl h'))
            | none =>
                have heq : bfsGo lock (fuel + 1) (name :: rest) visited =
                    bfsGo lock fuel rest (name :: visited) := by
                  simp [bfsGo, hmem, hget]
                rw [heq]
                have hvReach : ReachName lock name := hq name (List.mem_cons_self _ _)
                have hv' : ∀ v ∈ name :: visited, ReachName lock v := by
                  intro v hv'
                  rcases List.mem_cons.mp hv' with rfl | h'
                  · exact hvReach
                  · exact hv v h'
                have hcl' : ∀ v ∈ name :: visited, ∀ y ∈ bfsEdges lock v,
                    y ∈ name :: visited ∨ y ∈ rest := by
                  intro v hv'' y hy
                  rcases List.mem_cons.mp hv'' with rfl | h'
                  · exact absurd hy (by simp [bfsEdges, hget])
                  · rcases hcl v h' y hy with h | h
                    · exact Or.inl (List.mem_cons_of_mem _ h)
                    · rcases List.mem_cons.mp h with rfl | h''
                      · exact Or.inl (List.mem_cons_self _ _)
                      · exact Or.inr h''
                have hfuel' : rest.length + capList lock.packages (name :: visited)
                    ≤ fuel := by
                  have hmono : capList lock.packages (name :: visited) ≤
                      capList lock.packages visited :=
                    capList_mono lock.packages (fun x hx => List.mem_cons_of_mem _ hx)
                  simp only [List.length_cons] at hfuel
                  omega
                have hrec := ih _ _ hv'
                  (fun q hq' => hq q (List.mem_cons_of_mem _ hq')) hcl' hfuel'
                refine ⟨hrec.1, ?_, ?_, hrec.2.2.2⟩
                · intro v hvm
                  exact hrec.2.1 v (List.mem_cons_of_mem _ hvm)
                · intro q hq''
                  rcases List.mem_cons.mp hq'' with rfl | h'
                  · exact hrec.2.1 q (List.mem_cons_self _ _)
                  · exact hrec.2.2.1 q h'

theorem mem_reachableSet_iff (lock : Lockfile) (n : RStr) :
    n ∈ reachableSet lock ↔ ReachName lock n := by
  have hfuel : (rootSeeds lock).length + capList lock.packages [] ≤ pruneFuel lock := by
    unfold pruneFuel
    have := capList_le_total lock.packages []
    omega
  have hmain := bfsGo_spec lock (pruneFuel lock) (rootSeeds lock) []
    (by simp) (fun q hq => ReachName.seed hq) (by simp) hfuel
  constructor
  · exact fun h => hmain.1 n h
  · intro hr
    induction hr with
    | seed h => exact hmain.2.2.1 _ h
    | step hm hget hy ihm =>
        refine hmain.2.2.2 _ ihm _ ?_
        simpa [bfsEdges, hget] using hy

theorem nm_key_decomp {k : RStr} (h : nmPref.isPrefixOf k = true) :
    k = nmPref ++ k.drop nmPref.length ∧ k ≠ [] := by
  rw [List.isPrefixOf_iff_prefix] at h
  obtain ⟨t, ht⟩ := h
  subst ht
  refine ⟨by rw [List.drop_left], ?_⟩
  intro hcontra
  have : nmPref = [] := by
    cases nmPref with
    | nil => rfl
    | cons a l => cases hcontra
  cases this

/-- Claim C8 (amended): after `prune_unreachable`, every surviving
`node_modules/<X>` key names a package reachable from the root by the
loop's edge set — `dependencies`, `devDependencies`,
`optionalDependencies` and non-optional `peerDependencies` from the root
entry, but only `dependencies`, `optionalDependencies` and non-optional
`peerDependencies` (not `devDependencies`) from non-root entries —
every `node_modules/<X>` key with unreachable `X` is removed with `X`
reported, keys that are reachable or not `node_modules/`-prefixed
survive, and every reported name comes from an original unreachable
`node_modules/` key. -/
theorem prune_unreachable_exact (lock : Lockfile) :
    (∀ k e, (k, e) ∈ (pruneUnreachable lock).1.packages →
      nmPref.isPrefixOf k = true → ReachName lock (k.drop nmPref.length)) ∧
    (∀ k e, (k, e) ∈ lock.packages → nmPref.isPrefixOf k = true →
      ¬ ReachName lock (k.drop nmPref.length) →
      (∀ e', (k, e') ∉ (pruneUnreachable lock).1.packages) ∧
      k.drop nmPref.length ∈ (pruneUnreachable lock).2) ∧
    (∀ k e, (k, e) ∈ lock.packages →
      (nmPref.isPrefixOf k = false ∨ ReachName lock (k.drop nmPref.length)) →
      (k, e) ∈ (pruneUnreachable lock).1.packages) ∧
    (∀ n, n ∈ (pruneUnreachable lock).2 →
      ¬ ReachName lock n ∧ ∃ e, (nmPref ++ n, e) ∈ lock.packages) := by
  have hkey : ∀ k, (k ∈ (lock.packages.map (fun p => p.1)).filter
      (fun k => !k.isEmpty && nmPref.isPrefixOf k &&
        decide ((k.drop nmPref.length) ∉ reachableSet lock))) ↔
      (∃ e, (k, e) ∈ lock.packages) ∧ nmPref.isPrefixOf k = true ∧
        ¬ ReachName lock (k.drop nmPref.length) := by
    intro k
    rw [List.mem_filter]
    constructor
    · rintro ⟨hmem, hcond⟩
      simp only [Bool.and_eq_true, decide_eq_true_eq] at hcond
      obtain ⟨⟨k1, e1⟩, hp, hp1⟩ := List.mem_map.mp hmem
      subst hp1
      refine ⟨⟨e1, hp⟩, hcond.1.2, ?_⟩
      rw [← mem_reachableSet_iff]
      exact hcond.2
    · rintro ⟨⟨e, he⟩, hpref, hnr⟩
      refine ⟨List.mem_map.mpr ⟨(k, e), he, rfl⟩, ?_⟩
      simp only [Bool.and_eq_true, decide_eq_true_eq]
      have hne : k.isEmpty = false := by
        have := (nm_key_decomp hpref).2
        cases k with
        | nil => exact absurd rfl this
        | cons a l => rfl
      refine ⟨⟨by rw [hne]; rfl, hpref⟩, ?_⟩
      rw [mem_reachableSet_iff]
      exact hnr
  refine ⟨?_, ?_, ?_, ?_⟩
  · intro k e hke hpref
    by_contra hnr
    have hin : (k, e) ∈ lock.packages := (List.mem_filter.mp hke).1
    have hcond := (List.mem_filter.mp hke).2
    simp only [decide_eq_true_eq] at hcond
    exact hcond ((hkey k).mpr ⟨⟨e, hin⟩, hpref, hnr⟩)
  · intro k e hke hpref hnr
    have hk := (hkey k).mpr ⟨⟨e, hke⟩, hpref, hnr⟩
    constructor
    · intro e' he'
      have hcond := (List.mem_filter.mp he').2
      simp only [decide_eq_true_eq] at hcond
      exact hcond hk
    · exact List.mem_map.mpr ⟨k, hk, rfl⟩
  · intro k e hke hres
    apply List.mem_filter.mpr
    refine ⟨hke, ?_⟩
    simp only [decide_eq_true_eq]
    intro hk
    have := (hkey k).mp hk
    rcases hres with h | h
    · rw [this.2.1] at h; cases h
    · exact this.2.2 h
  · intro n hn
    obtain ⟨k, hk, hkn⟩ := List.mem_map.mp hn
    have := (hkey k).mp hk
    obtain ⟨⟨e, he⟩, hpref, hnr⟩ := this
    have hdecomp := (nm_key_decomp hpref).1
    subst hkn
    refine ⟨hnr, e, ?_⟩
    rwa [← hdecomp]

/-- Counterexample to C8 as stated: in `lockDevEdge` the package `b` is
reachable when `devDependencies` are followed transitively (the claim's
edge set), yet `prune_unreachable` removes `node_modules/b` and reports
`b`, because the code follows `devDependencies` only from the root. -/
theorem prune_dev_edge_counterexample :
    SpecReach lockDevEdge (strBytes "b") ∧
    (pruneUnreachable lockDevEdge).2 = [strBytes "b"] ∧
    ∀ e, (strBytes "node_modules/b", e) ∉ (pruneUnreachable lockDevEdge).1.packages := by
  refine ⟨?_, by decide, ?_⟩
  · refine SpecReach.step (m := strBytes "a") (e := entryADevB)
      (SpecReach.seed ?_) ?_ ?_
    · decide
    · decide
    · decide
  · intro e he
    rw [show (pruneUnreachable lockDevEdge).1.packages =
        [([], rootEntryAB), (strBytes "node_modules/a", entryADevB)] from by decide] at he
    rcases List.mem_cons.mp he with h | h
    · have h3 : strBytes "node_modules/b" = ([] : RStr) := congrArg Prod.fst h
      exact absurd h3 (by decide)
    · rcases List.mem_cons.mp h with h2 | h2
      · have h3 : strBytes "node_modules/b" = strBytes "node_modules/a" :=
          congrArg Prod.fst h2
        exact absurd h3 (by decide)
      · exact absurd h2 (List.not_mem_nil _)

/-- Witness for the amended C8 at `lockDevEdge`: the reachable entry
`node_modules/a` survives and the unreachable name `b` is reported. -/
theorem prune_unreachable_exact_witness :
    (strBytes "node_modules/a", entryADevB) ∈
      (pruneUnreachable lockDevEdge).1.packages ∧
    strBytes "b" ∈ (pruneUnreachable lockDevEdge).2 := by
  have hd := (prune_unreachable_exact lockDevEdge).2.2.2 (strBytes "b") (by decide)
  have hb := (prune_unreachable_exact lockDevEdge).2.1 (strBytes "node_modules/b")
    emptyPackageEntry (by decide) (by decide) hd.1
  refine ⟨(prune_unreachable_exact lockDevEdge).2.2.1 (strBytes "node_modules/a")
      entryADevB (by decide) (Or.inr ?_), ?_⟩
  · rw [show (strBytes "node_modules/a").drop nmPref.length = strBytes "a" from by decide]
    exact ReachName.seed (by decide)
  · have := hb.2
    rwa [show (strBytes "node_modules/b").drop nmPref.length = strBytes "b" from by decide]
      at this

/-! ## Lockfile binary codec -/

theorem exBind_ok {ε α β : Type} (a : α) (f : α → Except ε β) :
    (Except.ok a >>= f) = f a := rfl

theorem exBind_err {ε α β : Type} (e : ε) (f : α → Except ε β) :
    ((Except.error e : Except ε α) >>= f) = Except.error e := rfl

theorem mapM_ok {α β : Type} (f : α → Except String β) (g : α → β)
    (l : List α) (h : ∀ x ∈ l, f x = Except.ok (g x)) :
    l.mapM f = Except.ok (l.map g) := by
  induction l with
  | nil => rfl
  | cons a l ih =>
      rw [List.mapM_cons, h a (List.mem_cons_self _ _)]
      simp only [exBind_ok]
      rw [ih (fun x hx => h x (List.mem_cons_of_mem _ hx))]
      rfl

theorem length_le_sum_map {α : Type} (l : List α) (f : α → Nat)
    (h : ∀ x ∈ l, 1 ≤ f x) : l.length ≤ (l.map f).sum := by
  induction l with
  | nil => simp
  | cons a l ih =>
      simp only [List.length_cons, List.map_cons, List.sum_cons]
      have := h a (List.mem_cons_self _ _)
      have := ih (fun x hx => h x (List.mem_cons_of_mem _ hx))
      omega

theorem mem_le_sum_map {α : Type} (l : List α) (f : α → Nat) (x : α)
    (hx : x ∈ l) : f x ≤ (l.map f).sum := by
  induction l with
  | nil => cases hx
  | cons a l ih =>
      simp only [List.map_cons, List.sum_cons]
      rcases List.mem_cons.mp hx with rfl | h
      · omega
      · have := ih h
        omega

/-! ### Writer correctness -/

theorem writeString_eq (s : RStr) (what : String) (h : s.length < 2 ^ 32) :
    writeString s what = Except.ok (wStr s) := by
  unfold writeString writeLen
  rw [if_pos h]
  rfl

theorem writeOptionString_eq (o : Option RStr)
    (h : ∀ s, o = some s → s.length < 2 ^ 32) :
    writeOptionString o = Except.ok (wOpt o) := by
  cases o with
  | none => rfl
  | some s =>
      show (do
        let b ← writeString s "string"
        Except.ok (1 :: b) : Except String (List Nat)) = _
      rw [writeString_eq s "string" (h s rfl)]
      rfl

theorem writeStringMap_eq (m : List (RStr × RStr)) (hc : m.length < 2 ^ 32)
    (h : ∀ kv ∈ m, kv.1.length < 2 ^ 32 ∧ kv.2.length < 2 ^ 32) :
    writeStringMap m = Except.ok (wStrMap m) := by
  have hents : ∀ kv ∈ m,
      (do
        let k ← writeString kv.1 "map key"
        let v ← writeString kv.2 "map value"
        Except.ok (k ++ v) : Except String (List Nat)) =
      Except.ok (wStr kv.1 ++ wStr kv.2) := by
    intro kv hkv
    rw [writeString_eq kv.1 "map key" (h kv hkv).1]
    simp only [exBind_ok]
    rw [writeString_eq kv.2 "map value" (h kv hkv).2]
    rfl
  unfold writeStringMap writeLen
  rw [if_pos hc]
  simp only [exBind_ok]
  rw [mapM_ok _ (fun kv => wStr kv.1 ++ wStr kv.2) m hents]
  rfl

theorem writePeerMetaMap_eq (m : List (RStr × Bool)) (hc : m.length < 2 ^ 32)
    (h : ∀ kv ∈ m, kv.1.length < 2 ^ 32) :
    writePeerMetaMap m = Except.ok (wPeerMap m) := by
  have hents : ∀ kv ∈ m,
      (do
        let k ← writeString kv.1 "peer meta key"
        Except.ok (k ++ [if kv.2 then 1 else 0]) : Except String (List Nat)) =
      Except.ok (wStr kv.1 ++ [if kv.2 then 1 else 0]) := by
    intro kv hkv
    rw [writeString_eq kv.1 "peer meta key" (h kv hkv)]
    rfl
  unfold writePeerMetaMap writeLen
  rw [if_pos hc]
  simp only [exBind_ok]
  rw [mapM_ok _ (fun kv => wStr kv.1 ++ [if kv.2 then 1 else 0]) m hents]
  rfl

theorem writeStringList_eq (xs : List RStr) (hc : xs.length < 2 ^ 32)
    (h : ∀ s ∈ xs, s.length < 2 ^ 32) :
    writeStringList xs = Except.ok (wStrList xs) := by
  unfold writeStringList writeLen
  rw [if_pos hc]
  simp only [exBind_ok]
  rw [mapM_ok _ wStr xs (fun s hs => writeString_eq s "list item" (h s hs))]
  rfl

/-! ### Component bounds from the section bound -/

theorem strSmall (s : RStr) (what : String)
    (hb : encodedStrLen s ≤ MAX_LOCKFILE_SIZE) :
    writeString s what = Except.ok (wStr s) := by
  apply writeString_eq
  unfold encodedStrLen MAX_LOCKFILE_SIZE at hb
  omega

theorem optSmall (o : Option RStr) (hb : encodedOptLen o ≤ MAX_LOCKFILE_SIZE) :
    writeOptionString o = Except.ok (wOpt o) := by
  apply writeOptionString_eq
  intro s hs
  subst hs
  simp only [encodedOptLen, encodedStrLen, MAX_LOCKFILE_SIZE] at hb
  omega

theorem strMapSmall (m : List (RStr × RStr))
    (hb : encodedMapLen m ≤ MAX_LOCKFILE_SIZE) :
    writeStringMap m = Except.ok (wStrMap m) := by
  apply writeStringMap_eq
  · have h1 : m.length ≤
        (m.map (fun kv => encodedStrLen kv.1 + encodedStrLen kv.2)).sum :=
      length_le_sum_map m (fun kv => encodedStrLen kv.1 + encodedStrLen kv.2)
        (fun kv _ => by simp only [encodedStrLen]; omega)
    unfold encodedMapLen at hb
    unfold MAX_LOCKFILE_SIZE at hb
    omega
  · intro kv hkv
    have h1 : encodedStrLen kv.1 + encodedStrLen kv.2 ≤
        (m.map (fun kv => encodedStrLen kv.1 + encodedStrLen kv.2)).sum :=
      mem_le_sum_map m (fun kv => encodedStrLen kv.1 + encodedStrLen kv.2) kv hkv
    have h2 : encodedStrLen kv.1 + encodedStrLen kv.2 ≤ MAX_LOCKFILE_SIZE := by
      unfold encodedMapLen at hb
      omega
    unfold encodedStrLen MAX_LOCKFILE_SIZE at h2
    constructor <;> omega

theorem peerSmall (m : List (RStr × Bool))
    (hb : encodedPeerMetaLen m ≤ MAX_LOCKFILE_SIZE) :
    writePeerMetaMap m = Except.ok (wPeerMap m) := by
  apply writePeerMetaMap_eq
  · have h1 : m.length ≤ (m.map (fun kv => encodedStrLen kv.1 + 1)).sum :=
      length_le_sum_map m (fun kv => encodedStrLen kv.1 + 1)
        (fun kv _ => Nat.le_add_left 1 _)
    unfold encodedPeerMetaLen at hb
    unfold MAX_LOCKFILE_SIZE at hb
    omega
  · intro kv hkv
    have h1 : encodedStrLen kv.1 + 1 ≤
        (m.map (fun kv => encodedStrLen kv.1 + 1)).sum :=
      mem_le_sum_map m (fun kv => encodedStrLen kv.1 + 1) kv hkv
    have h2 : encodedStrLen kv.1 + 1 ≤ MAX_LOCKFILE_SIZE := by
      unfold encodedPeerMetaLen at hb
      omega
    unfold encodedStrLen MAX_LOCKFILE_SIZE at h2
    omega

theorem listSmall (xs : List RStr)
    (hb : encodedListLen xs ≤ MAX_LOCKFILE_SIZE) :
    writeStringList xs = Except.ok (wStrList xs) := by
  apply writeStringList_eq
  · have h1 : xs.length ≤ (xs.map encodedStrLen).sum :=
      length_le_sum_map xs encodedStrLen
        (fun s _ => by simp only [encodedStrLen]; omega)
    unfold encodedListLen at hb
    unfold MAX_LOCKFILE_SIZE at hb
    omega
  · intro s hs
    have h1 : encodedStrLen s ≤ (xs.map encodedStrLen).sum :=
      mem_le_sum_map xs encodedStrLen s hs
    have h2 : encodedStrLen s ≤ MAX_LOCKFILE_SIZE := by
      unfold encodedListLen at hb
      omega
    unfold encodedStrLen MAX_LOCKFILE_SIZE at h2
    omega

theorem encodeEntry_eq (name : RStr) (e : PackageEntry)
    (hb : encodedEntryLen name e ≤ MAX_LOCKFILE_SIZE) :
    encodeEntry name e = Except.ok (wEntry name e) := by
  have h01 : encodedStrLen name ≤ MAX_LOCKFILE_SIZE := by
    unfold encodedEntryLen at hb; omega
  have h02 : encodedOptLen e.version ≤ MAX_LOCKFILE_SIZE := by
    unfold encodedEntryLen at hb; omega
  have h03 : encodedOptLen e.integrity ≤ MAX_LOCKFILE_SIZE := by
    unfold encodedEntryLen at hb; omega
  have h04 : encodedOptLen e.resolved ≤ MAX_LOCKFILE_SIZE := by
    unfold encodedEntryLen at hb; omega
  have h05 : encodedMapLen e.dependencies ≤ MAX_LOCKFILE_SIZE := by
    unfold encodedEntryLen at hb; omega
  have h06 : encodedMapLen e.dev_dependencies ≤ MAX_LOCKFILE_SIZE := by
    unfold encodedEntryLen at hb; omega
  have h07 : encodedMapLen e.optional_dependencies ≤ MAX_LOCKFILE_SIZE := by
    unfold encodedEntryLen at hb; omega
  have h08 : encodedMapLen e.peer_dependencies ≤ MAX_LOCKFILE_SIZE := by
    unfold encodedEntryLen at hb; omega
  have h09 : encodedPeerMetaLen e.peer_dependencies_meta ≤ MAX_LOCKFILE_SIZE := by
    unfold encodedEntryLen at hb; omega
  have h10 : encodedListLen e.os ≤ MAX_LOCKFILE_SIZE := by
    unfold encodedEntryLen at hb; omega
  have h11 : encodedListLen e.cpu_arch ≤ MAX_LOCKFILE_SIZE := by
    unfold encodedEntryLen at hb; omega
  have h12 : encodedOptLen e.store_key ≤ MAX_LOCKFILE_SIZE := by
    unfold encodedEntryLen at hb; omega
  have h13 : encodedOptLen e.content_hash ≤ MAX_LOCKFILE_SIZE := by
    unfold encodedEntryLen at hb; omega
  have h14 : encodedOptLen e.link_mode ≤ MAX_LOCKFILE_SIZE := by
    unfold encodedEntryLen at hb; omega
  have h15 : encodedOptLen e.store_path ≤ MAX_LOCKFILE_SIZE := by
    unfold encodedEntryLen at hb; omega
  unfold encodeEntry
  simp only [strSmall name "package key" h01, optSmall e.version h02,
    optSmall e.integrity h03, optSmall e.resolved h04,
    strMapSmall e.dependencies h05, strMapSmall e.dev_dependencies h06,
    strMapSmall e.optional_dependencies h07, strMapSmall e.peer_dependencies h08,
    peerSmall e.peer_dependencies_meta h09, listSmall e.os h10,
    listSmall e.cpu_arch h11, optSmall e.store_key h12,
    optSmall e.content_hash h13, optSmall e.link_mode h14,
    optSmall e.store_path h15, exBind_ok]
  rfl

theorem one_le_encodedEntryLen (name : RStr) (e : PackageEntry) :
    1 ≤ encodedEntryLen name e := by
  have h4 : 4 ≤ encodedStrLen name := by unfold encodedStrLen; omega
  unfold encodedEntryLen
  omega

set_option maxHeartbeats 1000000 in
theorem encodePackagesBuf_eq (lf : Lockfile)
    (hb : sectionLen lf ≤ MAX_LOCKFILE_SIZE) :
    encodePackagesBuf lf = Except.ok (wSection lf) := by
  have hc : lf.packages.length < 2 ^ 32 := by
    have h1 : lf.packages.length ≤
        (lf.packages.map (fun p => encodedEntryLen p.1 p.2)).sum :=
      length_le_sum_map lf.packages (fun p => encodedEntryLen p.1 p.2)
        (fun p _ => one_le_encodedEntryLen p.1 p.2)
    unfold sectionLen at hb
    unfold MAX_LOCKFILE_SIZE at hb
    omega
  have hents : ∀ p ∈ lf.packages,
      encodeEntry p.1 p.2 = Except.ok (wEntry p.1 p.2) := by
    intro p hp
    apply encodeEntry_eq
    have h1 : encodedEntryLen p.1 p.2 ≤
        (lf.packages.map (fun p => encodedEntryLen p.1 p.2)).sum :=
      mem_le_sum_map lf.packages (fun p => encodedEntryLen p.1 p.2) p hp
    unfold sectionLen at hb
    omega
  unfold encodePackagesBuf writeLen
  rw [if_pos hc]
  simp only [exBind_ok]
  rw [mapM_ok (fun p => encodeEntry p.1 p.2) (fun p => wEntry p.1 p.2)
    lf.packages hents]
  rfl

/-! ### Wire-image lengths -/

theorem wStr_len (s : RStr) : (wStr s).length = encodedStrLen s := by
  simp only [wStr, writeU32, List.length_append, List.length_cons,
    List.length_nil, encodedStrLen]

theorem wOpt_len (o : Option RStr) : (wOpt o).length = encodedOptLen o := by
  cases o with
  | none => rfl
  | some s =>
      simp only [wOpt, wStr_len, encodedOptLen, encodedStrLen, List.length_cons]
      omega

theorem wMapEnts_len (m : List (RStr × RStr)) :
    (wMapEnts m).length =
      (m.map (fun kv => encodedStrLen kv.1 + encodedStrLen kv.2)).sum := by
  induction m with
  | nil => rfl
  | cons kv m ih =>
      simp only [wMapEnts, List.map_cons, List.flatten_cons, List.length_append,
        List.sum_cons] at ih ⊢
      rw [wStr_len, wStr_len, ih]

theorem wStrMap_len (m : List (RStr × RStr)) :
    (wStrMap m).length = encodedMapLen m := by
  simp only [wStrMap, wMapEnts_len, encodedMapLen, writeU32, List.length_append,
    List.length_cons, List.length_nil]

theorem wPeerEnts_len (m : List (RStr × Bool)) :
    (wPeerEnts m).length = (m.map (fun kv => encodedStrLen kv.1 + 1)).sum := by
  induction m with
  | nil => rfl
  | cons kv m ih =>
      simp only [wPeerEnts, List.map_cons, List.flatten_cons, List.length_append,
        List.sum_cons] at ih ⊢
      rw [wStr_len, ih]
      simp

theorem wPeerMap_len (m : List (RStr × Bool)) :
    (wPeerMap m).length = encodedPeerMetaLen m := by
  simp only [wPeerMap, wPeerEnts_len, encodedPeerMetaLen, writeU32,
    List.length_append, List.length_cons, List.length_nil]

theorem wListEnts_len (xs : List RStr) :
    (wListEnts xs).length = (xs.map encodedStrLen).sum := by
  induction xs with
  | nil => rfl
  | cons s xs ih =>
      simp only [wListEnts, List.map_cons, List.flatten_cons, List.length_append,
        List.sum_cons] at ih ⊢
      rw [wStr_len, ih]

theorem wStrList_len (xs : List RStr) :
    (wStrList xs).length = encodedListLen xs := by
  simp only [wStrList, wListEnts_len, encodedListLen, writeU32,
    List.length_append, List.length_cons, List.length_nil]

theorem wEntry_len (name : RStr) (e : PackageEntry) :
    (wEntry name e).length = encodedEntryLen name e := by
  simp only [wEntry, List.length_append, wStr_len, wOpt_len, wStrMap_len,
    wPeerMap_len, wStrList_len]
  unfold encodedEntryLen
  omega

theorem wSection_len (lf : Lockfile) :
    (wSection lf).length = sectionLen lf := by
  have h : ∀ (ps : List (RStr × PackageEntry)),
      ((ps.map (fun p => wEntry p.1 p.2)).flatten).length =
      (ps.map (fun p => encodedEntryLen p.1 p.2)).sum := by
    intro ps
    induction ps with
    | nil => rfl
    | cons p ps ih =>
        simp only [List.map_cons, List.flatten_cons, List.length_append,
          List.sum_cons, ih, wEntry_len]
  unfold wSection sectionLen
  rw [List.length_append, h]
  rfl

set_option maxHeartbeats 1000000 in
theorem encodeCurrentBinary_eq (lf : Lockfile)
    (hsize : sectionLen lf + 24 ≤ MAX_LOCKFILE_SIZE) :
    encodeCurrentBinary lf = Except.ok (encBuf lf) := by
  have hsec := encodePackagesBuf_eq lf (by omega)
  have hslen := wSection_len lf
  have hmax : MAX_LOCKFILE_SIZE = 16777216 := rfl
  unfold encodeCurrentBinary
  rw [hsec]
  simp only [exBind_ok]
  rw [if_pos (show (wSection lf).length ≤ MAX_LOCKFILE_SIZE by rw [hslen]; omega)]
  unfold writeLen
  rw [if_pos (show (wSection lf).length < 2 ^ 32 by rw [hslen]; omega)]
  simp only [exBind_ok]
  have hbl : (LOCKFILE_MAGIC ++ writeU16 CURRENT_WIRE_VERSION ++ writeU16 0
      ++ writeU32 lf.format ++ writeU32 (wSection lf).length ++ wSection lf
      ++ writeU32 0).length = 24 + sectionLen lf := by
    have hm : LOCKFILE_MAGIC.length = 8 := rfl
    simp only [List.length_append, hslen, writeU16, writeU32, List.length_cons,
      List.length_nil, hm]
    omega
  rw [if_pos (show (LOCKFILE_MAGIC ++ writeU16 CURRENT_WIRE_VERSION ++ writeU16 0
      ++ writeU32 lf.format ++ writeU32 (wSection lf).length ++ wSection lf
      ++ writeU32 0).length ≤ MAX_LOCKFILE_SIZE by rw [hbl]; omega)]
  rw [show encBuf lf = LOCKFILE_MAGIC ++ writeU16 CURRENT_WIRE_VERSION ++ writeU16 0
    ++ writeU32 lf.format ++ writeU32 (wSection lf).length ++ wSection lf
    ++ writeU32 0 from by rw [encBuf, hslen]]

/-! ### Reader correctness over a drop view of the buffer -/

theorem getD_shift (data : List Nat) (pos i d : Nat) :
    data.getD (pos + i) d = (data.drop pos).getD i d := by
  induction pos generalizing data with
  | zero => simp
  | succ pos ih =>
      cases data with
      | nil => simp
      | cons a l =>
          rw [show pos + 1 + i = pos + i + 1 from by omega]
          rw [List.getD_cons_succ, List.drop_succ_cons, ih l]

theorem drop_view (data : List Nat) (pos : Nat) (chunk rest : List Nat)
    (hpos : pos ≤ data.length) (h : data.drop pos = chunk ++ rest) :
    pos + chunk.length ≤ data.length ∧
    data.drop (pos + chunk.length) = rest := by
  have hlen : (data.drop pos).length = data.length - pos := List.length_drop _ _
  rw [h, List.length_append] at hlen
  refine ⟨by omega, ?_⟩
  rw [← List.drop_drop, h, List.drop_left]

theorem pos_lt_of_drop_cons {data : List Nat} {pos a : Nat} {l : List Nat}
    (h : data.drop pos = a :: l) : pos < data.length := by
  by_contra hge
  rw [List.drop_eq_nil_of_le (by omega)] at h
  cases h

theorem readU16_rt (data : List Nat) (pos v : Nat) (rest : List Nat)
    (hpos : pos ≤ data.length) (h : data.drop pos = writeU16 v ++ rest)
    (hv : v < 2 ^ 16) :
    readU16 data pos = Except.ok (v, pos + 2) := by
  have hb := (drop_view data pos (writeU16 v) rest hpos h).1
  rw [show (writeU16 v).length = 2 from rfl] at hb
  have h0 : data.getD pos 0 = v % 256 := by
    have hs := getD_shift data pos 0 0
    rw [Nat.add_zero] at hs
    rw [hs, h]
    rfl
  have h1 : data.getD (pos + 1) 0 = v / 256 % 256 := by
    rw [getD_shift data pos 1 0, h]
    rfl
  unfold readU16
  rw [if_pos hb, h0, h1]
  rw [show v % 256 + 256 * (v / 256 % 256) = v from by omega]

theorem readU32_rt (data : List Nat) (pos v : Nat) (rest : List Nat)
    (hpos : pos ≤ data.length) (h : data.drop pos = writeU32 v ++ rest)
    (hv : v < 2 ^ 32) :
    readU32 data pos = Except.ok (v, pos + 4) := by
  have hb := (drop_view data pos (writeU32 v) rest hpos h).1
  rw [show (writeU32 v).length = 4 from rfl] at hb
  have h0 : data.getD pos 0 = v % 256 := by
    have hs := getD_shift data pos 0 0
    rw [Nat.add_zero] at hs
    rw [hs, h]
    rfl
  have h1 : data.getD (pos + 1) 0 = v / 256 % 256 := by
    rw [getD_shift data pos 1 0, h]
    rfl
  have h2 : data.getD (pos + 2) 0 = v / 65536 % 256 := by
    rw [getD_shift data pos 2 0, h]
    rfl
  have h3 : data.getD (pos + 3) 0 = v / 16777216 % 256 := by
    rw [getD_shift data pos 3 0, h]
    rfl
  unfold readU32
  rw [if_pos hb, h0, h1, h2, h3]
  rw [show v % 256 + 256 * (v / 256 % 256) + 65536 * (v / 65536 % 256)
    + 16777216 * (v / 16777216 % 256) = v from by omega]

theorem readLen_rt (data : List Nat) (pos v : Nat) (rest : List Nat)
    (what : String) (hpos : pos ≤ data.length)
    (h : data.drop pos = writeU32 v ++ rest) (hv : v < 2 ^ 32) :
    readLen data pos what = Except.ok (v, pos + 4) := by
  unfold readLen
  rw [readU32_rt data pos v rest hpos h hv]

theorem readExact_rt (data : List Nat) (pos : Nat) (b rest : List Nat)
    (what : String) (hpos : pos ≤ data.length) (h : data.drop pos = b ++ rest) :
    readExact data pos b.length what = Except.ok (b, pos + b.length) := by
  have hb := (drop_view data pos b rest hpos h).1
  unfold readExact
  rw [if_pos hb, h, List.take_left]

theorem readString_rt (data : List Nat) (pos : Nat) (s rest : List Nat)
    (what : String) (hpos : pos ≤ data.length)
    (h : data.drop pos = wStr s ++ rest) (hlen : s.length < 2 ^ 32)
    (hutf : validUtf8 s = true) :
    readString data pos what = Except.ok (s, pos + (wStr s).length) := by
  have h' : data.drop pos = writeU32 s.length ++ (s ++ rest) := by
    rw [h, wStr, List.append_assoc]
  obtain ⟨hb, hd⟩ := drop_view data pos (writeU32 s.length) (s ++ rest) hpos h'
  rw [show (writeU32 s.length).length = 4 from rfl] at hb hd
  unfold readString
  rw [readLen_rt data pos s.length (s ++ rest) what hpos h' hlen]
  simp only [exBind_ok]
  rw [readExact_rt data (pos + 4) s rest what (by omega) hd]
  simp only [exBind_ok]
  rw [if_pos hutf]
  rw [show pos + 4 + s.length = pos + (wStr s).length from by
    rw [wStr, List.length_append, show (writeU32 s.length).length = 4 from rfl]
    omega]

theorem readOptionString_rt (data : List Nat) (pos : Nat) (o : Option RStr)
    (rest : List Nat) (hpos : pos ≤ data.length)
    (h : data.drop pos = wOpt o ++ rest)
    (hlen : ∀ s, o = some s → s.length < 2 ^ 32)
    (hutf : optWFB o = true) :
    readOptionString data pos = Except.ok (o, pos + (wOpt o).length) := by
  cases o with
  | none =>
      have hcons : data.drop pos = 0 :: rest := by
        rw [h]
        rfl
      have hlt : pos < data.length := pos_lt_of_drop_cons hcons
      have h0 : data.getD pos 256 = 0 := by
        have hs := getD_shift data pos 0 256
        rw [Nat.add_zero] at hs
        rw [hs, hcons]
        rfl
      unfold readOptionString
      rw [if_pos hlt, h0]
      rfl
  | some s =>
      have hcons : data.drop pos = 1 :: (wStr s ++ rest) := by
        rw [h, wOpt, List.cons_append]
      have hlt : pos < data.length := pos_lt_of_drop_cons hcons
      have h0 : data.getD pos 256 = 1 := by
        have hs := getD_shift data pos 0 256
        rw [Nat.add_zero] at hs
        rw [hs, hcons]
        rfl
      have hd : data.drop (pos + 1) = wStr s ++ rest := by
        have hv := (drop_view data pos [1] (wStr s ++ rest) hpos
          (by rw [hcons]; rfl)).2
        simpa using hv
      unfold readOptionString
      rw [if_pos hlt, h0]
      show (do
        let (s', pos') ← readString data (pos + 1) "string"
        Except.ok (some s', pos') : Except String (Option RStr × Nat)) = _
      rw [readString_rt data (pos + 1) s rest "string" (by omega) hd
        (hlen s rfl) (by simpa [optWFB] using hutf)]
      simp only [exBind_ok]
      rw [show pos + 1 + (wStr s).length = pos + (wOpt (some s)).length from by
        rw [wOpt, List.length_cons]
        omega]

/-! ### Byte-key order facts for BTreeMap insertion -/

instance : Batteries.TransCmp bytesCmp := lexCmpWithTransCmp natCmp

theorem bytesLt_iff {a b : RStr} :
    bytesLt a b = true ↔ bytesCmp a b = Ordering.lt := by
  unfold bytesLt
  cases bytesCmp a b <;> decide

theorem bytesLt_trans {a b c : RStr} (h1 : bytesLt a b = true)
    (h2 : bytesLt b c = true) : bytesLt a c = true := by
  rw [bytesLt_iff] at h1 h2 ⊢
  exact Batteries.TransCmp.lt_trans h1 h2

theorem bytesLt_asymm {a b : RStr} (h : bytesLt a b = true) :
    bytesLt b a = false := by
  rw [bytesLt_iff] at h
  have hgt : bytesCmp b a = Ordering.gt :=
    Batteries.OrientedCmp.cmp_eq_gt.mpr h
  unfold bytesLt
  rw [hgt]
  rfl

theorem bytesLt_ne {a b : RStr} (h : bytesLt a b = true) : a ≠ b := by
  intro hab
  subst hab
  rw [bytesLt_iff] at h
  rw [@Batteries.OrientedCmp.cmp_refl _ bytesCmp a _] at h
  cases h

theorem mapInsert_eq_append {α : Type} (acc : List (RStr × α)) (k : RStr) (v : α)
    (hgt : ∀ p ∈ acc, bytesLt p.1 k = true) :
    mapInsert acc k v = acc ++ [(k, v)] := by
  induction acc with
  | nil => rfl
  | cons q acc ih =>
      obtain ⟨k1, v1⟩ := q
      have hq : bytesLt k1 k = true := hgt (k1, v1) (List.mem_cons_self _ _)
      unfold mapInsert
      rw [if_neg (by simp [bytesLt_asymm hq]),
        if_neg (fun he => (bytesLt_ne hq) he.symm),
        ih (fun p hp => hgt p (List.mem_cons_of_mem _ hp))]
      rfl

theorem keysChainB_cons {α : Type} (p : RStr × α) (m : List (RStr × α))
    (h : keysChainB (p :: m) = true) : keysChainB m = true := by
  cases m with
  | nil => rfl
  | cons q m =>
      unfold keysChainB at h
      rw [Bool.and_eq_true] at h
      exact h.2

theorem keysChainB_head_lt {α : Type} :
    ∀ (m : List (RStr × α)) (p : RStr × α),
    keysChainB (p :: m) = true → ∀ q ∈ m, bytesLt p.1 q.1 = true := by
  intro m
  induction m with
  | nil =>
      intro p h q hq
      cases hq
  | cons r m ih =>
      intro p h q hq
      unfold keysChainB at h
      rw [Bool.and_eq_true] at h
      have hpr := h.1
      have hrest := h.2
      rcases List.mem_cons.mp hq with rfl | hq'
      · exact hpr
      · exact bytesLt_trans hpr (ih r hrest q hq')

theorem keysChainB_mid {α : Type} (k : RStr) (v : α) :
    ∀ (acc m : List (RStr × α)), keysChainB (acc ++ (k, v) :: m) = true →
    ∀ p ∈ acc, bytesLt p.1 k = true := by
  intro acc
  induction acc with
  | nil =>
      intro m h p hp
      cases hp
  | cons r acc ih =>
      intro m h p hp
      simp only [List.cons_append] at h
      rcases List.mem_cons.mp hp with rfl | hp'
      · exact keysChainB_head_lt (acc ++ (k, v) :: m) p h (k, v)
          (List.mem_append.mpr (Or.inr (List.mem_cons_self _ _)))
      · exact ih m (keysChainB_cons r _ h) p hp'

theorem readStringMapGo_rt (data : List Nat) :
    ∀ (m : List (RStr × RStr)) (pos : Nat) (rest : List Nat)
      (acc : List (RStr × RStr)),
    pos ≤ data.length →
    data.drop pos = wMapEnts m ++ rest →
    keysChainB (acc ++ m) = true →
    (∀ kv ∈ m, kv.1.length < 2 ^ 32 ∧ kv.2.length < 2 ^ 32 ∧
      validUtf8 kv.1 = true ∧ validUtf8 kv.2 = true) →
    readStringMapGo data pos m.length acc =
      Except.ok (acc ++ m, pos + (wMapEnts m).length) := by
  intro m
  induction m with
  | nil =>
      intro pos rest acc hpos h hchain hall
      simp [readStringMapGo, wMapEnts]
  | cons kv m ih =>
      obtain ⟨k, v⟩ := kv
      intro pos rest acc hpos h hchain hall
      have hkv := hall (k, v) (List.mem_cons_self _ _)
      have h1 : data.drop pos = wStr k ++ (wStr v ++ (wMapEnts m ++ rest)) := by
        rw [h]
        simp [wMapEnts, List.map_cons, List.flatten_cons, List.append_assoc]
      obtain ⟨hb1, hd1⟩ := drop_view data pos (wStr k) _ hpos h1
      obtain ⟨hb2, hd2⟩ := drop_view data (pos + (wStr k).length) (wStr v) _ hb1 hd1
      have hchain' : keysChainB ((acc ++ [(k, v)]) ++ m) = true := by
        rw [List.append_assoc, List.singleton_append]
        exact hchain
      show readStringMapGo data pos (m.length + 1) acc = _
      unfold readStringMapGo
      rw [readString_rt data pos k _ "map key" hpos h1 hkv.1 hkv.2.2.1]
      simp only [exBind_ok]
      rw [readString_rt data (pos + (wStr k).length) v _ "map value" hb1 hd1
        hkv.2.1 hkv.2.2.2]
      simp only [exBind_ok]
      rw [mapInsert_eq_append acc k v (keysChainB_mid k v acc m hchain)]
      rw [ih (pos + (wStr k).length + (wStr v).length) rest (acc ++ [(k, v)]) hb2 hd2
        hchain' (fun q hq => hall q (List.mem_cons_of_mem _ hq))]
      rw [List.append_assoc, List.singleton_append]
      rw [show pos + (wStr k).length + (wStr v).length + (wMapEnts m).length
        = pos + (wMapEnts ((k, v) :: m)).length from by
          simp only [wMapEnts, List.map_cons, List.flatten_cons, List.length_append]
          omega]

theorem readPeerMetaMapGo_rt (data : List Nat) :
    ∀ (m : List (RStr × Bool)) (pos : Nat) (rest : List Nat)
      (acc : List (RStr × Bool)),
    pos ≤ data.length →
    data.drop pos = wPeerEnts m ++ rest →
    keysChainB (acc ++ m) = true →
    (∀ kv ∈ m, kv.1.length < 2 ^ 32 ∧ validUtf8 kv.1 = true) →
    readPeerMetaMapGo data pos m.length acc =
      Except.ok (acc ++ m, pos + (wPeerEnts m).length) := by
  intro m
  induction m with
  | nil =>
      intro pos rest acc hpos h hchain hall
      simp [readPeerMetaMapGo, wPeerEnts]
  | cons kv m ih =>
      obtain ⟨k, flag⟩ := kv
      intro pos rest acc hpos h hchain hall
      have hkv := hall (k, flag) (List.mem_cons_self _ _)
      have h1 : data.drop pos =
          wStr k ++ ((if flag then 1 else 0) :: (wPeerEnts m ++ rest)) := by
        rw [h]
        simp [wPeerEnts, List.map_cons, List.flatten_cons, List.append_assoc]
      obtain ⟨hb1, hd1⟩ := drop_view data pos (wStr k) _ hpos h1
      have hlt : pos + (wStr k).length < data.length := pos_lt_of_drop_cons hd1
      have hflag : data.getD (pos + (wStr k).length) 256 = if flag then 1 else 0 := by
        have hs := getD_shift data (pos + (wStr k).length) 0 256
        rw [Nat.add_zero] at hs
        rw [hs, hd1]
        rfl
      obtain ⟨hb2, hd2⟩ := drop_view data (pos + (wStr k).length)
        [if flag then 1 else 0] (wPeerEnts m ++ rest) (by omega)
        (by rw [hd1]; rfl)
      rw [show [if flag then (1 : Nat) else 0].length = 1 from rfl] at hb2 hd2
      have hchain' : keysChainB ((acc ++ [(k, flag)]) ++ m) = true := by
        rw [List.append_assoc, List.singleton_append]
        exact hchain
      show readPeerMetaMapGo data pos (m.length + 1) acc = _
      unfold readPeerMetaMapGo
      rw [readString_rt data pos k _ "peer meta key" hpos h1 hkv.1 hkv.2]
      simp only [exBind_ok]
      rw [if_pos hlt, hflag]
      have hrec := ih (pos + (wStr k).length + 1) rest (acc ++ [(k, flag)])
        (by omega) hd2 hchain' (fun q hq => hall q (List.mem_cons_of_mem _ hq))
      have hlen : pos + (wStr k).length + 1 + (wPeerEnts m).length
          = pos + (wPeerEnts ((k, flag) :: m)).length := by
        simp only [wPeerEnts, List.map_cons, List.flatten_cons, List.length_append,
          List.length_cons, List.length_nil]
        omega
      cases flag with
      | false =>
          show readPeerMetaMapGo data (pos + (wStr k).length + 1) m.length
            (mapInsert acc k false) = _
          rw [mapInsert_eq_append acc k false (keysChainB_mid k false acc m hchain)]
          rw [hrec, List.append_assoc, List.singleton_append, hlen]
      | true =>
          show readPeerMetaMapGo data (pos + (wStr k).length + 1) m.length
            (mapInsert acc k true) = _
          rw [mapInsert_eq_append acc k true (keysChainB_mid k true acc m hchain)]
          rw [hrec, List.append_assoc, List.singleton_append, hlen]

theorem readStringListGo_rt (data : List Nat) :
    ∀ (xs : List RStr) (pos : Nat) (rest : List Nat) (acc : List RStr),
    pos ≤ data.length →
    data.drop pos = wListEnts xs ++ rest →
    (∀ s ∈ xs, s.length < 2 ^ 32 ∧ validUtf8 s = true) →
    readStringListGo data pos xs.length acc =
      Except.ok (acc ++ xs, pos + (wListEnts xs).length) := by
  intro xs
  induction xs with
  | nil =>
      intro pos rest acc hpos h hall
      simp [readStringListGo, wListEnts]
  | cons s xs ih =>
      intro pos rest acc hpos h hall
      have hs := hall s (List.mem_cons_self _ _)
      have h1 : data.drop pos = wStr s ++ (wListEnts xs ++ rest) := by
        rw [h]
        simp [wListEnts, List.map_cons, List.flatten_cons, List.append_assoc]
      obtain ⟨hb1, hd1⟩ := drop_view data pos (wStr s) _ hpos h1
      show readStringListGo data pos (xs.length + 1) acc = _
      unfold readStringListGo
      rw [readString_rt data pos s _ "list item" hpos h1 hs.1 hs.2]
      simp only [exBind_ok]
      rw [ih (pos + (wStr s).length) rest (acc ++ [s]) hb1 hd1
        (fun q hq => hall q (List.mem_cons_of_mem _ hq))]
      rw [List.append_assoc, List.singleton_append]
      rw [show pos + (wStr s).length + (wListEnts xs).length
        = pos + (wListEnts (s :: xs)).length from by
          simp only [wListEnts, List.map_cons, List.flatten_cons, List.length_append]
          omega]

/-! ### Composite reader wrappers under well-formedness -/

theorem readOptionString_wf (data : List Nat) (pos : Nat) (o : Option RStr)
    (rest : List Nat) (hpos : pos ≤ data.length)
    (h : data.drop pos = wOpt o ++ rest)
    (hb : encodedOptLen o ≤ MAX_LOCKFILE_SIZE) (hwf : optWFB o = true) :
    readOptionString data pos = Except.ok (o, pos + (wOpt o).length) :=
  readOptionString_rt data pos o rest hpos h
    (fun s hs => by
      subst hs
      simp only [encodedOptLen, encodedStrLen, MAX_LOCKFILE_SIZE] at hb
      omega)
    hwf

theorem readStringMap_wf (data : List Nat) (pos : Nat) (m : List (RStr × RStr))
    (rest : List Nat) (hpos : pos ≤ data.length)
    (h : data.drop pos = wStrMap m ++ rest)
    (hb : encodedMapLen m ≤ MAX_LOCKFILE_SIZE) (hwf : strMapWFB m = true) :
    readStringMap data pos = Except.ok (m, pos + (wStrMap m).length) := by
  rw [strMapWFB, Bool.and_eq_true] at hwf
  have hml : m.length < 2 ^ 32 := by
    have h1 : m.length ≤
        (m.map (fun kv => encodedStrLen kv.1 + encodedStrLen kv.2)).sum :=
      length_le_sum_map m (fun kv => encodedStrLen kv.1 + encodedStrLen kv.2)
        (fun kv _ => by simp only [encodedStrLen]; omega)
    unfold encodedMapLen at hb
    unfold MAX_LOCKFILE_SIZE at hb
    omega
  have hall : ∀ kv ∈ m, kv.1.length < 2 ^ 32 ∧ kv.2.length < 2 ^ 32 ∧
      validUtf8 kv.1 = true ∧ validUtf8 kv.2 = true := by
    intro kv hkv
    have h1 : encodedStrLen kv.1 + encodedStrLen kv.2 ≤
        (m.map (fun kv => encodedStrLen kv.1 + encodedStrLen kv.2)).sum :=
      mem_le_sum_map m (fun kv => encodedStrLen kv.1 + encodedStrLen kv.2) kv hkv
    have h2 : encodedStrLen kv.1 + encodedStrLen kv.2 ≤ MAX_LOCKFILE_SIZE := by
      unfold encodedMapLen at hb
      omega
    unfold encodedStrLen MAX_LOCKFILE_SIZE at h2
    have hutf := List.all_eq_true.mp hwf.2 kv hkv
    rw [Bool.and_eq_true] at hutf
    exact ⟨by omega, by omega, hutf.1, hutf.2⟩
  have h' : data.drop pos = writeU32 m.length ++ (wMapEnts m ++ rest) := by
    rw [h, wStrMap, List.append_assoc]
  obtain ⟨hb4, hd4⟩ := drop_view data pos (writeU32 m.length) _ hpos h'
  rw [show (writeU32 m.length).length = 4 from rfl] at hb4 hd4
  unfold readStringMap
  rw [readLen_rt data pos m.length _ "map length" hpos h' hml]
  simp only [exBind_ok]
  rw [readStringMapGo_rt data m (pos + 4) rest [] (by omega) hd4
    (by simpa using hwf.1) hall]
  rw [List.nil_append]
  rw [show pos + 4 + (wMapEnts m).length = pos + (wStrMap m).length from by
    rw [wStrMap, List.length_append, show (writeU32 m.length).length = 4 from rfl]
    omega]

theorem readPeerMetaMap_wf (data : List Nat) (pos : Nat) (m : List (RStr × Bool))
    (rest : List Nat) (hpos : pos ≤ data.length)
    (h : data.drop pos = wPeerMap m ++ rest)
    (hb : encodedPeerMetaLen m ≤ MAX_LOCKFILE_SIZE) (hwf : peerMetaWFB m = true) :
    readPeerMetaMap data pos = Except.ok (m, pos + (wPeerMap m).length) := by
  rw [peerMetaWFB, Bool.and_eq_true] at hwf
  have hml : m.length < 2 ^ 32 := by
    have h1 : m.length ≤ (m.map (fun kv => encodedStrLen kv.1 + 1)).sum :=
      length_le_sum_map m (fun kv => encodedStrLen kv.1 + 1)
        (fun kv _ => Nat.le_add_left 1 _)
    unfold encodedPeerMetaLen at hb
    unfold MAX_LOCKFILE_SIZE at hb
    omega
  have hall : ∀ kv ∈ m, kv.1.length < 2 ^ 32 ∧ validUtf8 kv.1 = true := by
    intro kv hkv
    have h1 : encodedStrLen kv.1 + 1 ≤
        (m.map (fun kv => encodedStrLen kv.1 + 1)).sum :=
      mem_le_sum_map m (fun kv => encodedStrLen kv.1 + 1) kv hkv
    have h2 : encodedStrLen kv.1 + 1 ≤ MAX_LOCKFILE_SIZE := by
      unfold encodedPeerMetaLen at hb
      omega
    unfold encodedStrLen MAX_LOCKFILE_SIZE at h2
    exact ⟨by omega, List.all_eq_true.mp hwf.2 kv hkv⟩
  have h' : data.drop pos = writeU32 m.length ++ (wPeerEnts m ++ rest) := by
    rw [h, wPeerMap, List.append_assoc]
  obtain ⟨hb4, hd4⟩ := drop_view data pos (writeU32 m.length) _ hpos h'
  rw [show (writeU32 m.length).length = 4 from rfl] at hb4 hd4
  unfold readPeerMetaMap
  rw [readLen_rt data pos m.length _ "peer meta map length" hpos h' hml]
  simp only [exBind_ok]
  rw [readPeerMetaMapGo_rt data m (pos + 4) rest [] (by omega) hd4
    (by simpa using hwf.1) hall]
  rw [List.nil_append]
  rw [show pos + 4 + (wPeerEnts m).length = pos + (wPeerMap m).length from by
    rw [wPeerMap, List.length_append, show (writeU32 m.length).length = 4 from rfl]
    omega]

theorem readStringList_wf (data : List Nat) (pos : Nat) (xs : List RStr)
    (rest : List Nat) (hpos : pos ≤ data.length)
    (h : data.drop pos = wStrList xs ++ rest)
    (hb : encodedListLen xs ≤ MAX_LOCKFILE_SIZE)
    (hwf : xs.all validUtf8 = true) :
    readStringList data pos = Except.ok (xs, pos + (wStrList xs).length) := by
  have hml : xs.length < 2 ^ 32 := by
    have h1 : xs.length ≤ (xs.map encodedStrLen).sum :=
      length_le_sum_map xs encodedStrLen
        (fun s _ => by simp only [encodedStrLen]; omega)
    unfold encodedListLen at hb
    unfold MAX_LOCKFILE_SIZE at hb
    omega
  have hall : ∀ s ∈ xs, s.length < 2 ^ 32 ∧ validUtf8 s = true := by
    intro s hs
    have h1 : encodedStrLen s ≤ (xs.map encodedStrLen).sum :=
      mem_le_sum_map xs encodedStrLen s hs
    have h2 : encodedStrLen s ≤ MAX_LOCKFILE_SIZE := by
      unfold encodedListLen at hb
      omega
    unfold encodedStrLen MAX_LOCKFILE_SIZE at h2
    exact ⟨by omega, List.all_eq_true.mp hwf s hs⟩
  have h' : data.drop pos = writeU32 xs.length ++ (wListEnts xs ++ rest) := by
    rw [h, wStrList, List.append_assoc]
  obtain ⟨hb4, hd4⟩ := drop_view data pos (writeU32 xs.length) _ hpos h'
  rw [show (writeU32 xs.length).length = 4 from rfl] at hb4 hd4
  unfold readStringList
  rw [readLen_rt data pos xs.length _ "list length" hpos h' hml]
  simp only [exBind_ok]
  rw [readStringListGo_rt data xs (pos + 4) rest [] (by omega) hd4 hall]
  rw [List.nil_append]
  rw [show pos + 4 + (wListEnts xs).length = pos + (wStrList xs).length from by
    rw [wStrList, List.length_append, show (writeU32 xs.length).length = 4 from rfl]
    omega]

theorem readOsCpu_rt (data : List Nat) (pos : Nat) (os cpu : List RStr)
    (rest : List Nat) (hpos : pos ≤ data.length)
    (h : data.drop pos = wStrList os ++ (wStrList cpu ++ rest))
    (hbos : encodedListLen os ≤ MAX_LOCKFILE_SIZE)
    (hbcpu : encodedListLen cpu ≤ MAX_LOCKFILE_SIZE)
    (hwfos : os.all validUtf8 = true) (hwfcpu : cpu.all validUtf8 = true) :
    readOsCpu data pos CURRENT_WIRE_VERSION = Except.ok ((os, cpu),
      pos + (wStrList os).length + (wStrList cpu).length) := by
  obtain ⟨hb1, hd1⟩ := drop_view data pos (wStrList os) _ hpos h
  unfold readOsCpu
  rw [if_pos (by decide : CURRENT_WIRE_VERSION ≥ 2)]
  rw [readStringList_wf data pos os _ hpos h hbos hwfos]
  simp only [exBind_ok]
  rw [readStringList_wf data (pos + (wStrList os).length) cpu rest hb1 hd1
    hbcpu hwfcpu]
  rfl

theorem readStoreQuad_rt (data : List Nat) (pos : Nat)
    (sk ch lm sp : Option RStr) (rest : List Nat) (hpos : pos ≤ data.length)
    (h : data.drop pos = wOpt sk ++ (wOpt ch ++ (wOpt lm ++ (wOpt sp ++ rest))))
    (hbsk : encodedOptLen sk ≤ MAX_LOCKFILE_SIZE)
    (hbch : encodedOptLen ch ≤ MAX_LOCKFILE_SIZE)
    (hblm : encodedOptLen lm ≤ MAX_LOCKFILE_SIZE)
    (hbsp : encodedOptLen sp ≤ MAX_LOCKFILE_SIZE)
    (hwfsk : optWFB sk = true) (hwfch : optWFB ch = true)
    (hwflm : optWFB lm = true) (hwfsp : optWFB sp = true) :
    readStoreQuad data pos CURRENT_WIRE_VERSION = Except.ok ((sk, ch, lm, sp),
      pos + (wOpt sk).length + (wOpt ch).length + (wOpt lm).length
        + (wOpt sp).length) := by
  obtain ⟨hb1, hd1⟩ := drop_view data pos (wOpt sk) _ hpos h
  obtain ⟨hb2, hd2⟩ := drop_view data (pos + (wOpt sk).length) (wOpt ch) _ hb1 hd1
  obtain ⟨hb3, hd3⟩ := drop_view data (pos + (wOpt sk).length + (wOpt ch).length)
    (wOpt lm) _ hb2 hd2
  unfold readStoreQuad
  rw [if_pos (by decide : CURRENT_WIRE_VERSION ≥ 3)]
  rw [readOptionString_wf data pos sk _ hpos h hbsk hwfsk]
  simp only [exBind_ok]
  rw [readOptionString_wf data (pos + (wOpt sk).length) ch _ hb1 hd1 hbch hwfch]
  simp only [exBind_ok]
  rw [readOptionString_wf data (pos + (wOpt sk).length + (wOpt ch).length) lm _
    hb2 hd2 hblm hwflm]
  simp only [exBind_ok]
  rw [readOptionString_wf data
    (pos + (wOpt sk).length + (wOpt ch).length + (wOpt lm).length) sp rest
    hb3 hd3 hbsp hwfsp]
  rfl

set_option maxHeartbeats 2000000 in
theorem readEntry_rt (data : List Nat) (pos : Nat) (name : RStr)
    (e : PackageEntry) (rest : List Nat) (hpos : pos ≤ data.length)
    (h : data.drop pos = wEntry name e ++ rest)
    (hb : encodedEntryLen name e ≤ MAX_LOCKFILE_SIZE)
    (hutfn : validUtf8 name = true) (hwf : entryWFB e = true) :
    readEntry data pos CURRENT_WIRE_VERSION =
      Except.ok ((name, e), pos + (wEntry name e).length) := by
  simp only [entryWFB, Bool.and_eq_true] at hwf
  obtain ⟨⟨⟨⟨⟨⟨⟨⟨⟨⟨⟨⟨⟨hv, hi⟩, hr⟩, hd⟩, hdd⟩, hod⟩, hpd⟩, hpm⟩, hos⟩, hcpu⟩,
    hsk⟩, hch⟩, hlm⟩, hsp⟩ := hwf
  have hname32 : name.length < 2 ^ 32 := by
    have h1 : encodedStrLen name ≤ MAX_LOCKFILE_SIZE := by
      unfold encodedEntryLen at hb
      omega
    unfold encodedStrLen MAX_LOCKFILE_SIZE at h1
    omega
  have hbv : encodedOptLen e.version ≤ MAX_LOCKFILE_SIZE := by
    unfold encodedEntryLen at hb; omega
  have hbi : encodedOptLen e.integrity ≤ MAX_LOCKFILE_SIZE := by
    unfold encodedEntryLen at hb; omega
  have hbr : encodedOptLen e.resolved ≤ MAX_LOCKFILE_SIZE := by
    unfold encodedEntryLen at hb; omega
  have hbd : encodedMapLen e.dependencies ≤ MAX_LOCKFILE_SIZE := by
    unfold encodedEntryLen at hb; omega
  have hbdd : encodedMapLen e.dev_dependencies ≤ MAX_LOCKFILE_SIZE := by
    unfold encodedEntryLen at hb; omega
  have hbod : encodedMapLen e.optional_dependencies ≤ MAX_LOCKFILE_SIZE := by
    unfold encodedEntryLen at hb; omega
  have hbpd : encodedMapLen e.peer_dependencies ≤ MAX_LOCKFILE_SIZE := by
    unfold encodedEntryLen at hb; omega
  have hbpm : encodedPeerMetaLen e.peer_dependencies_meta ≤ MAX_LOCKFILE_SIZE := by
    unfold encodedEntryLen at hb; omega
  have hbos : encodedListLen e.os ≤ MAX_LOCKFILE_SIZE := by
    unfold encodedEntryLen at hb; omega
  have hbcpu : encodedListLen e.cpu_arch ≤ MAX_LOCKFILE_SIZE := by
    unfold encodedEntryLen at hb; omega
  have hbsk : encodedOptLen e.store_key ≤ MAX_LOCKFILE_SIZE := by
    unfold encodedEntryLen at hb; omega
  have hbch : encodedOptLen e.content_hash ≤ MAX_LOCKFILE_SIZE := by
    unfold encodedEntryLen at hb; omega
  have hblm : encodedOptLen e.link_mode ≤ MAX_LOCKFILE_SIZE := by
    unfold encodedEntryLen at hb; omega
  have hbsp : encodedOptLen e.store_path ≤ MAX_LOCKFILE_SIZE := by
    unfold encodedEntryLen at hb; omega
  have h0 : data.drop pos = wStr name ++ (wOpt e.version ++ (wOpt e.integrity ++
      (wOpt e.resolved ++ (wStrMap e.dependencies ++ (wStrMap e.dev_dependencies ++
      (wStrMap e.optional_dependencies ++ (wStrMap e.peer_dependencies ++
      (wPeerMap e.peer_dependencies_meta ++ (wStrList e.os ++ (wStrList e.cpu_arch ++
      (wOpt e.store_key ++ (wOpt e.content_hash ++ (wOpt e.link_mode ++
      (wOpt e.store_path ++ rest)))))))))))))) := by
    rw [h, wEntry]
    simp only [List.append_assoc]
  obtain ⟨hp1, hq1⟩ := drop_view data pos (wStr name) _ hpos h0
  obtain ⟨hp2, hq2⟩ := drop_view data (pos + (wStr name).length)
    (wOpt e.version) _ hp1 hq1
  obtain ⟨hp3, hq3⟩ := drop_view data
    (pos + (wStr name).length + (wOpt e.version).length)
    (wOpt e.integrity) _ hp2 hq2
  obtain ⟨hp4, hq4⟩ := drop_view data
    (pos + (wStr name).length + (wOpt e.version).length + (wOpt e.integrity).length)
    (wOpt e.resolved) _ hp3 hq3
  obtain ⟨hp5, hq5⟩ := drop_view data
    (pos + (wStr name).length + (wOpt e.version).length + (wOpt e.integrity).length
      + (wOpt e.resolved).length)
    (wStrMap e.dependencies) _ hp4 hq4
  obtain ⟨hp6, hq6⟩ := drop_view data
    (pos + (wStr name).length + (wOpt e.version).length + (wOpt e.integrity).length
      + (wOpt e.resolved).length + (wStrMap e.dependencies).length)
    (wStrMap e.dev_dependencies) _ hp5 hq5
  obtain ⟨hp7, hq7⟩ := drop_view data
    (pos + (wStr name).length + (wOpt e.version).length + (wOpt e.integrity).length
      + (wOpt e.resolved).length + (wStrMap e.dependencies).length
      + (wStrMap e.dev_dependencies).length)
    (wStrMap e.optional_dependencies) _ hp6 hq6
  obtain ⟨hp8, hq8⟩ := drop_view data
    (pos + (wStr name).length + (wOpt e.version).length + (wOpt e.integrity).length
      + (wOpt e.resolved).length + (wStrMap e.dependencies).length
      + (wStrMap e.dev_dependencies).length + (wStrMap e.optional_dependencies).length)
    (wStrMap e.peer_dependencies) _ hp7 hq7
  obtain ⟨hp9, hq9⟩ := drop_view data
    (pos + (wStr name).length + (wOpt e.version).length + (wOpt e.integrity).length
      + (wOpt e.resolved).length + (wStrMap e.dependencies).length
      + (wStrMap e.dev_dependencies).length + (wStrMap e.optional_dependencies).length
      + (wStrMap e.peer_dependencies).length)
    (wPeerMap e.peer_dependencies_meta) _ hp8 hq8
  obtain ⟨hp10, hq10⟩ := drop_view data
    (pos + (wStr name).length + (wOpt e.version).length + (wOpt e.integrity).length
      + (wOpt e.resolved).length + (wStrMap e.dependencies).length
      + (wStrMap e.dev_dependencies).length + (wStrMap e.optional_dependencies).length
      + (wStrMap e.peer_dependencies).length + (wPeerMap e.peer_dependencies_meta).length)
    (wStrList e.os) _ hp9 hq9
  obtain ⟨hp11, hq11⟩ := drop_view data
    (pos + (wStr name).length + (wOpt e.version).length + (wOpt e.integrity).length
      + (wOpt e.resolved).length + (wStrMap e.dependencies).length
      + (wStrMap e.dev_dependencies).length + (wStrMap e.optional_dependencies).length
      + (wStrMap e.peer_dependencies).length + (wPeerMap e.peer_dependencies_meta).length
      + (wStrList e.os).length)
    (wStrList e.cpu_arch) _ hp10 hq10
  unfold readEntry
  rw [readString_rt data pos name _ "package key" hpos h0 hname32 hutfn]
  simp only [exBind_ok]
  rw [readOptionString_wf data (pos + (wStr name).length) e.version _ hp1 hq1 hbv hv]
  simp only [exBind_ok]
  rw [readOptionString_wf data
    (pos + (wStr name).length + (wOpt e.version).length) e.integrity _ hp2 hq2 hbi hi]
  simp only [exBind_ok]
  rw [readOptionString_wf data
    (pos + (wStr name).length + (wOpt e.version).length + (wOpt e.integrity).length)
    e.resolved _ hp3 hq3 hbr hr]
  simp only [exBind_ok]
  rw [readStringMap_wf data
    (pos + (wStr name).length + (wOpt e.version).length + (wOpt e.integrity).length
      + (wOpt e.resolved).length)
    e.dependencies _ hp4 hq4 hbd hd]
  simp only [exBind_ok]
  rw [readStringMap_wf data
    (pos + (wStr name).length + (wOpt e.version).length + (wOpt e.integrity).length
      + (wOpt e.resolved).length + (wStrMap e.dependencies).length)
    e.dev_dependencies _ hp5 hq5 hbdd hdd]
  simp only [exBind_ok]
  rw [readStringMap_wf data
    (pos + (wStr name).length + (wOpt e.version).length + (wOpt e.integrity).length
      + (wOpt e.resolved).length + (wStrMap e.dependencies).length
      + (wStrMap e.dev_dependencies).length)
    e.optional_dependencies _ hp6 hq6 hbod hod]
  simp only [exBind_ok]
  rw [readStringMap_wf data
    (pos + (wStr name).length + (wOpt e.version).length + (wOpt e.integrity).length
      + (wOpt e.resolved).length + (wStrMap e.dependencies).length
      + (wStrMap e.dev_dependencies).length + (wStrMap e.optional_dependencies).length)
    e.peer_dependencies _ hp7 hq7 hbpd hpd]
  simp only [exBind_ok]
  rw [readPeerMetaMap_wf data
    (pos + (wStr name).length + (wOpt e.version).length + (wOpt e.integrity).length
      + (wOpt e.resolved).length + (wStrMap e.dependencies).length
      + (wStrMap e.dev_dependencies).length + (wStrMap e.optional_dependencies).length
      + (wStrMap e.peer_dependencies).length)
    e.peer_dependencies_meta _ hp8 hq8 hbpm hpm]
  simp only [exBind_ok]
  rw [readOsCpu_rt data
    (pos + (wStr name).length + (wOpt e.version).length + (wOpt e.integrity).length
      + (wOpt e.resolved).length + (wStrMap e.dependencies).length
      + (wStrMap e.dev_dependencies).length + (wStrMap e.optional_dependencies).length
      + (wStrMap e.peer_dependencies).length + (wPeerMap e.peer_dependencies_meta).length)
    e.os e.cpu_arch _ hp9 hq9 hbos hbcpu hos hcpu]
  simp only [exBind_ok]
  rw [readStoreQuad_rt data
    (pos + (wStr name).length + (wOpt e.version).length + (wOpt e.integrity).length
      + (wOpt e.resolved).length + (wStrMap e.dependencies).length
      + (wStrMap e.dev_dependencies).length + (wStrMap e.optional_dependencies).length
      + (wStrMap e.peer_dependencies).length + (wPeerMap e.peer_dependencies_meta).length
      + (wStrList e.os).length + (wStrList e.cpu_arch).length)
    e.store_key e.content_hash e.link_mode e.store_path _ hp11 hq11
    hbsk hbch hblm hbsp hsk hch hlm hsp]
  simp only [exBind_ok]
  rw [show pos + (wStr name).length + (wOpt e.version).length + (wOpt e.integrity).length
      + (wOpt e.resolved).length + (wStrMap e.dependencies).length
      + (wStrMap e.dev_dependencies).length + (wStrMap e.optional_dependencies).length
      + (wStrMap e.peer_dependencies).length + (wPeerMap e.peer_dependencies_meta).length
      + (wStrList e.os).length + (wStrList e.cpu_arch).length + (wOpt e.store_key).length
      + (wOpt e.content_hash).length + (wOpt e.link_mode).length
      + (wOpt e.store_path).length
      = pos + (wEntry name e).length from by
    rw [wEntry]
    simp only [List.length_append]
    omega]

theorem readEntriesGo_rt (data : List Nat) :
    ∀ (m : List (RStr × PackageEntry)) (pos : Nat) (rest : List Nat)
      (acc : List (RStr × PackageEntry)),
    pos ≤ data.length →
    data.drop pos = (m.map (fun p => wEntry p.1 p.2)).flatten ++ rest →
    keysChainB (acc ++ m) = true →
    (∀ p ∈ m, validUtf8 p.1 = true ∧ entryWFB p.2 = true ∧
      encodedEntryLen p.1 p.2 ≤ MAX_LOCKFILE_SIZE) →
    readEntriesGo data CURRENT_WIRE_VERSION m.length pos acc =
      Except.ok (acc ++ m,
        pos + ((m.map (fun p => wEntry p.1 p.2)).flatten).length) := by
  intro m
  induction m with
  | nil =>
      intro pos rest acc hpos h hchain hall
      simp [readEntriesGo]
  | cons p m ih =>
      obtain ⟨k, e⟩ := p
      intro pos rest acc hpos h hchain hall
      have hp := hall (k, e) (List.mem_cons_self _ _)
      have h1 : data.drop pos =
          wEntry k e ++ ((m.map (fun p => wEntry p.1 p.2)).flatten ++ rest) := by
        rw [h]
        simp [List.map_cons, List.flatten_cons, List.append_assoc]
      obtain ⟨hb1, hd1⟩ := drop_view data pos (wEntry k e) _ hpos h1
      show readEntriesGo data CURRENT_WIRE_VERSION (m.length + 1) pos acc = _
      unfold readEntriesGo
      rw [readEntry_rt data pos k e _ hpos h1 hp.2.2 hp.1 hp.2.1]
      simp only [exBind_ok]
      rw [mapInsert_eq_append acc k e (keysChainB_mid k e acc m hchain)]
      rw [ih (pos + (wEntry k e).length) rest (acc ++ [(k, e)]) hb1 hd1
        (by rw [List.append_assoc, List.singleton_append]; exact hchain)
        (fun q hq => hall q (List.mem_cons_of_mem _ hq))]
      rw [List.append_assoc, List.singleton_append]
      rw [show pos + (wEntry k e).length
          + ((m.map (fun p => wEntry p.1 p.2)).flatten).length
        = pos + ((((k, e) :: m).map (fun p => wEntry p.1 p.2)).flatten).length from by
          simp only [List.map_cons, List.flatten_cons, List.length_append]
          omega]

theorem parsePackagesSection_rt (lf : Lockfile) (hwf : lockfileWFB lf = true)
    (hb : sectionLen lf ≤ MAX_LOCKFILE_SIZE) :
    parsePackagesSection (wSection lf) CURRENT_WIRE_VERSION =
      Except.ok lf.packages := by
  rw [lockfileWFB, Bool.and_eq_true, Bool.and_eq_true] at hwf
  obtain ⟨⟨hfmt, hchain⟩, hall⟩ := hwf
  have hcount : lf.packages.length < 2 ^ 32 := by
    have h1 : lf.packages.length ≤
        (lf.packages.map (fun p => encodedEntryLen p.1 p.2)).sum :=
      length_le_sum_map lf.packages (fun p => encodedEntryLen p.1 p.2)
        (fun p _ => one_le_encodedEntryLen p.1 p.2)
    unfold sectionLen at hb
    unfold MAX_LOCKFILE_SIZE at hb
    omega
  have hdata : (wSection lf).drop 0 = writeU32 lf.packages.length ++
      ((lf.packages.map (fun p => wEntry p.1 p.2)).flatten ++ []) := by
    rw [List.drop_zero, wSection, List.append_nil]
  obtain ⟨hb4, hd4⟩ := drop_view (wSection lf) 0 (writeU32 lf.packages.length) _
    (Nat.zero_le _) hdata
  rw [show (writeU32 lf.packages.length).length = 4 from rfl] at hb4 hd4
  have hallm : ∀ p ∈ lf.packages, validUtf8 p.1 = true ∧ entryWFB p.2 = true ∧
      encodedEntryLen p.1 p.2 ≤ MAX_LOCKFILE_SIZE := by
    intro p hp
    have hu := List.all_eq_true.mp hall p hp
    rw [Bool.and_eq_true] at hu
    have h1 : encodedEntryLen p.1 p.2 ≤
        (lf.packages.map (fun p => encodedEntryLen p.1 p.2)).sum :=
      mem_le_sum_map lf.packages (fun p => encodedEntryLen p.1 p.2) p hp
    refine ⟨hu.1, hu.2, ?_⟩
    unfold sectionLen at hb
    omega
  unfold parsePackagesSection
  rw [readLen_rt (wSection lf) 0 lf.packages.length _ "package count"
    (Nat.zero_le _) hdata hcount]
  simp only [exBind_ok]
  rw [readEntriesGo_rt (wSection lf) lf.packages (0 + 4) [] [] hb4 hd4
    (by simpa using hchain) hallm]
  simp only [exBind_ok]
  rw [List.nil_append]
  rw [if_pos (show 0 + 4 + ((lf.packages.map (fun p => wEntry p.1 p.2)).flatten).length
      = (wSection lf).length by
    rw [wSection, List.length_append,
      show (writeU32 lf.packages.length).length = 4 from rfl])]

theorem encBuf_len (lf : Lockfile) : (encBuf lf).length = 24 + sectionLen lf := by
  have hm : LOCKFILE_MAGIC.length = 8 := rfl
  simp only [encBuf, List.length_append, writeU16, writeU32, List.length_cons,
    List.length_nil, hm, wSection_len]
  omega

set_option maxHeartbeats 2000000 in
theorem decode_encBuf (lf : Lockfile) (hwf : lockfileWFB lf = true)
    (hsize : sectionLen lf + 24 ≤ MAX_LOCKFILE_SIZE) :
    decodeCurrentBinary (encBuf lf) = Except.ok lf := by
  have hm8 : LOCKFILE_MAGIC.length = 8 := rfl
  have hdl := encBuf_len lf
  have hmax : MAX_LOCKFILE_SIZE = 16777216 := rfl
  have hfmt : lf.format < 2 ^ 32 := by
    have hwf2 := hwf
    rw [lockfileWFB, Bool.and_eq_true, Bool.and_eq_true] at hwf2
    exact of_decide_eq_true hwf2.1.1
  have hsplit : encBuf lf = LOCKFILE_MAGIC ++ (writeU16 CURRENT_WIRE_VERSION ++
      (writeU16 0 ++ (writeU32 lf.format ++ (writeU32 (sectionLen lf) ++
      (wSection lf ++ writeU32 0))))) := by
    rw [encBuf]
    simp [List.append_assoc]
  have hd0 : (encBuf lf).drop LOCKFILE_MAGIC.length =
      writeU16 CURRENT_WIRE_VERSION ++ (writeU16 0 ++ (writeU32 lf.format ++
      (writeU32 (sectionLen lf) ++ (wSection lf ++ writeU32 0)))) := by
    rw [hsplit, List.drop_left]
  have hpos0 : LOCKFILE_MAGIC.length ≤ (encBuf lf).length := by
    rw [hm8, hdl]
    omega
  obtain ⟨hb1, hd1⟩ := drop_view (encBuf lf) LOCKFILE_MAGIC.length
    (writeU16 CURRENT_WIRE_VERSION) _ hpos0 hd0
  rw [show (writeU16 CURRENT_WIRE_VERSION).length = 2 from rfl] at hb1 hd1
  obtain ⟨hb2, hd2⟩ := drop_view (encBuf lf) (LOCKFILE_MAGIC.length + 2)
    (writeU16 0) _ hb1 hd1
  rw [show (writeU16 0).length = 2 from rfl] at hb2 hd2
  obtain ⟨hb3, hd3⟩ := drop_view (encBuf lf) (LOCKFILE_MAGIC.length + 2 + 2)
    (writeU32 lf.format) _ hb2 hd2
  rw [show (writeU32 lf.format).length = 4 from rfl] at hb3 hd3
  obtain ⟨hb4, hd4⟩ := drop_view (encBuf lf) (LOCKFILE_MAGIC.length + 2 + 2 + 4)
    (writeU32 (sectionLen lf)) _ hb3 hd3
  rw [show (writeU32 (sectionLen lf)).length = 4 from rfl] at hb4 hd4
  have hsec32 : sectionLen lf < 2 ^ 32 := by
    rw [hmax] at hsize
    omega
  have hslice : ((encBuf lf).drop (LOCKFILE_MAGIC.length + 2 + 2 + 4 + 4)).take
      (sectionLen lf) = wSection lf := by
    rw [hd4, ← wSection_len lf, List.take_left]
  have hparse := parsePackagesSection_rt lf hwf (by omega)
  obtain ⟨hb5, hd5⟩ := drop_view (encBuf lf) (LOCKFILE_MAGIC.length + 2 + 2 + 4 + 4)
    (wSection lf) _ hb4 hd4
  rw [wSection_len lf] at hb5 hd5
  have hd5' : (encBuf lf).drop (LOCKFILE_MAGIC.length + 2 + 2 + 4 + 4 + sectionLen lf)
      = writeU32 0 ++ [] := by
    rw [hd5, List.append_nil]
  unfold decodeCurrentBinary
  rw [if_pos (show (encBuf lf).length ≤ MAX_LOCKFILE_SIZE by rw [hdl]; omega)]
  rw [if_pos (show LOCKFILE_MAGIC.isPrefixOf (encBuf lf) = true by
    rw [List.isPrefixOf_iff_prefix]
    exact ⟨_, hsplit.symm⟩)]
  rw [readU16_rt (encBuf lf) LOCKFILE_MAGIC.length CURRENT_WIRE_VERSION _
    hpos0 hd0 (by decide)]
  simp only [exBind_ok]
  rw [if_neg (show ¬(CURRENT_WIRE_VERSION ≠ CURRENT_WIRE_VERSION ∧
      CURRENT_WIRE_VERSION ≠ 2 ∧ CURRENT_WIRE_VERSION ≠ 1) by simp)]
  rw [readU16_rt (encBuf lf) (LOCKFILE_MAGIC.length + 2) 0 _ hb1 hd1 (by decide)]
  simp only [exBind_ok]
  rw [readU32_rt (encBuf lf) (LOCKFILE_MAGIC.length + 2 + 2) lf.format _
    hb2 hd2 hfmt]
  simp only [exBind_ok]
  rw [readLen_rt (encBuf lf) (LOCKFILE_MAGIC.length + 2 + 2 + 4) (sectionLen lf) _
    "packages section length" hb3 hd3 hsec32]
  simp only [exBind_ok]
  rw [if_pos (show LOCKFILE_MAGIC.length + 2 + 2 + 4 + 4 + sectionLen lf ≤
      (encBuf lf).length by rw [hm8, hdl]; omega)]
  rw [hslice, hparse]
  simp only [exBind_ok]
  rw [readLen_rt (encBuf lf) (LOCKFILE_MAGIC.length + 2 + 2 + 4 + 4 + sectionLen lf)
    0 [] "extras section length" hb5 hd5' (by decide)]
  simp only [exBind_ok]
  unfold readExact
  rw [if_pos (show LOCKFILE_MAGIC.length + 2 + 2 + 4 + 4 + sectionLen lf + 4 + 0 ≤
      (encBuf lf).length by rw [hm8, hdl]; omega)]
  simp only [exBind_ok, List.take_zero]
  rw [if_pos (show LOCKFILE_MAGIC.length + 2 + 2 + 4 + 4 + sectionLen lf + 4 + 0 =
      (encBuf lf).length by rw [hm8, hdl]; omega)]

/-- Claim C1 (amended): for every well-formed lockfile value (u32 format,
strictly key-sorted BTreeMaps, valid-UTF-8 strings — properties every Rust
`Lockfile` value has by construction) whose encoded packages section plus
the 24 bytes of fixed framing fits within the 16 MiB cap,
`encode_current_binary` succeeds and `decode_current_binary` applied to
its output succeeds and returns a lockfile equal to the original,
field-for-field. -/
theorem lockfile_roundtrip (lf : Lockfile) (hwf : lockfileWFB lf = true)
    (hsize : sectionLen lf + 24 ≤ MAX_LOCKFILE_SIZE) :
    encodeCurrentBinary lf = Except.ok (encBuf lf) ∧
    decodeCurrentBinary (encBuf lf) = Except.ok lf :=
  ⟨encodeCurrentBinary_eq lf hsize, decode_encBuf lf hwf hsize⟩

/-- Section length of a one-entry lockfile with an empty entry. -/
theorem sectionLen_single (k : RStr) :
    sectionLen ⟨1, [(k, emptyPackageEntry)]⟩ = k.length + 43 := by
  unfold sectionLen
  simp only [List.map_cons, List.map_nil, List.sum_cons, List.sum_nil]
  unfold encodedEntryLen
  simp only [emptyPackageEntry, encodedStrLen, encodedOptLen, encodedMapLen,
    encodedPeerMetaLen, encodedListLen, List.map_nil, List.sum_nil]
  omega

theorem sectionLen_bigLock : sectionLen bigLock = MAX_LOCKFILE_SIZE := by
  have hkey : bigKey.length = MAX_LOCKFILE_SIZE - 43 := by
    rw [bigKey, List.length_replicate]
  rw [show bigLock = ⟨1, [(bigKey, emptyPackageEntry)]⟩ from rfl,
    sectionLen_single bigKey, hkey]
  unfold MAX_LOCKFILE_SIZE
  omega

theorem encodeCurrentBinary_too_big (lf : Lockfile)
    (hb : sectionLen lf ≤ MAX_LOCKFILE_SIZE)
    (hgt : MAX_LOCKFILE_SIZE < sectionLen lf + 24) :
    encodeCurrentBinary lf = Except.error "lockfile data exceeds limit" := by
  have hsec := encodePackagesBuf_eq lf hb
  have hslen := wSection_len lf
  have hmax : MAX_LOCKFILE_SIZE = 16777216 := rfl
  unfold encodeCurrentBinary
  rw [hsec]
  simp only [exBind_ok]
  rw [if_pos (show (wSection lf).length ≤ MAX_LOCKFILE_SIZE by rw [hslen]; omega)]
  unfold writeLen
  rw [if_pos (show (wSection lf).length < 2 ^ 32 by
    rw [hslen]
    rw [hmax] at hb
    omega)]
  simp only [exBind_ok]
  have hm : LOCKFILE_MAGIC.length = 8 := rfl
  have hbl : (LOCKFILE_MAGIC ++ writeU16 CURRENT_WIRE_VERSION ++ writeU16 0
      ++ writeU32 lf.format ++ writeU32 (wSection lf).length ++ wSection lf
      ++ writeU32 0).length = 24 + sectionLen lf := by
    simp only [List.length_append, writeU16, writeU32, List.length_cons,
      List.length_nil, hm, hslen]
    omega
  rw [if_neg (show ¬((LOCKFILE_MAGIC ++ writeU16 CURRENT_WIRE_VERSION ++ writeU16 0
      ++ writeU32 lf.format ++ writeU32 (wSection lf).length ++ wSection lf
      ++ writeU32 0).length ≤ MAX_LOCKFILE_SIZE) from by rw [hbl]; omega)]

/-- Counterexample to C1 as stated: `bigLock`'s encoded packages section
is exactly 16 MiB, within the cap the claim names, yet
`encode_current_binary` fails, because the size check is applied again to
the framed buffer, which carries 24 further bytes of magic, version,
reserved, format, section length and extras length. -/
theorem encode_section_cap_counterexample :
    encodePackagesBuf bigLock = Except.ok (wSection bigLock) ∧
    (wSection bigLock).length ≤ MAX_LOCKFILE_SIZE ∧
    encodeCurrentBinary bigLock = Except.error "lockfile data exceeds limit" := by
  have hsec := sectionLen_bigLock
  refine ⟨encodePackagesBuf_eq bigLock (le_of_eq hsec), ?_, ?_⟩
  · rw [wSection_len, hsec]
  · refine encodeCurrentBinary_too_big bigLock (le_of_eq hsec) ?_
    rw [hsec]
    unfold MAX_LOCKFILE_SIZE
    omega

/-- Witness: the round-trip theorem evaluated at the concrete `wLock`. -/
theorem lockfile_roundtrip_witness :
    lockfileWFB wLock = true ∧
    encodeCurrentBinary wLock = Except.ok (encBuf wLock) ∧
    decodeCurrentBinary (encBuf wLock) = Except.ok wLock := by
  have h := lockfile_roundtrip wLock (by decide) (by decide)
  exact ⟨by decide, h.1, h.2⟩

end Pacm
